import Mathlib

/-!
# Verification of the sorted-set core of the `sets` library

This file embeds the sorted-set subsystem of the library: the sequence
algorithms of `internal/slicesx/slicesx.go` (two-pointer batched merge and
delete with their single-pass array realizations, stable-sort-and-dedup),
and the comparator sorted set of `sorted.go` (binary search plus run scan,
single-element insert and remove, bulk operations).

Go slices are modelled as Lean lists.  Machine `int` comparator results are
modelled as `Int`.  The in-place array realizations `insertInto` and
`deleteFrom` are modelled faithfully at the index level: every slice bound
the Go code computes is checked, and a bound Go would panic on yields
`none`.  The pure scan phases are structural recursions mirroring the Go
loops, with the loop variable `ai` made an explicit argument.
-/

namespace SetsLib

variable {E : Type}

/-- Laws of a well-behaved Go comparison function (`CmpFunc`): the sign is
antisymmetric under swapping the arguments and the induced strict order is
transitive and compatible with the induced equivalence.  These are the
documented preconditions of the library (a strict weak order). -/
structure LawfulCmp (cmp : E → E → Int) : Prop where
  flip_lt : ∀ a b, cmp a b < 0 ↔ 0 < cmp b a
  lt_trans : ∀ a b c, cmp a b < 0 → cmp b c < 0 → cmp a c < 0
  lt_of_lt_of_eq : ∀ a b c, cmp a b < 0 → cmp b c = 0 → cmp a c < 0
  lt_of_eq_of_lt : ∀ a b c, cmp a b = 0 → cmp b c < 0 → cmp a c < 0

/-- Laws of a well-behaved Go equality function (`EqFunc`) relative to the
comparison function: an equivalence whose classes refine the comparator's
zero classes (the library's documented caller contract). -/
structure LawfulEq (cmp : E → E → Int) (eq : E → E → Bool) : Prop where
  refl : ∀ a, eq a a = true
  symm : ∀ a b, eq a b = true → eq b a = true
  trans : ∀ a b c, eq a b = true → eq b c = true → eq a c = true
  compat : ∀ a b, eq a b = true → cmp a b = 0

/-- The sorted-sequence invariant of the data model: non-decreasing by
order key and no two elements with equal identity. -/
def SortedUniq (cmp : E → E → Int) (eq : E → E → Bool) (l : List E) : Prop :=
  l.Pairwise (fun a b => cmp a b ≤ 0) ∧ l.Pairwise (fun a b => eq a b = false)

/-- `runEq` of `slicesx.go`: the maximal prefix run of elements whose order
key matches the first element's. -/
def runEq (cmp : E → E → Int) : List E → List E
  | [] => []
  | v0 :: rest => v0 :: rest.takeWhile (fun v => cmp v0 v == 0)

/-- The prefix run together with the remainder of the list; the run
component is exactly `runEq`. -/
def runSplit (cmp : E → E → Int) : List E → List E × List E
  | [] => ([], [])
  | v0 :: rest =>
    (v0 :: rest.takeWhile (fun v => cmp v0 v == 0),
     rest.dropWhile (fun v => cmp v0 v == 0))

theorem runSplit_fst (cmp : E → E → Int) (l : List E) :
    (runSplit cmp l).1 = runEq cmp l := by
  cases l <;> rfl

theorem runSplit_snd_length (cmp : E → E → Int) (v0 : E) (rest : List E) :
    (runSplit cmp (v0 :: rest)).2.length ≤ rest.length :=
  (rest.dropWhile_sublist _).length_le

theorem runSplit_append (cmp : E → E → Int) (l : List E) :
    (runSplit cmp l).1 ++ (runSplit cmp l).2 = l := by
  cases l with
  | nil => rfl
  | cons v0 rest => simp [runSplit, rest.takeWhile_append_dropWhile]

/-- Replace the first element identified with `x` (the realization of
`slices.IndexFunc` followed by an overwrite in both `MergeSorted`'s run
reconciliation and `uniqEqSlow`); `none` when no element matches. -/
def overwriteFirst (eq : E → E → Bool) (x : E) : List E → Option (List E)
  | [] => none
  | y :: t => if eq x y then some (x :: t) else (overwriteFirst eq x t).map (y :: ·)

/-- The run-reconciliation loop of `MergeSorted`/`mergeSortedLists`: every
element of the B-run either overwrites its first identity match in the
(live) A-run or is appended to the pending-insertion list. -/
def reconcile (eq : E → E → Bool) (ar br : List E) : List E × List E :=
  br.foldl
    (fun s b =>
      match overwriteFirst eq b s.1 with
      | some ar2 => (ar2, s.2)
      | none => (s.1, s.2 ++ [b]))
    (ar, [])

/-- The comparison loop of `MergeSorted`/`mergeSortedLists`, with the Go
index variable `ai` explicit.  Returns the (overwritten) contents of `a`,
the pending insertions `(position, value)` in order, and the unconsumed
tail of `b`. -/
def mergeScan (cmp : E → E → Int) (eq : E → E → Bool) :
    List E → List E → Nat → List E × List (Nat × E) × List E
  | [], b, _ => ([], [], b)
  | a0 :: a', [], _ => (a0 :: a', [], [])
  | a0 :: a', b0 :: b', ai =>
    let c := cmp a0 b0
    if c < 0 then
      let r := mergeScan cmp eq a' (b0 :: b') (ai + 1)
      (a0 :: r.1, r.2.1, r.2.2)
    else if c > 0 then
      let r := mergeScan cmp eq (a0 :: a') b' ai
      (r.1, (ai, b0) :: r.2.1, r.2.2)
    else
      let sa := runSplit cmp (a0 :: a')
      let sb := runSplit cmp (b0 :: b')
      let p := reconcile eq sa.1 sb.1
      let r := mergeScan cmp eq sa.2 sb.2 (ai + sa.1.length)
      (p.1 ++ r.1, p.2.map (fun e => (ai + sa.1.length, e)) ++ r.2.1, r.2.2)
  termination_by a b _ => a.length + b.length
  decreasing_by
  all_goals
    first
    | (simp only [List.length_cons]; omega)
    | (simp only [runSplit, List.length_cons]
       exact Nat.lt_of_le_of_lt
         (Nat.add_le_add (List.Sublist.length_le (List.dropWhile_sublist _))
           (List.Sublist.length_le (List.dropWhile_sublist _)))
         (by omega))

/-- `copy(arr[i:i+len src], src)` under the assumption that the copy fits;
call sites guard the bounds. -/
def segCopy (arr : List E) (i : Nat) (src : List E) : List E :=
  arr.take i ++ src ++ arr.drop (i + src.length)

/-- The realization loop of `insertInto`: processes the pending insertions
in descending source order (the caller passes the reversed list), moving
the block of kept elements between consecutive insertion points into its
final slot and writing the inserted value just before it.  Index
computations that would take a Go slice bound out of range yield `none`
(the Go code would panic). -/
def insertIntoLoop : List E → Nat → Nat → List (Nat × E) → Option (List E)
  | arr, _, _, [] => some arr
  | arr, i, k, (x, e) :: rest =>
    if x ≤ i ∧ i ≤ arr.length ∧ k ≤ arr.length ∧ i - x + 1 ≤ k then
      insertIntoLoop
        ((segCopy arr (k - (i - x)) ((arr.drop x).take (i - x))).set (k - (i - x) - 1) e)
        x (k - (i - x) - 1) rest
    else none

/-- `insertInto` of `slicesx.go`/`sorted.go`: grow the backing array once
to its final size (new slots hold the Go zero value, modelled by
`default`), place the tail, then realize all pending insertions in a
single descending pass. -/
def insertInto [Inhabited E] (a tail : List E) (ins : List (Nat × E)) :
    Option (List E) :=
  insertIntoLoop
    (segCopy (a ++ List.replicate (ins.length + tail.length) (default : E))
      (a.length + (ins.length + tail.length) - tail.length) tail)
    a.length
    (a.length + (ins.length + tail.length) - tail.length)
    ins.reverse

/-- `mergeSortedLists` of `sorted.go` (= `MergeSorted` of `slicesx.go`):
scan phase followed by the single-pass insertion realization. -/
def mergeSortedLists [Inhabited E] (cmp : E → E → Int) (eq : E → E → Bool)
    (a b : List E) : Option (List E) :=
  insertInto (mergeScan cmp eq a b 0).1 (mergeScan cmp eq a b 0).2.2
    (mergeScan cmp eq a b 0).2.1

/-- The comparison loop of `DeleteSorted`/`diffSortedLists`: returns the
indices of the elements of `a` marked for deletion, in order. -/
def deleteScan (cmp : E → E → Int) (eq : E → E → Bool) :
    List E → List E → Nat → List Nat
  | [], _, _ => []
  | _ :: _, [], _ => []
  | a0 :: a', b0 :: b', ai =>
    let c := cmp a0 b0
    if c < 0 then deleteScan cmp eq a' (b0 :: b') (ai + 1)
    else if c > 0 then deleteScan cmp eq (a0 :: a') b' ai
    else
      let sa := runSplit cmp (a0 :: a')
      let sb := runSplit cmp (b0 :: b')
      let marks := (List.range sa.1.length).filterMap
        (fun i =>
          if sb.1.any (fun be => eq (sa.1.getD i a0) be) then some (ai + i)
          else none)
      marks ++ deleteScan cmp eq sa.2 sb.2 (ai + sa.1.length)
  termination_by a b _ => a.length + b.length
  decreasing_by
  all_goals
    first
    | (simp only [List.length_cons]; omega)
    | (simp only [runSplit, List.length_cons]
       exact Nat.lt_of_le_of_lt
         (Nat.add_le_add (List.Sublist.length_le (List.dropWhile_sublist _))
           (List.Sublist.length_le (List.dropWhile_sublist _)))
         (by omega))

/-- The compaction loop of `deleteFrom`: slide each block of kept elements
between consecutive delete indices leftwards.  Go slice bounds that would
be out of range yield `none`. -/
def deleteFromLoop : List E → Nat → Nat → List Nat → Option (List E)
  | arr, dst, src, [] =>
    if src ≤ arr.length ∧ dst + (arr.length - src) ≤ arr.length then
      some (segCopy arr dst (arr.drop src))
    else none
  | arr, dst, src, d :: rest =>
    if src ≤ d ∧ d ≤ arr.length ∧ dst + (d - src) ≤ arr.length then
      deleteFromLoop (segCopy arr dst ((arr.drop src).take (d - src)))
        (dst + (d - src)) (d + 1) rest
    else none

/-- `deleteFrom` of `slicesx.go`/`sorted.go`: single left-compaction pass
over the marked indices, then clear and truncate the vacated tail. -/
def deleteFrom (a : List E) (deletes : List Nat) : Option (List E) :=
  match deletes with
  | [] => some a
  | d0 :: rest =>
    if deletes.length ≤ a.length then
      (deleteFromLoop a d0 (d0 + 1) rest).map
        (fun arr => arr.take (a.length - deletes.length))
    else none

/-- `diffSortedLists` of `sorted.go` (= `DeleteSorted` of `slicesx.go`). -/
def diffSortedLists (cmp : E → E → Int) (eq : E → E → Bool) (a b : List E) :
    Option (List E) :=
  deleteFrom a (deleteScan cmp eq a b 0)

/-- `uniqEqSlow` of `sorted.go`/`slicesx.go`: the kept prefix grows element
by element; each incoming element overwrites its first identity match in
the live kept region, or is appended. -/
def uniqEqSlow (eq : E → E → Bool) (l : List E) : List E :=
  if l.length < 2 then l
  else
    (l.drop 1).foldl
      (fun kept x =>
        match overwriteFirst eq x kept with
        | some kept2 => kept2
        | none => kept ++ [x])
      (l.take 1)

/-- The run grouping of `uniqCmpEq`: elements are grouped with the run's
first element while `cmp next first == 0` (the source compares the next
element against `prev`, which it only updates at run boundaries). -/
def uniqRunSplit (cmp : E → E → Int) : List E → List E × List E
  | [] => ([], [])
  | v0 :: rest =>
    (v0 :: rest.takeWhile (fun v => cmp v v0 == 0),
     rest.dropWhile (fun v => cmp v v0 == 0))

theorem uniqRunSplit_snd_length (cmp : E → E → Int) (v0 : E) (rest : List E) :
    (uniqRunSplit cmp (v0 :: rest)).2.length ≤ rest.length :=
  (rest.dropWhile_sublist _).length_le

theorem uniqRunSplit_append (cmp : E → E → Int) (l : List E) :
    (uniqRunSplit cmp l).1 ++ (uniqRunSplit cmp l).2 = l := by
  cases l with
  | nil => rfl
  | cons v0 rest => simp [uniqRunSplit, rest.takeWhile_append_dropWhile]

/-- `uniqCmpEq` of `sorted.go` (= `UniqSortedFuncs` of `slicesx.go`): split
the (sorted) list into order-key runs and deduplicate each run by identity
with `uniqEqSlow`; the in-place left-compaction realizes the concatenation
of the per-run results. -/
def uniqCmpEq (cmp : E → E → Int) (eq : E → E → Bool) : List E → List E
  | [] => []
  | v0 :: rest =>
    let s := uniqRunSplit cmp (v0 :: rest)
    uniqEqSlow eq s.1 ++ uniqCmpEq cmp eq s.2
  termination_by l => l.length
  decreasing_by
  · have := uniqRunSplit_snd_length cmp v0 rest
    simp only [List.length_cons]
    omega

/-- Modelled from the spec: Go's `slices.SortStableFunc` (standard library,
not part of this repository) is a stable sort by `cmp`; modelled as stable
insertion sort, placing each element before the first element not strictly
smaller than it. -/
def orderedInsertCmp (cmp : E → E → Int) (x : E) : List E → List E
  | [] => [x]
  | y :: t => if cmp x y ≤ 0 then x :: y :: t else y :: orderedInsertCmp cmp x t

/-- Modelled from the spec: `stableSortCmp` of `sorted.go` delegates to
`slices.SortStableFunc`; modelled as stable insertion sort. -/
def stableSortCmp (cmp : E → E → Int) : List E → List E
  | [] => []
  | x :: t => orderedInsertCmp cmp x (stableSortCmp cmp t)

/-- `stableSortUniqCmpEq` of `sorted.go` (= `StableSortUniqFuncs` of
`slicesx.go`). -/
def stableSortUniqCmpEq (cmp : E → E → Int) (eq : E → E → Bool) (l : List E) :
    List E :=
  uniqCmpEq cmp eq (stableSortCmp cmp l)

/-- The loop of Go's `sort.Search` (standard library): binary search for
the least index in `[i, j)` satisfying `pred`, returning `j` when none
does.  Total for every predicate. -/
def sortSearchLoop (pred : Nat → Bool) (i j : Nat) : Nat :=
  if h : i < j then
    let m := (i + j) / 2
    if pred m then sortSearchLoop pred i m else sortSearchLoop pred (m + 1) j
  else i
  termination_by j - i
  decreasing_by
  · omega
  · omega

/-- Go's `sort.Search n pred`. -/
def sortSearch (n : Nat) (pred : Nat → Bool) : Nat := sortSearchLoop pred 0 n

/-- The linear scan of `(*sorted[E]).search`: walk the run whose order key
matches `elem`, looking for an identity match. -/
def scanRun (cmp : E → E → Int) (eq : E → E → Bool) (e : E) :
    List E → Nat → Nat × Bool
  | [], idx => (idx, false)
  | y :: t, idx =>
    if cmp e y == 0 then
      if eq y e then (idx, true) else scanRun cmp eq e t (idx + 1)
    else (idx, false)

/-- `(*sorted[E]).search`: binary search on the order key for the first
index with `cmp elem elems[i] ≤ 0`, then the linear identity scan of the
matched run. -/
def search (cmp : E → E → Int) (eq : E → E → Bool) (l : List E) (e : E) :
    Nat × Bool :=
  let i := sortSearch l.length (fun h => decide (cmp e (l.getD h e) ≤ 0))
  scanRun cmp eq e (l.drop i) i

/-- `(*sorted[E]).Contains`. -/
def contains (cmp : E → E → Int) (eq : E → E → Bool) (l : List E) (e : E) :
    Bool :=
  (search cmp eq l e).2

/-- `(*sorted[E]).Insert`: overwrite the found element, or grow by one and
slide right to insert at the returned index. -/
def insert1 (cmp : E → E → Int) (eq : E → E → Bool) (l : List E) (e : E) :
    List E :=
  let s := search cmp eq l e
  if s.2 then l.set s.1 e else l.insertIdx s.1 e

/-- `(*sorted[E]).Remove`: slide left over the found element and shrink. -/
def remove1 (cmp : E → E → Int) (eq : E → E → Bool) (l : List E) (e : E) :
    List E :=
  let s := search cmp eq l e
  if s.2 then l.eraseIdx s.1 else l

/-- `(*sorted[E]).insertAll` (the engine of `InsertAll` and `InsertSet`):
sort-dedup the incoming batch, then batched merge. -/
def insertAll [Inhabited E] (cmp : E → E → Int) (eq : E → E → Bool)
    (l m : List E) : Option (List E) :=
  mergeSortedLists cmp eq l (stableSortUniqCmpEq cmp eq m)

/-- `(*sorted[E]).removeAll` (the engine of `RemoveAll` and `RemoveSet`):
sort the incoming batch, then batched delete. -/
def removeAll (cmp : E → E → Int) (eq : E → E → Bool) (l m : List E) :
    Option (List E) :=
  diffSortedLists cmp eq l (stableSortCmp cmp m)

/-- `NewSortedCmpEqFunc`: construct the sorted set's element sequence. -/
def newSortedCmpEqFunc (cmp : E → E → Int) (eq : E → E → Bool) (elems : List E) :
    List E :=
  stableSortUniqCmpEq cmp eq elems

/-!
## Realization of the batched insertion pass

`applyInserts` is the specification-level meaning of the pending-insertion
list: each `(position, value)` pair is inserted at its position in the
original list, later pairs first.  The theorems below show the single
array-growth pass `insertInto` realizes it, with every index in bounds.
-/

/-- The intended effect of a pending-insertion list: insert each value
before the element that sat at its recorded position in the original
list (equal positions keep list order). -/
def applyInserts (a : List E) (ins : List (Nat × E)) : List E :=
  ins.foldr (fun p acc => acc.insertIdx p.1 p.2) a

theorem insertIdx_eq_take_cons_drop :
    ∀ (n : Nat) (l : List E) (x : E), n ≤ l.length →
      l.insertIdx n x = l.take n ++ x :: l.drop n
  | 0, l, x, _ => by simp
  | n + 1, [], x, h => by simp at h
  | n + 1, y :: t, x, h => by
    simp only [List.insertIdx_succ_cons, List.take_succ_cons, List.drop_succ_cons,
      List.cons_append, List.cons.injEq, true_and]
    exact insertIdx_eq_take_cons_drop n t x (by simpa using h)

theorem insertIdx_append_left :
    ∀ (n : Nat) (l1 l2 : List E) (x : E), n ≤ l1.length →
      (l1 ++ l2).insertIdx n x = l1.insertIdx n x ++ l2
  | 0, l1, l2, x, _ => by simp
  | n + 1, [], l2, x, h => by simp at h
  | n + 1, y :: t, l2, x, h => by
    simp only [List.cons_append, List.insertIdx_succ_cons, List.cons.injEq, true_and]
    exact insertIdx_append_left n t l2 x (by simpa using h)

theorem length_applyInserts_ge (a : List E) (ins : List (Nat × E)) :
    a.length ≤ (applyInserts a ins).length := by
  induction ins with
  | nil => simp [applyInserts]
  | cons p t ih =>
    calc a.length ≤ (applyInserts a t).length := ih
      _ ≤ (applyInserts a (p :: t)).length := by
        simp only [applyInserts, List.foldr_cons]
        exact (applyInserts a t).length_le_length_insertIdx p.2 p.1

theorem applyInserts_append (ins : List (Nat × E)) (pre suf : List E)
    (h : ∀ p ∈ ins, p.1 ≤ pre.length) :
    applyInserts (pre ++ suf) ins = applyInserts pre ins ++ suf := by
  induction ins with
  | nil => rfl
  | cons p t ih =>
    simp only [applyInserts, List.foldr_cons] at ih ⊢
    rw [ih (fun q hq => h q (List.mem_cons_of_mem p hq))]
    exact insertIdx_append_left p.1 _ suf p.2
      (le_trans (h p (List.mem_cons_self p t)) (length_applyInserts_ge pre t))

theorem set_eq_take_cons_drop :
    ∀ (l : List E) (m : Nat) (e : E), m < l.length →
      l.set m e = l.take m ++ e :: l.drop (m + 1)
  | [], m, e, h => by simp at h
  | y :: t, 0, e, _ => by simp
  | y :: t, m + 1, e, h => by
    simp only [List.set_cons_succ, List.take_succ_cons, List.drop_succ_cons,
      List.cons_append, List.cons.injEq, true_and]
    exact set_eq_take_cons_drop t m e (by simpa using h)

theorem insertIntoLoop_spec :
    ∀ (ins : List (Nat × E)) (A G D : List E) (i : Nat),
      i ≤ A.length →
      G.length = ins.length →
      (ins.map Prod.fst).Pairwise (· ≤ ·) →
      (∀ p ∈ ins, p.1 ≤ i) →
      insertIntoLoop (A.take i ++ G ++ D) i (i + ins.length) ins.reverse =
        some (applyInserts (A.take i) ins ++ D) := by
  intro ins
  induction ins using List.reverseRecOn with
  | nil =>
    intro A G D i hi hG _ _
    have hGnil : G = [] := List.eq_nil_of_length_eq_zero (by simpa using hG)
    subst hGnil
    simp [insertIntoLoop, applyInserts]
  | append_singleton ins' p ih =>
    rcases p with ⟨x, e⟩
    intro A G D i hi hG hpair hbound
    have hP : (A.take i).length = i := by
      simp [List.length_take, Nat.min_eq_left hi]
    have hx : x ≤ i := hbound (x, e) (by simp)
    have hG1 : G.length = ins'.length + 1 := by simpa using hG
    have hbound' : ∀ q ∈ ins', q.1 ≤ x := by
      intro q hq
      have := (List.pairwise_append.1 (by simpa using hpair)).2.2
      exact this q.1 (List.mem_map_of_mem Prod.fst hq) x (by simp)
    -- abbreviations
    set P := A.take i with hPdef
    have harrlen : (P ++ G ++ D).length = i + G.length + D.length := by
      simp only [List.length_append]
      omega
    have hrev : (ins' ++ [(x, e)]).reverse = (x, e) :: ins'.reverse := by simp
    rw [hrev]
    have hklen : i + (ins' ++ [(x, e)]).length = i + G.length := by
      simp [hG1]
    rw [hklen]
    -- the guard passes
    have hguard : x ≤ i ∧ i ≤ (P ++ G ++ D).length ∧
        i + G.length ≤ (P ++ G ++ D).length ∧ i - x + 1 ≤ i + G.length := by
      refine ⟨hx, ?_, ?_, ?_⟩
      · rw [harrlen]; omega
      · rw [harrlen]; omega
      · omega
    rw [insertIntoLoop, if_pos hguard]
    -- compute the moved block source
    have hdropx : (P ++ G ++ D).drop x = P.drop x ++ (G ++ D) := by
      rw [List.append_assoc, List.drop_append_of_le_length (by omega)]
    have hS : ((P ++ G ++ D).drop x).take (i - x) = P.drop x := by
      rw [hdropx]
      exact List.take_left' (by simp only [List.length_drop]; omega)
    have hdropM : (P ++ G ++ D).drop (x + G.length + (i - x)) = D := by
      have hMn : x + G.length + (i - x) = i + G.length := by omega
      rw [hMn]
      exact List.drop_left' (by simp only [List.length_append]; omega)
    have htakex : ∀ m, x ≤ m → ((P ++ G ++ D).take m).take x = A.take x := by
      intro m hm
      rw [List.take_take, Nat.min_eq_left hm, List.append_assoc,
        List.take_append_of_le_length (by omega), hPdef, List.take_take,
        Nat.min_eq_left hx]
    have hlenM : ((P ++ G ++ D).take (x + G.length)).length = x + G.length := by
      simp only [List.length_take]
      rw [harrlen]; omega
    -- the new array after the block move and the set
    have hmoved : segCopy (P ++ G ++ D) (i + G.length - (i - x))
        (((P ++ G ++ D).drop x).take (i - x)) =
        (P ++ G ++ D).take (x + G.length) ++ (P.drop x ++ D) := by
      rw [hS]
      unfold segCopy
      have hlen : (P.drop x).length = i - x := by
        simp only [List.length_drop]
        omega
      have hkn : i + G.length - (i - x) = x + G.length := by omega
      rw [hlen, hkn, hdropM, List.append_assoc]
    rw [hmoved]
    have hset : ((P ++ G ++ D).take (x + G.length) ++ (P.drop x ++ D)).set
        (i + G.length - (i - x) - 1) e =
        A.take x ++ ((P ++ G ++ D).take (x + G.length - 1)).drop x ++
          (e :: (P.drop x ++ D)) := by
      have hkn1 : i + G.length - (i - x) - 1 = x + G.length - 1 := by omega
      rw [hkn1]
      rw [List.set_append_left _ _ (by rw [hlenM]; omega)]
      rw [set_eq_take_cons_drop _ (x + G.length - 1) e (by rw [hlenM]; omega)]
      rw [List.take_take, Nat.min_eq_left (by omega)]
      have hdropnil : ((P ++ G ++ D).take (x + G.length)).drop (x + G.length - 1 + 1) = [] := by
        apply List.drop_eq_nil_of_le
        rw [hlenM]; omega
      rw [hdropnil]
      have hsplit : (P ++ G ++ D).take (x + G.length - 1) =
          A.take x ++ ((P ++ G ++ D).take (x + G.length - 1)).drop x := by
        conv_lhs => rw [← List.take_append_drop x ((P ++ G ++ D).take (x + G.length - 1))]
        rw [htakex (x + G.length - 1) (by omega)]
      conv_lhs => rw [hsplit]
      simp
    rw [hset]
    -- apply the induction hypothesis
    have hG2len : (((P ++ G ++ D).take (x + G.length - 1)).drop x).length =
        ins'.length := by
      simp only [List.length_drop, List.length_take]
      rw [harrlen]; omega
    have hpair' : (ins'.map Prod.fst).Pairwise (· ≤ ·) :=
      (List.pairwise_append.1 (by simpa using hpair)).1
    have hih := ih A (((P ++ G ++ D).take (x + G.length - 1)).drop x)
      (e :: (P.drop x ++ D)) x (le_trans hx hi) hG2len hpair' hbound'
    have hk2 : i + G.length - (i - x) - 1 = x + ins'.length := by omega
    rw [hk2, hih]
    -- identify the result
    have htarget : applyInserts (A.take i) (ins' ++ [(x, e)]) ++ D =
        applyInserts (A.take x) ins' ++ (e :: (P.drop x ++ D)) := by
      unfold applyInserts
      rw [List.foldr_append]
      simp only [List.foldr_cons, List.foldr_nil]
      have hinsx : (A.take i).insertIdx x e = A.take x ++ e :: P.drop x := by
        rw [insertIdx_eq_take_cons_drop x (A.take i) e
            (by simp only [List.length_take]; omega),
          List.take_take, Nat.min_eq_left hx]
      rw [hinsx]
      have happ := applyInserts_append ins' (A.take x) (e :: P.drop x)
        (fun q hq => by
          have := hbound' q hq
          simp [List.length_take]
          omega)
      unfold applyInserts at happ
      rw [happ, List.append_assoc]
      simp
    rw [htarget]

theorem insertInto_spec [Inhabited E] (a tail : List E) (ins : List (Nat × E))
    (hpair : (ins.map Prod.fst).Pairwise (· ≤ ·))
    (hbound : ∀ p ∈ ins, p.1 ≤ a.length) :
    insertInto a tail ins = some (applyInserts a ins ++ tail) := by
  unfold insertInto
  have harr1 : segCopy (a ++ List.replicate (ins.length + tail.length) (default : E))
      (a.length + (ins.length + tail.length) - tail.length) tail =
      a ++ List.replicate ins.length (default : E) ++ tail := by
    unfold segCopy
    have h1 : a.length + (ins.length + tail.length) - tail.length =
        a.length + ins.length := by omega
    rw [h1]
    have h2 : (a ++ List.replicate (ins.length + tail.length) (default : E)).take
        (a.length + ins.length) =
        a ++ List.replicate ins.length (default : E) := by
      rw [List.take_append_eq_append_take, List.take_of_length_le (by omega),
        List.take_replicate]
      congr 2
      omega
    have h3 : (a ++ List.replicate (ins.length + tail.length) (default : E)).drop
        (a.length + ins.length + tail.length) = [] := by
      apply List.drop_eq_nil_of_le
      simp
      omega
    rw [h2, h3, List.append_nil]
  rw [harr1]
  have h4 : a.length + (ins.length + tail.length) - tail.length =
      a.length + ins.length := by omega
  rw [h4]
  have := insertIntoLoop_spec ins a (List.replicate ins.length (default : E)) tail
    a.length (le_refl _) (by simp) hpair hbound
  rw [List.take_length] at this
  exact this

/-!
## Realization of the batched deletion pass
-/

/-- The kept part of `A` from `src` on, when the (ascending) indices `ds`
are deleted: the segments between consecutive delete indices. -/
def keptAfter (A : List E) : Nat → List Nat → List E
  | src, [] => A.drop src
  | src, d :: rest => ((A.drop src).take (d - src)) ++ keptAfter A (d + 1) rest

/-- The intended result of `deleteFrom`: `A` with the (ascending, in-range)
indices `ds` removed. -/
def keptList (a : List E) (ds : List Nat) : List E :=
  match ds with
  | [] => a
  | d0 :: rest => a.take d0 ++ keptAfter a (d0 + 1) rest

theorem sorted_bounded_length :
    ∀ (ds : List Nat) (lo n : Nat), ds.Pairwise (· < ·) →
      (∀ d ∈ ds, lo ≤ d) → (∀ d ∈ ds, d < n) → ds.length ≤ n - lo
  | [], _, _, _, _, _ => by simp
  | d :: rest, lo, n, hpw, hlo, hbnd => by
    have ih := sorted_bounded_length rest (d + 1) n (List.pairwise_cons.1 hpw).2
      (fun x hx => (List.pairwise_cons.1 hpw).1 x hx)
      (fun x hx => hbnd x (by simp [hx]))
    have h1 : lo ≤ d := hlo d (by simp)
    have h2 : d < n := hbnd d (by simp)
    simp only [List.length_cons]
    omega

theorem keptAfter_length (A : List E) :
    ∀ (ds : List Nat) (src : Nat),
      (∀ d ∈ ds, src ≤ d) → ds.Pairwise (· < ·) → (∀ d ∈ ds, d < A.length) →
      (keptAfter A src ds).length = A.length - src - ds.length
  | [], src, _, _, _ => by simp [keptAfter]
  | d :: rest, src, hsrc, hpw, hbnd => by
    have hd : src ≤ d := hsrc d (by simp)
    have hdA : d < A.length := hbnd d (by simp)
    have hrl := sorted_bounded_length rest (d + 1) A.length
      (List.pairwise_cons.1 hpw).2
      (fun x hx => (List.pairwise_cons.1 hpw).1 x hx)
      (fun x hx => hbnd x (by simp [hx]))
    have ih := keptAfter_length A rest (d + 1)
      (fun x hx => (List.pairwise_cons.1 hpw).1 x hx)
      (List.pairwise_cons.1 hpw).2
      (fun x hx => hbnd x (by simp [hx]))
    simp only [keptAfter, List.length_append, List.length_take, List.length_drop, ih,
      List.length_cons]
    omega

theorem deleteFromLoop_spec :
    ∀ (ds : List Nat) (A K J : List E) (dst src : Nat),
      K.length = dst →
      J.length = src - dst →
      dst ≤ src → src ≤ A.length →
      (∀ d ∈ ds, src ≤ d) →
      ds.Pairwise (· < ·) →
      (∀ d ∈ ds, d < A.length) →
      ∃ T : List E,
        deleteFromLoop (K ++ J ++ A.drop src) dst src ds =
          some (K ++ keptAfter A src ds ++ T) ∧
        T.length = src - dst + ds.length := by
  intro ds
  induction ds with
  | nil =>
    intro A K J dst src hK hJ hds hsA _ _ _
    have harrlen : (K ++ J ++ A.drop src).length = A.length := by
      simp only [List.length_append, List.length_drop]
      omega
    have hguard : src ≤ (K ++ J ++ A.drop src).length ∧
        dst + ((K ++ J ++ A.drop src).length - src) ≤ (K ++ J ++ A.drop src).length := by
      rw [harrlen]
      constructor <;> omega
    have hdrop_src : (K ++ J ++ A.drop src).drop src = A.drop src :=
      List.drop_left' (by simp only [List.length_append]; omega)
    have htake_dst : (K ++ J ++ A.drop src).take dst = K := by
      rw [List.take_append_of_le_length (by simp only [List.length_append]; omega),
        List.take_append_of_le_length (by omega), List.take_of_length_le (by omega)]
    refine ⟨(K ++ J ++ A.drop src).drop (dst + ((K ++ J ++ A.drop src).drop src).length),
      ?_, ?_⟩
    · rw [deleteFromLoop, if_pos hguard]
      unfold segCopy
      rw [hdrop_src, htake_dst]
      simp [keptAfter]
    · simp only [List.length_drop, hdrop_src, List.length_nil]
      rw [harrlen]
      omega
  | cons d rest ih =>
    intro A K J dst src hK hJ hds hsA hsrc hpw hbnd
    have hd : src ≤ d := hsrc d (by simp)
    have hdA : d < A.length := hbnd d (by simp)
    have harrlen : (K ++ J ++ A.drop src).length = A.length := by
      simp only [List.length_append, List.length_drop]
      omega
    have hguard : src ≤ d ∧ d ≤ (K ++ J ++ A.drop src).length ∧
        dst + (d - src) ≤ (K ++ J ++ A.drop src).length := by
      rw [harrlen]
      exact ⟨hd, by omega, by omega⟩
    have hdrop_src : (K ++ J ++ A.drop src).drop src = A.drop src :=
      List.drop_left' (by simp only [List.length_append]; omega)
    have htake_dst : (K ++ J ++ A.drop src).take dst = K := by
      rw [List.take_append_of_le_length (by simp only [List.length_append]; omega),
        List.take_append_of_le_length (by omega), List.take_of_length_le (by omega)]
    rw [deleteFromLoop, if_pos hguard]
    unfold segCopy
    rw [hdrop_src, htake_dst]
    have hseglen : (((A.drop src).take (d - src))).length = d - src := by
      simp only [List.length_take, List.length_drop]
      omega
    rw [hseglen]
    -- decompose the remainder after the copied block
    have hdrop_rest : (K ++ J ++ A.drop src).drop (dst + (d - src)) =
        ((K ++ J ++ A.drop src).drop (dst + (d - src))).take (src + 1 - dst) ++
          A.drop (d + 1) := by
      have hdd : ((K ++ J ++ A.drop src).drop (dst + (d - src))).drop
          (src + 1 - dst) = A.drop (d + 1) := by
        rw [List.drop_drop]
        have hpos : dst + (d - src) + (src + 1 - dst) = d + 1 := by omega
        rw [hpos]
        have : (K ++ J ++ A.drop src).drop (d + 1) =
            (K ++ J).drop (d + 1) ++
              (A.drop src).drop (d + 1 - (K ++ J).length) :=
          @List.drop_append_eq_append_drop _ (K ++ J) (A.drop src) (d + 1)
        rw [this, List.drop_eq_nil_of_le (by simp only [List.length_append]; omega),
          List.drop_drop]
        have : src + (d + 1 - (K ++ J).length) = d + 1 := by
          simp only [List.length_append]
          omega
        rw [List.nil_append, this]
      conv_lhs => rw [← List.take_append_drop (src + 1 - dst)
        ((K ++ J ++ A.drop src).drop (dst + (d - src)))]
      rw [hdd]
    -- apply the induction hypothesis
    have hK'len : (K ++ (A.drop src).take (d - src)).length = dst + (d - src) := by
      simp only [List.length_append, hseglen, hK]
    have hJ'len : (((K ++ J ++ A.drop src).drop (dst + (d - src))).take
        (src + 1 - dst)).length = (d + 1) - (dst + (d - src)) := by
      simp only [List.length_take, List.length_drop, harrlen]
      omega
    have hih := ih A (K ++ (A.drop src).take (d - src))
      (((K ++ J ++ A.drop src).drop (dst + (d - src))).take (src + 1 - dst))
      (dst + (d - src)) (d + 1)
      hK'len hJ'len (by omega) (by omega)
      (fun x hx => (List.pairwise_cons.1 hpw).1 x hx)
      (List.pairwise_cons.1 hpw).2
      (fun x hx => hbnd x (by simp [hx]))
    rcases hih with ⟨T, hT, hTlen⟩
    refine ⟨T, ?_, ?_⟩
    · have harr_eq : K ++ (A.drop src).take (d - src) ++
          ((K ++ J ++ A.drop src).drop (dst + (d - src))).take (src + 1 - dst) ++
          A.drop (d + 1) =
          K ++ (A.drop src).take (d - src) ++
            (K ++ J ++ A.drop src).drop (dst + (d - src)) := by
        conv_rhs => rw [hdrop_rest]
        rw [List.append_assoc]
      rw [harr_eq] at hT
      rw [hT]
      simp [keptAfter, List.append_assoc]
    · rw [hTlen]
      simp only [List.length_cons]
      omega

theorem deleteFrom_spec (a : List E) (ds : List Nat)
    (hpw : ds.Pairwise (· < ·)) (hbnd : ∀ d ∈ ds, d < a.length) :
    deleteFrom a ds = some (keptList a ds) := by
  match ds with
  | [] => rfl
  | d0 :: rest =>
    have hd0 : d0 < a.length := hbnd d0 (by simp)
    have hlen_ds : (d0 :: rest).length ≤ a.length := by
      have := sorted_bounded_length (d0 :: rest) 0 a.length hpw
        (fun _ _ => Nat.zero_le _) hbnd
      omega
    have hsplit : a.take d0 ++ (a.drop d0).take 1 ++ a.drop (d0 + 1) = a := by
      have h1 : (a.drop d0).take 1 ++ a.drop (d0 + 1) = a.drop d0 := by
        conv_rhs => rw [← List.take_append_drop 1 (a.drop d0)]
        rw [List.drop_drop]
      rw [List.append_assoc, h1, List.take_append_drop]
    have hJ1 : ((a.drop d0).take 1).length = 1 := by
      simp only [List.length_take, List.length_drop]
      omega
    have hloop := deleteFromLoop_spec rest a (a.take d0) ((a.drop d0).take 1)
      d0 (d0 + 1)
      (by simp only [List.length_take]; omega)
      (by rw [hJ1]; omega)
      (by omega) (by omega)
      (fun x hx => (List.pairwise_cons.1 hpw).1 x hx)
      (List.pairwise_cons.1 hpw).2
      (fun x hx => hbnd x (by simp [hx]))
    rcases hloop with ⟨T, hT, hTlen⟩
    rw [hsplit] at hT
    rw [deleteFrom]
    rw [if_pos hlen_ds, hT]
    have hfront : (a.take d0 ++ keptAfter a (d0 + 1) rest).length =
        a.length - (d0 :: rest).length := by
      have hka := keptAfter_length a rest (d0 + 1)
        (fun x hx => (List.pairwise_cons.1 hpw).1 x hx)
        (List.pairwise_cons.1 hpw).2
        (fun x hx => hbnd x (by simp [hx]))
      have hrl := sorted_bounded_length rest (d0 + 1) a.length
        (List.pairwise_cons.1 hpw).2
        (fun x hx => (List.pairwise_cons.1 hpw).1 x hx)
        (fun x hx => hbnd x (by simp [hx]))
      simp only [List.length_append, List.length_take, hka, List.length_cons]
      omega
    simp only [Option.map_some']
    congr 1
    rw [List.take_append_of_le_length (le_of_eq hfront.symm)]
    rw [List.take_of_length_le (le_of_eq hfront)]
    rfl

/-!
## Facts about the scan phases, and panic freedom

These hold for arbitrary `cmp` and `eq` functions, lawful or not: the scan
loops only ever advance their indices, so the pending-insertion positions
are non-decreasing and bounded by the length of `a`, and the deletion
indices are strictly increasing and in range.  Consequently the batched
realization passes never compute an out-of-range index.
-/

theorem overwriteFirst_length (eq : E → E → Bool) (x : E) :
    ∀ (l l' : List E), overwriteFirst eq x l = some l' → l'.length = l.length
  | [], _, h => by simp [overwriteFirst] at h
  | y :: t, l', h => by
    by_cases hxy : eq x y
    · simp only [overwriteFirst, if_pos hxy, Option.some.injEq] at h
      subst h
      simp
    · simp only [overwriteFirst, if_neg hxy, Option.map_eq_some'] at h
      rcases h with ⟨t', ht', rfl⟩
      simp [overwriteFirst_length eq x t t' ht']

theorem reconcileAux_fst_length (eq : E → E → Bool) :
    ∀ (br : List E) (s : List E × List E),
      (br.foldl (fun s b =>
        match overwriteFirst eq b s.1 with
        | some ar2 => (ar2, s.2)
        | none => (s.1, s.2 ++ [b])) s).1.length = s.1.length
  | [], s => rfl
  | b :: br', s => by
    rw [List.foldl_cons]
    rw [reconcileAux_fst_length eq br']
    cases h : overwriteFirst eq b s.1 with
    | none => simp [h]
    | some ar2 => simp [h, overwriteFirst_length eq b s.1 ar2 h]

theorem reconcile_fst_length (eq : E → E → Bool) (ar br : List E) :
    (reconcile eq ar br).1.length = ar.length := by
  unfold reconcile
  exact reconcileAux_fst_length eq br (ar, [])

theorem runSplit_length_sum (cmp : E → E → Int) (l : List E) :
    (runSplit cmp l).1.length + (runSplit cmp l).2.length = l.length := by
  have := congrArg List.length (runSplit_append cmp l)
  simpa using this

theorem mergeScan_fst_length (cmp : E → E → Int) (eq : E → E → Bool) :
    ∀ (a b : List E) (ai : Nat), (mergeScan cmp eq a b ai).1.length = a.length := by
  intro a b ai
  induction a, b, ai using mergeScan.induct cmp eq with
  | case1 b ai => simp [mergeScan]
  | case2 a0 a' ai => simp [mergeScan]
  | case3 a0 a' b0 b' ai c h ih =>
    simp only [mergeScan]
    rw [if_pos h]
    simpa using ih
  | case4 a0 a' b0 b' ai c h1 h2 ih =>
    simp only [mergeScan]
    rw [if_neg h1, if_pos h2]
    simpa using ih
  | case5 a0 a' b0 b' ai c h1 h2 sa sb ih =>
    simp only [mergeScan]
    rw [if_neg h1, if_neg h2]
    simp only [List.length_append, reconcile_fst_length, ih]
    have hsa1 : sa.1.length = (runSplit cmp (a0 :: a')).1.length := rfl
    have hsa2 : sa.2.length = (runSplit cmp (a0 :: a')).2.length := rfl
    have := runSplit_length_sum cmp (a0 :: a')
    omega

theorem mergeScan_ins_facts (cmp : E → E → Int) (eq : E → E → Bool) :
    ∀ (a b : List E) (ai : Nat),
      (∀ p ∈ (mergeScan cmp eq a b ai).2.1, ai ≤ p.1 ∧ p.1 ≤ ai + a.length) ∧
      ((mergeScan cmp eq a b ai).2.1.map Prod.fst).Pairwise (· ≤ ·) := by
  intro a b ai
  induction a, b, ai using mergeScan.induct cmp eq with
  | case1 b ai => simp [mergeScan]
  | case2 a0 a' ai => simp [mergeScan]
  | case3 a0 a' b0 b' ai c h ih =>
    simp only [mergeScan]
    rw [if_pos h]
    refine ⟨?_, by simpa using ih.2⟩
    intro p hp
    have := ih.1 p (by simpa using hp)
    simp only [List.length_cons]
    omega
  | case4 a0 a' b0 b' ai c h1 h2 ih =>
    simp only [mergeScan]
    rw [if_neg h1, if_pos h2]
    constructor
    · intro p hp
      simp only [List.mem_cons] at hp
      rcases hp with rfl | hp
      · simp
      · have := ih.1 p hp
        omega
    · simp only [List.map_cons]
      rw [List.pairwise_cons]
      refine ⟨?_, ih.2⟩
      intro q hq
      rcases List.mem_map.1 hq with ⟨p, hp, rfl⟩
      exact (ih.1 p hp).1
  | case5 a0 a' b0 b' ai c h1 h2 sa sb ih =>
    simp only [mergeScan]
    rw [if_neg h1, if_neg h2]
    have hsum := runSplit_length_sum cmp (a0 :: a')
    have hsa1 : sa.1.length = (runSplit cmp (a0 :: a')).1.length := rfl
    have hsa2 : sa.2.length = (runSplit cmp (a0 :: a')).2.length := rfl
    constructor
    · intro p hp
      simp only [List.mem_append] at hp
      rcases hp with hp | hp
      · rcases List.mem_map.1 hp with ⟨e, he, rfl⟩
        simp only [List.length_cons] at hsum ⊢
        omega
      · have := ih.1 p hp
        simp only [List.length_cons] at hsum ⊢
        omega
    · rw [List.map_append, List.pairwise_append]
      refine ⟨?_, ih.2, ?_⟩
      · rw [List.pairwise_map, List.pairwise_map]
        exact List.pairwise_of_forall (fun _ _ => le_refl _)
      · intro q hq r hr
        rcases List.mem_map.1 hq with ⟨p, hp, rfl⟩
        rcases List.mem_map.1 hp with ⟨e, he, rfl⟩
        rcases List.mem_map.1 hr with ⟨p', hp', rfl⟩
        exact (ih.1 p' hp').1

theorem filterMap_if_eq_map_filter {α β : Type} (p : α → Bool) (g : α → β) :
    ∀ l : List α,
      l.filterMap (fun i => if p i then some (g i) else none) = (l.filter p).map g
  | [] => rfl
  | x :: t => by
    by_cases hx : p x
    · simp [List.filterMap_cons, List.filter_cons, hx, filterMap_if_eq_map_filter p g t]
    · simp [List.filterMap_cons, List.filter_cons, hx, filterMap_if_eq_map_filter p g t]

theorem pairwise_lt_rangeN (n : Nat) : (List.range n).Pairwise (· < ·) := by
  rw [List.range_eq_range']
  exact List.pairwise_lt_range' 0 n

theorem deleteScan_facts (cmp : E → E → Int) (eq : E → E → Bool) :
    ∀ (a b : List E) (ai : Nat),
      (∀ d ∈ deleteScan cmp eq a b ai, ai ≤ d ∧ d < ai + a.length) ∧
      (deleteScan cmp eq a b ai).Pairwise (· < ·) := by
  intro a b ai
  induction a, b, ai using deleteScan.induct cmp eq with
  | case1 b ai => simp [deleteScan]
  | case2 a0 a' ai => simp [deleteScan]
  | case3 a0 a' b0 b' ai c h ih =>
    simp only [deleteScan]
    rw [if_pos h]
    refine ⟨?_, ih.2⟩
    intro d hd
    have := ih.1 d hd
    simp only [List.length_cons]
    omega
  | case4 a0 a' b0 b' ai c h1 h2 ih =>
    simp only [deleteScan]
    rw [if_neg h1, if_pos h2]
    exact ih
  | case5 a0 a' b0 b' ai c h1 h2 sa sb ih =>
    simp only [deleteScan]
    rw [if_neg h1, if_neg h2]
    have hsum := runSplit_length_sum cmp (a0 :: a')
    have hsa1 : sa.1.length = (runSplit cmp (a0 :: a')).1.length := rfl
    have hsa2 : sa.2.length = (runSplit cmp (a0 :: a')).2.length := rfl
    have hmarks : (List.range (runSplit cmp (a0 :: a')).1.length).filterMap
        (fun i =>
          if (runSplit cmp (b0 :: b')).1.any
              (fun be => eq ((runSplit cmp (a0 :: a')).1.getD i a0) be) then
            some (ai + i)
          else none) =
        ((List.range (runSplit cmp (a0 :: a')).1.length).filter
          (fun i => (runSplit cmp (b0 :: b')).1.any
            (fun be => eq ((runSplit cmp (a0 :: a')).1.getD i a0) be))).map
          (fun i => ai + i) :=
      filterMap_if_eq_map_filter _ _ _
    rw [hmarks]
    have hmem_marks : ∀ d ∈ ((List.range (runSplit cmp (a0 :: a')).1.length).filter
        (fun i => (runSplit cmp (b0 :: b')).1.any
          (fun be => eq ((runSplit cmp (a0 :: a')).1.getD i a0) be))).map
        (fun i => ai + i),
        ai ≤ d ∧ d < ai + (runSplit cmp (a0 :: a')).1.length := by
      intro d hd
      rcases List.mem_map.1 hd with ⟨i, hi, rfl⟩
      have := List.mem_range.1 (List.mem_of_mem_filter hi)
      omega
    constructor
    · intro d hd
      rcases List.mem_append.1 hd with hd | hd
      · have := hmem_marks d hd
        simp only [List.length_cons] at hsum ⊢
        omega
      · have := ih.1 d hd
        simp only [List.length_cons] at hsum ⊢
        omega
    · rw [List.pairwise_append]
      refine ⟨?_, ih.2, ?_⟩
      · exact List.Pairwise.map _ (fun x y hxy => by omega)
          (List.Pairwise.filter _ (pairwise_lt_rangeN _))
      · intro d1 h1m d2 h2m
        have hb1 := hmem_marks d1 h1m
        have hb2 := ih.1 d2 h2m
        omega

/-- `mergeSortedLists` never panics and its result is the realized
insertion pass: the pending positions any scan produces are non-decreasing
and in range, for arbitrary `cmp` and `eq`. -/
theorem mergeSortedLists_eq [Inhabited E] (cmp : E → E → Int) (eq : E → E → Bool)
    (a b : List E) :
    mergeSortedLists cmp eq a b =
      some (applyInserts (mergeScan cmp eq a b 0).1 (mergeScan cmp eq a b 0).2.1 ++
        (mergeScan cmp eq a b 0).2.2) := by
  unfold mergeSortedLists
  apply insertInto_spec
  · exact (mergeScan_ins_facts cmp eq a b 0).2
  · intro p hp
    have h := (mergeScan_ins_facts cmp eq a b 0).1 p hp
    rw [mergeScan_fst_length]
    omega

/-- `diffSortedLists` never panics and its result is the left-compaction of
the marked indices, for arbitrary `cmp` and `eq`. -/
theorem diffSortedLists_eq (cmp : E → E → Int) (eq : E → E → Bool) (a b : List E) :
    diffSortedLists cmp eq a b = some (keptList a (deleteScan cmp eq a b 0)) := by
  unfold diffSortedLists
  apply deleteFrom_spec
  · exact (deleteScan_facts cmp eq a b 0).2
  · intro d hd
    have := (deleteScan_facts cmp eq a b 0).1 d hd
    omega

/-!
## Recursive functional forms of the batched merge and delete

`mergeFun` and `deleteFun` compute, by structural recursion, the list the
scan-plus-realization pipeline produces; the bridge theorems prove the
equality.  All semantic reasoning about the batched operations is done on
these forms.
-/

/-- The batched merge as a single recursion: the list
`mergeSortedLists` returns. -/
def mergeFun (cmp : E → E → Int) (eq : E → E → Bool) : List E → List E → List E
  | [], b => b
  | a0 :: a', [] => a0 :: a'
  | a0 :: a', b0 :: b' =>
    let c := cmp a0 b0
    if c < 0 then a0 :: mergeFun cmp eq a' (b0 :: b')
    else if c > 0 then b0 :: mergeFun cmp eq (a0 :: a') b'
    else
      (reconcile eq (runSplit cmp (a0 :: a')).1 (runSplit cmp (b0 :: b')).1).1 ++
      (reconcile eq (runSplit cmp (a0 :: a')).1 (runSplit cmp (b0 :: b')).1).2 ++
      mergeFun cmp eq (runSplit cmp (a0 :: a')).2 (runSplit cmp (b0 :: b')).2
  termination_by a b => a.length + b.length
  decreasing_by
  all_goals
    first
    | (simp only [List.length_cons]; omega)
    | (simp only [runSplit, List.length_cons]
       exact Nat.lt_of_le_of_lt
         (Nat.add_le_add (List.Sublist.length_le (List.dropWhile_sublist _))
           (List.Sublist.length_le (List.dropWhile_sublist _)))
         (by omega))

/-- The batched delete as a single recursion: the list
`diffSortedLists` returns. -/
def deleteFun (cmp : E → E → Int) (eq : E → E → Bool) : List E → List E → List E
  | [], _ => []
  | a0 :: a', [] => a0 :: a'
  | a0 :: a', b0 :: b' =>
    let c := cmp a0 b0
    if c < 0 then a0 :: deleteFun cmp eq a' (b0 :: b')
    else if c > 0 then deleteFun cmp eq (a0 :: a') b'
    else
      (runSplit cmp (a0 :: a')).1.filter
        (fun ae => !(runSplit cmp (b0 :: b')).1.any (fun be => eq ae be)) ++
      deleteFun cmp eq (runSplit cmp (a0 :: a')).2 (runSplit cmp (b0 :: b')).2
  termination_by a b => a.length + b.length
  decreasing_by
  all_goals
    first
    | (simp only [List.length_cons]; omega)
    | (simp only [runSplit, List.length_cons]
       exact Nat.lt_of_le_of_lt
         (Nat.add_le_add (List.Sublist.length_le (List.dropWhile_sublist _))
           (List.Sublist.length_le (List.dropWhile_sublist _)))
         (by omega))

theorem insertIdx_add_append (F R : List E) (n : Nat) (x : E) :
    (F ++ R).insertIdx (F.length + n) x = F ++ R.insertIdx n x := by
  induction F with
  | nil => simp
  | cons y t ih =>
    simp only [List.cons_append, List.length_cons]
    have : t.length + 1 + n = (t.length + n) + 1 := by omega
    rw [this, List.insertIdx_succ_cons, ih]

theorem applyInserts_shiftlen (F R : List E) (ins : List (Nat × E)) :
    applyInserts (F ++ R) (ins.map (fun p => (p.1 + F.length, p.2))) =
      F ++ applyInserts R ins := by
  induction ins with
  | nil => rfl
  | cons p t ih =>
    simp only [applyInserts, List.map_cons, List.foldr_cons] at ih ⊢
    rw [ih]
    have : p.1 + F.length = F.length + p.1 := by omega
    rw [this, insertIdx_add_append]

theorem applyInserts_pend (F X : List E) (pend : List E) :
    applyInserts (F ++ X) (pend.map (fun e => (F.length, e))) =
      F ++ pend ++ X := by
  induction pend with
  | nil => simp [applyInserts]
  | cons e t ih =>
    simp only [applyInserts, List.map_cons, List.foldr_cons] at ih ⊢
    rw [ih]
    have : F.length = F.length + 0 := by omega
    rw [List.append_assoc, this, insertIdx_add_append]
    simp

theorem applyInserts_split (a : List E) (l1 l2 : List (Nat × E)) :
    applyInserts a (l1 ++ l2) = applyInserts (applyInserts a l2) l1 := by
  unfold applyInserts
  exact List.foldr_append _ _ _ _

theorem mergeScan_shift (cmp : E → E → Int) (eq : E → E → Bool) :
    ∀ (n : Nat) (a b : List E) (ai : Nat), a.length + b.length ≤ n →
      mergeScan cmp eq a b ai =
        ((mergeScan cmp eq a b 0).1,
         (mergeScan cmp eq a b 0).2.1.map (fun p => (p.1 + ai, p.2)),
         (mergeScan cmp eq a b 0).2.2) := by
  intro n
  induction n with
  | zero =>
    intro a b ai h
    have ha : a = [] := List.eq_nil_of_length_eq_zero (by omega)
    have hb : b = [] := List.eq_nil_of_length_eq_zero (by omega)
    subst ha hb
    simp [mergeScan]
  | succ n ih =>
    intro a b ai h
    match a, b with
    | [], b => simp [mergeScan]
    | a0 :: a', [] => simp [mergeScan]
    | a0 :: a', b0 :: b' =>
      have hrec : ∀ ai2 : Nat, mergeScan cmp eq a' (b0 :: b') ai2 =
          ((mergeScan cmp eq a' (b0 :: b') 0).1,
           (mergeScan cmp eq a' (b0 :: b') 0).2.1.map (fun p => (p.1 + ai2, p.2)),
           (mergeScan cmp eq a' (b0 :: b') 0).2.2) := by
        intro ai2
        exact ih a' (b0 :: b') ai2 (by simp only [List.length_cons] at h ⊢; omega)
      have hrec2 : ∀ ai2 : Nat, mergeScan cmp eq (a0 :: a') b' ai2 =
          ((mergeScan cmp eq (a0 :: a') b' 0).1,
           (mergeScan cmp eq (a0 :: a') b' 0).2.1.map (fun p => (p.1 + ai2, p.2)),
           (mergeScan cmp eq (a0 :: a') b' 0).2.2) := by
        intro ai2
        exact ih (a0 :: a') b' ai2 (by simp only [List.length_cons] at h ⊢; omega)
      have hrec3 : ∀ ai2 : Nat, mergeScan cmp eq (runSplit cmp (a0 :: a')).2
          (runSplit cmp (b0 :: b')).2 ai2 =
          ((mergeScan cmp eq (runSplit cmp (a0 :: a')).2 (runSplit cmp (b0 :: b')).2 0).1,
           (mergeScan cmp eq (runSplit cmp (a0 :: a')).2
             (runSplit cmp (b0 :: b')).2 0).2.1.map (fun p => (p.1 + ai2, p.2)),
           (mergeScan cmp eq (runSplit cmp (a0 :: a')).2 (runSplit cmp (b0 :: b')).2 0).2.2) := by
        intro ai2
        refine ih _ _ ai2 ?_
        have h1 := runSplit_snd_length cmp a0 a'
        have h2 := runSplit_snd_length cmp b0 b'
        simp only [List.length_cons] at h
        omega
      by_cases hc1 : cmp a0 b0 < 0
      · simp only [mergeScan]
        simp only [if_pos hc1]
        rw [hrec (ai + 1), hrec (0 + 1)]
        simp only [Prod.mk.injEq, List.map_map, true_and, and_true]
        apply List.map_congr_left
        intro p _
        simp only [Function.comp_apply, Prod.mk.injEq]
        exact ⟨by omega, trivial⟩
      · by_cases hc2 : cmp a0 b0 > 0
        · simp only [mergeScan]
          simp only [if_neg hc1, if_pos hc2]
          rw [hrec2 ai]
          simp only [Prod.mk.injEq, List.map_cons, List.map_map, true_and, and_true]
          rw [Nat.zero_add]
        · simp only [mergeScan]
          simp only [if_neg hc1, if_neg hc2]
          rw [hrec3 (ai + (runSplit cmp (a0 :: a')).1.length),
            hrec3 (0 + (runSplit cmp (a0 :: a')).1.length)]
          simp only [Prod.mk.injEq, List.map_append, List.map_map, true_and, and_true]
          congr 1
          · apply List.map_congr_left
            intro e _
            simp only [Function.comp_apply, Prod.mk.injEq]
            exact ⟨by omega, trivial⟩
          · apply List.map_congr_left
            intro p _
            simp only [Function.comp_apply, Prod.mk.injEq]
            exact ⟨by omega, trivial⟩

theorem deleteScan_shift (cmp : E → E → Int) (eq : E → E → Bool) :
    ∀ (n : Nat) (a b : List E) (ai : Nat), a.length + b.length ≤ n →
      deleteScan cmp eq a b ai = (deleteScan cmp eq a b 0).map (· + ai) := by
  intro n
  induction n with
  | zero =>
    intro a b ai h
    have ha : a = [] := List.eq_nil_of_length_eq_zero (by omega)
    subst ha
    simp [deleteScan]
  | succ n ih =>
    intro a b ai h
    match a, b with
    | [], b => simp [deleteScan]
    | a0 :: a', [] => simp [deleteScan]
    | a0 :: a', b0 :: b' =>
      have hrec : ∀ ai2 : Nat, deleteScan cmp eq a' (b0 :: b') ai2 =
          (deleteScan cmp eq a' (b0 :: b') 0).map (· + ai2) := by
        intro ai2
        exact ih a' (b0 :: b') ai2 (by simp only [List.length_cons] at h ⊢; omega)
      have hrec2 : ∀ ai2 : Nat, deleteScan cmp eq (a0 :: a') b' ai2 =
          (deleteScan cmp eq (a0 :: a') b' 0).map (· + ai2) := by
        intro ai2
        exact ih (a0 :: a') b' ai2 (by simp only [List.length_cons] at h ⊢; omega)
      have hrec3 : ∀ ai2 : Nat, deleteScan cmp eq (runSplit cmp (a0 :: a')).2
          (runSplit cmp (b0 :: b')).2 ai2 =
          (deleteScan cmp eq (runSplit cmp (a0 :: a')).2
            (runSplit cmp (b0 :: b')).2 0).map (· + ai2) := by
        intro ai2
        refine ih _ _ ai2 ?_
        have h1 := runSplit_snd_length cmp a0 a'
        have h2 := runSplit_snd_length cmp b0 b'
        simp only [List.length_cons] at h
        omega
      by_cases hc1 : cmp a0 b0 < 0
      · simp only [deleteScan]
        simp only [if_pos hc1]
        rw [hrec (ai + 1), hrec (0 + 1)]
        simp only [List.map_map]
        apply List.map_congr_left
        intro d _
        simp only [Function.comp_apply]
        omega
      · by_cases hc2 : cmp a0 b0 > 0
        · simp only [deleteScan]
          simp only [if_neg hc1, if_pos hc2]
          exact hrec2 ai
        · simp only [deleteScan]
          simp only [if_neg hc1, if_neg hc2]
          rw [hrec3 (ai + (runSplit cmp (a0 :: a')).1.length),
            hrec3 (0 + (runSplit cmp (a0 :: a')).1.length)]
          rw [filterMap_if_eq_map_filter, filterMap_if_eq_map_filter]
          simp only [List.map_append, List.map_map]
          congr 1
          · apply List.map_congr_left
            intro i _
            simp only [Function.comp_apply]
            omega
          · apply List.map_congr_left
            intro d _
            simp only [Function.comp_apply]
            omega

/-!
## Decomposition lemmas for `keptAfter`
-/

theorem keptAfter_shift_one (x : E) (t : List E) :
    ∀ (ds : List Nat) (src : Nat),
      keptAfter (x :: t) (src + 1) (ds.map (· + 1)) = keptAfter t src ds
  | [], src => by simp [keptAfter]
  | d :: rest, src => by
    simp only [List.map_cons, keptAfter, List.drop_succ_cons]
    have h1 : d + 1 - (src + 1) = d - src := by omega
    rw [h1]
    exact congrArg _ (keptAfter_shift_one x t rest (d + 1))

theorem keptAfter_cons_shift (x : E) (t : List E) (ds : List Nat) :
    keptAfter (x :: t) 0 (ds.map (· + 1)) = x :: keptAfter t 0 ds := by
  cases ds with
  | nil => simp [keptAfter]
  | cons d rest =>
    simp only [List.map_cons, keptAfter, List.drop_zero]
    have h1 : d + 1 - 0 = d + 1 := by omega
    rw [h1, List.take_succ_cons]
    rw [keptAfter_shift_one x t rest (d + 1)]
    simp

theorem keptAfter_append_shift (F R : List E) :
    ∀ (ds : List Nat) (s : Nat),
      keptAfter (F ++ R) (F.length + s) (ds.map (· + F.length)) = keptAfter R s ds
  | [], s => by
    simp only [keptAfter, List.map_nil]
    rw [List.drop_append_eq_append_drop, List.drop_eq_nil_of_le (by omega)]
    simp only [List.nil_append]
    congr 1
    omega
  | d :: rest, s => by
    simp only [List.map_cons, keptAfter]
    have hdrop : (F ++ R).drop (F.length + s) = R.drop s := by
      rw [List.drop_append_eq_append_drop, List.drop_eq_nil_of_le (by omega)]
      simp only [List.nil_append]
      congr 1
      omega
    rw [hdrop]
    have h1 : d + F.length - (F.length + s) = d - s := by omega
    rw [h1]
    have h2 : d + F.length + 1 = F.length + (d + 1) := by omega
    rw [h2]
    exact congrArg _ (keptAfter_append_shift F R rest (d + 1))

theorem keptAfter_append_base (F R : List E) :
    ∀ (ds : List Nat) (src : Nat), src ≤ F.length →
      keptAfter (F ++ R) src (ds.map (· + F.length)) =
        F.drop src ++ keptAfter R 0 ds
  | [], src, hsrc => by
    simp only [keptAfter, List.map_nil]
    rw [List.drop_append_of_le_length hsrc, List.drop_zero]
  | d :: rest, src, hsrc => by
    simp only [List.map_cons, keptAfter]
    have hdrop : (F ++ R).drop src = F.drop src ++ R :=
      List.drop_append_of_le_length hsrc
    rw [hdrop]
    have htake : (F.drop src ++ R).take (d + F.length - src) =
        F.drop src ++ R.take d := by
      rw [List.take_append_eq_append_take,
        List.take_of_length_le (by simp only [List.length_drop]; omega)]
      congr 2
      simp only [List.length_drop]
      omega
    rw [htake]
    have h2 : d + F.length + 1 = F.length + (d + 1) := by omega
    rw [h2, keptAfter_append_shift F R rest (d + 1)]
    simp [keptAfter, List.append_assoc]

theorem keptAfter_append_marks (F R : List E) :
    ∀ (marks : List Nat) (ds : List Nat) (src : Nat), src ≤ F.length →
      (∀ m ∈ marks, src ≤ m ∧ m < F.length) →
      marks.Pairwise (· < ·) →
      keptAfter (F ++ R) src (marks ++ ds.map (· + F.length)) =
        keptAfter F src marks ++ keptAfter R 0 ds
  | [], ds, src, hsrc, _, _ => by
    simp only [List.nil_append, keptAfter]
    exact keptAfter_append_base F R ds src hsrc
  | m :: marks', ds, src, hsrc, hm, hpw => by
    have hm0 := hm m (by simp)
    simp only [List.cons_append, keptAfter, List.append_eq]
    have htake : ((F ++ R).drop src).take (m - src) =
        (F.drop src).take (m - src) := by
      rw [List.drop_append_of_le_length hsrc, List.take_append_of_le_length]
      simp only [List.length_drop]
      omega
    rw [htake]
    rw [keptAfter_append_marks F R marks' ds (m + 1) (by omega)
      (fun x hx => ⟨(List.pairwise_cons.1 hpw).1 x hx, (hm x (by simp [hx])).2⟩)
      (List.pairwise_cons.1 hpw).2]
    simp [List.append_assoc]

theorem keptAfter_filter_range (d : E) :
    ∀ (F : List E) (p : Nat → Bool) (q : E → Bool),
      (∀ i, i < F.length → p i = q (F.getD i d)) →
      keptAfter F 0 ((List.range F.length).filter p) =
        F.filter (fun x => !q x)
  | [], p, q, _ => by simp [keptAfter]
  | x :: t, p, q, hpq => by
    have hq0 : p 0 = q x := hpq 0 (by simp)
    rw [List.length_cons, List.range_succ_eq_map]
    have hmapfix : (List.range t.length).map Nat.succ =
        (List.range t.length).map (· + 1) := by
      apply List.map_congr_left
      intro i _
      omega
    rw [List.filter_cons]
    by_cases h0 : p 0
    · rw [if_pos (by simp [h0])]
      rw [hmapfix, List.filter_map]
      have : keptAfter (x :: t) 0
          (0 :: ((List.range t.length).filter (p ∘ (· + 1))).map (· + 1)) =
          keptAfter t 0 ((List.range t.length).filter (p ∘ (· + 1))) := by
        simp only [keptAfter, List.drop_zero, List.take_zero, List.nil_append]
        have h01 : (0 : Nat) + 1 = 0 + 1 := rfl
        exact keptAfter_shift_one x t _ 0
      rw [this]
      rw [keptAfter_filter_range d t (p ∘ (· + 1)) q
        (fun i hi => by
          have := hpq (i + 1) (by simp; omega)
          simpa using this)]
      have hqx : q x = true := by rw [← hq0]; exact h0
      rw [List.filter_cons, if_neg (by simp [hqx])]
    · rw [if_neg (by simp [h0])]
      rw [hmapfix, List.filter_map]
      rw [keptAfter_cons_shift]
      rw [keptAfter_filter_range d t (p ∘ (· + 1)) q
        (fun i hi => by
          have := hpq (i + 1) (by simp; omega)
          simpa using this)]
      have hqx : q x = false := by
        rw [← hq0]
        exact Bool.of_not_eq_true h0 ▸ (by simp at h0; simp [h0])
      rw [List.filter_cons, if_pos (by simp [hqx])]

theorem mergeScan_shift' (cmp : E → E → Int) (eq : E → E → Bool)
    (a b : List E) (ai : Nat) :
    mergeScan cmp eq a b ai =
      ((mergeScan cmp eq a b 0).1,
       (mergeScan cmp eq a b 0).2.1.map (fun p => (p.1 + ai, p.2)),
       (mergeScan cmp eq a b 0).2.2) :=
  mergeScan_shift cmp eq (a.length + b.length) a b ai (le_refl _)

theorem deleteScan_shift' (cmp : E → E → Int) (eq : E → E → Bool)
    (a b : List E) (ai : Nat) :
    deleteScan cmp eq a b ai = (deleteScan cmp eq a b 0).map (· + ai) :=
  deleteScan_shift cmp eq (a.length + b.length) a b ai (le_refl _)

theorem applyInserts_cons_zero (l : List E) (b0 : E) (ins : List (Nat × E)) :
    applyInserts l ((0, b0) :: ins) = b0 :: applyInserts l ins := by
  simp [applyInserts]

theorem applyInserts_cons_shift (x : E) (R : List E) (ins : List (Nat × E)) :
    applyInserts (x :: R) (ins.map (fun p => (p.1 + 1, p.2))) =
      x :: applyInserts R ins := by
  have h := applyInserts_shiftlen [x] R ins
  simpa using h

/-- The merge scan followed by the realized insertion pass computes
`mergeFun`. -/
theorem applyInserts_mergeScan (cmp : E → E → Int) (eq : E → E → Bool) :
    ∀ (n : Nat) (a b : List E), a.length + b.length ≤ n →
      applyInserts (mergeScan cmp eq a b 0).1 (mergeScan cmp eq a b 0).2.1 ++
        (mergeScan cmp eq a b 0).2.2 = mergeFun cmp eq a b := by
  intro n
  induction n with
  | zero =>
    intro a b h
    have ha : a = [] := List.eq_nil_of_length_eq_zero (by omega)
    have hb : b = [] := List.eq_nil_of_length_eq_zero (by omega)
    subst ha hb
    simp [mergeScan, mergeFun, applyInserts]
  | succ n ih =>
    intro a b h
    match a, b with
    | [], b => simp [mergeScan, mergeFun, applyInserts]
    | a0 :: a', [] => simp [mergeScan, mergeFun, applyInserts]
    | a0 :: a', b0 :: b' =>
      by_cases hc1 : cmp a0 b0 < 0
      · simp only [mergeScan, mergeFun]
        simp only [if_pos hc1]
        rw [mergeScan_shift' cmp eq a' (b0 :: b') (0 + 1)]
        simp only [Nat.zero_add]
        rw [applyInserts_cons_shift]
        rw [List.cons_append]
        rw [ih a' (b0 :: b') (by simp only [List.length_cons] at h ⊢; omega)]
      · by_cases hc2 : cmp a0 b0 > 0
        · simp only [mergeScan, mergeFun]
          simp only [if_neg hc1, if_pos hc2]
          rw [applyInserts_cons_zero]
          rw [List.cons_append]
          rw [ih (a0 :: a') b' (by simp only [List.length_cons] at h ⊢; omega)]
        · simp only [mergeScan, mergeFun]
          simp only [if_neg hc1, if_neg hc2]
          rw [mergeScan_shift' cmp eq (runSplit cmp (a0 :: a')).2
            (runSplit cmp (b0 :: b')).2 (0 + (runSplit cmp (a0 :: a')).1.length)]
          simp only [Nat.zero_add]
          rw [applyInserts_split]
          have hP1 : (runSplit cmp (a0 :: a')).1.length =
              (reconcile eq (runSplit cmp (a0 :: a')).1 (runSplit cmp (b0 :: b')).1).1.length :=
            (reconcile_fst_length eq _ _).symm
          rw [hP1]
          rw [applyInserts_shiftlen]
          rw [applyInserts_pend, List.append_assoc]
          rw [ih (runSplit cmp (a0 :: a')).2 (runSplit cmp (b0 :: b')).2
            (by
              have h1 := runSplit_snd_length cmp a0 a'
              have h2 := runSplit_snd_length cmp b0 b'
              simp only [List.length_cons] at h
              omega)]

theorem keptAfter_run_case (F R : List E) (p : Nat → Bool) (q : E → Bool)
    (ds : List Nat) (d : E)
    (hpq : ∀ i, i < F.length → p i = q (F.getD i d)) :
    keptAfter (F ++ R) 0 ((List.range F.length).filter p ++ ds.map (· + F.length)) =
      F.filter (fun x => !q x) ++ keptAfter R 0 ds := by
  rw [keptAfter_append_marks F R _ ds 0 (Nat.zero_le _)
    (fun m hm => ⟨Nat.zero_le _, List.mem_range.1 (List.mem_of_mem_filter hm)⟩)
    (List.Pairwise.filter _ (pairwise_lt_rangeN _))]
  rw [keptAfter_filter_range d F p q hpq]

/-- The delete scan followed by the left-compaction pass computes
`deleteFun`. -/
theorem keptAfter_deleteScan (cmp : E → E → Int) (eq : E → E → Bool) :
    ∀ (n : Nat) (a b : List E), a.length + b.length ≤ n →
      keptAfter a 0 (deleteScan cmp eq a b 0) = deleteFun cmp eq a b := by
  intro n
  induction n with
  | zero =>
    intro a b h
    have ha : a = [] := List.eq_nil_of_length_eq_zero (by omega)
    subst ha
    simp [deleteScan, deleteFun, keptAfter]
  | succ n ih =>
    intro a b h
    match a, b with
    | [], b => simp [deleteScan, deleteFun, keptAfter]
    | a0 :: a', [] => simp [deleteScan, deleteFun, keptAfter]
    | a0 :: a', b0 :: b' =>
      by_cases hc1 : cmp a0 b0 < 0
      · simp only [deleteScan, deleteFun]
        simp only [if_pos hc1]
        rw [deleteScan_shift' cmp eq a' (b0 :: b') (0 + 1)]
        simp only [Nat.zero_add]
        rw [keptAfter_cons_shift]
        rw [ih a' (b0 :: b') (by simp only [List.length_cons] at h ⊢; omega)]
      · by_cases hc2 : cmp a0 b0 > 0
        · simp only [deleteScan, deleteFun]
          simp only [if_neg hc1, if_pos hc2]
          exact ih (a0 :: a') b' (by simp only [List.length_cons] at h ⊢; omega)
        · simp only [deleteScan, deleteFun]
          simp only [if_neg hc1, if_neg hc2]
          rw [deleteScan_shift' cmp eq (runSplit cmp (a0 :: a')).2
            (runSplit cmp (b0 :: b')).2 (0 + (runSplit cmp (a0 :: a')).1.length)]
          simp only [Nat.zero_add]
          rw [filterMap_if_eq_map_filter]
          rw [List.map_id']
          have hmain := keptAfter_run_case (runSplit cmp (a0 :: a')).1
            (runSplit cmp (a0 :: a')).2
            (fun i => (runSplit cmp (b0 :: b')).1.any
              (fun be => eq ((runSplit cmp (a0 :: a')).1.getD i a0) be))
            (fun x => (runSplit cmp (b0 :: b')).1.any (fun be => eq x be))
            (deleteScan cmp eq (runSplit cmp (a0 :: a')).2 (runSplit cmp (b0 :: b')).2 0)
            a0
            (fun i _ => rfl)
          rw [runSplit_append] at hmain
          rw [hmain]
          rw [ih (runSplit cmp (a0 :: a')).2 (runSplit cmp (b0 :: b')).2
            (by
              have h1 := runSplit_snd_length cmp a0 a'
              have h2 := runSplit_snd_length cmp b0 b'
              simp only [List.length_cons] at h
              omega)]

theorem keptList_eq_keptAfter (a : List E) (ds : List Nat) :
    keptList a ds = keptAfter a 0 ds := by
  cases ds with
  | nil => simp [keptList, keptAfter]
  | cons d rest => simp [keptList, keptAfter]

/-- The batched merge never panics and computes `mergeFun`, for arbitrary
comparison and equality functions. -/
theorem mergeSortedLists_eq_mergeFun [Inhabited E] (cmp : E → E → Int)
    (eq : E → E → Bool) (a b : List E) :
    mergeSortedLists cmp eq a b = some (mergeFun cmp eq a b) := by
  rw [mergeSortedLists_eq]
  congr 1
  exact applyInserts_mergeScan cmp eq (a.length + b.length) a b (le_refl _)

/-- The batched delete never panics and computes `deleteFun`, for arbitrary
comparison and equality functions. -/
theorem diffSortedLists_eq_deleteFun (cmp : E → E → Int) (eq : E → E → Bool)
    (a b : List E) :
    diffSortedLists cmp eq a b = some (deleteFun cmp eq a b) := by
  rw [diffSortedLists_eq]
  congr 1
  rw [keptList_eq_keptAfter]
  exact keptAfter_deleteScan cmp eq (a.length + b.length) a b (le_refl _)

/-!
## Derived facts about lawful comparison and equality functions
-/

theorem cmp_self {cmp : E → E → Int} (L : LawfulCmp cmp) (a : E) : cmp a a = 0 := by
  have h := L.flip_lt a a
  omega

theorem cmp_zero_comm {cmp : E → E → Int} (L : LawfulCmp cmp) {a b : E} :
    cmp a b = 0 ↔ cmp b a = 0 := by
  have h1 := L.flip_lt a b
  have h2 := L.flip_lt b a
  omega

theorem cmp_pos_iff {cmp : E → E → Int} (L : LawfulCmp cmp) {a b : E} :
    0 < cmp a b ↔ cmp b a < 0 :=
  (L.flip_lt b a).symm

theorem cmp_eq_trans {cmp : E → E → Int} (L : LawfulCmp cmp) {a b c : E}
    (h1 : cmp a b = 0) (h2 : cmp b c = 0) : cmp a c = 0 := by
  rcases lt_trichotomy (cmp a c) 0 with h | h | h
  · have := L.lt_of_lt_of_eq a c b h ((cmp_zero_comm L).1 h2)
    omega
  · exact h
  · have hca : cmp c a < 0 := (cmp_pos_iff L).1 h
    have := L.lt_of_lt_of_eq c a b hca h1
    have hcb : cmp b c = 0 := h2
    have := (cmp_zero_comm L).1 hcb
    omega

theorem cmp_lt_of_lt_of_le {cmp : E → E → Int} (L : LawfulCmp cmp) {a b c : E}
    (h1 : cmp a b < 0) (h2 : cmp b c ≤ 0) : cmp a c < 0 := by
  rcases lt_or_eq_of_le h2 with h | h
  · exact L.lt_trans a b c h1 h
  · exact L.lt_of_lt_of_eq a b c h1 h

theorem cmp_lt_of_le_of_lt {cmp : E → E → Int} (L : LawfulCmp cmp) {a b c : E}
    (h1 : cmp a b ≤ 0) (h2 : cmp b c < 0) : cmp a c < 0 := by
  rcases lt_or_eq_of_le h1 with h | h
  · exact L.lt_trans a b c h h2
  · exact L.lt_of_eq_of_lt a b c h h2

theorem cmp_le_trans {cmp : E → E → Int} (L : LawfulCmp cmp) {a b c : E}
    (h1 : cmp a b ≤ 0) (h2 : cmp b c ≤ 0) : cmp a c ≤ 0 := by
  rcases lt_or_eq_of_le h1 with h | h
  · exact le_of_lt (cmp_lt_of_lt_of_le L h h2)
  · rcases lt_or_eq_of_le h2 with h' | h'
    · exact le_of_lt (L.lt_of_eq_of_lt a b c h h')
    · exact le_of_eq (cmp_eq_trans L h h')

theorem cmp_eq_le_congr {cmp : E → E → Int} (L : LawfulCmp cmp) {a b c : E}
    (h : cmp a b = 0) : cmp a c ≤ 0 ↔ cmp b c ≤ 0 := by
  constructor
  · intro hac
    rcases lt_or_eq_of_le hac with h' | h'
    · exact le_of_lt (L.lt_of_eq_of_lt b a c ((cmp_zero_comm L).1 h) h')
    · exact le_of_eq (cmp_eq_trans L ((cmp_zero_comm L).1 h) h')
  · intro hbc
    rcases lt_or_eq_of_le hbc with h' | h'
    · exact le_of_lt (L.lt_of_eq_of_lt a b c h h')
    · exact le_of_eq (cmp_eq_trans L h h')

theorem eq_false_of_cmp_ne {cmp : E → E → Int} {eq : E → E → Bool}
    (Q : LawfulEq cmp eq) {a b : E} (h : cmp a b ≠ 0) : eq a b = false := by
  cases heq : eq a b with
  | false => rfl
  | true => exact absurd (Q.compat a b heq) h

/-!
## Structure of `overwriteFirst`
-/

theorem overwriteFirst_some (eq : E → E → Bool) (x : E) :
    ∀ (l l' : List E), overwriteFirst eq x l = some l' →
      ∃ l1 y l2, l = l1 ++ y :: l2 ∧ l' = l1 ++ x :: l2 ∧ eq x y = true ∧
        ∀ z ∈ l1, eq x z = false
  | [], _, h => by simp [overwriteFirst] at h
  | y :: t, l', h => by
    by_cases hxy : eq x y
    · simp only [overwriteFirst, if_pos hxy, Option.some.injEq] at h
      exact ⟨[], y, t, by simp, by simp [← h], hxy, by simp⟩
    · simp only [overwriteFirst, if_neg hxy, Option.map_eq_some'] at h
      rcases h with ⟨t', ht', rfl⟩
      rcases overwriteFirst_some eq x t t' ht' with ⟨l1, y1, l2, hl, hl', hxy1, hz⟩
      refine ⟨y :: l1, y1, l2, by simp [hl], by simp [hl'], hxy1, ?_⟩
      intro z hz'
      rcases List.mem_cons.1 hz' with rfl | hz'
      · exact Bool.eq_false_iff.2 hxy
      · exact hz z hz'

theorem overwriteFirst_none (eq : E → E → Bool) (x : E) :
    ∀ (l : List E), overwriteFirst eq x l = none ↔ ∀ z ∈ l, eq x z = false
  | [] => by simp [overwriteFirst]
  | y :: t => by
    by_cases hxy : eq x y
    · simp [overwriteFirst, hxy]
    · simp only [overwriteFirst, if_neg hxy, Option.map_eq_none', List.mem_cons]
      rw [overwriteFirst_none eq x t]
      constructor
      · intro h z hz
        rcases hz with rfl | hz
        · exact Bool.eq_false_iff.2 hxy
        · exact h z hz
      · intro h z hz
        exact h z (Or.inr hz)

/-!
## Run lemmas under lawful comparison
-/

theorem runSplit_fst_key {cmp : E → E → Int} (L : LawfulCmp cmp) (v0 : E)
    (rest : List E) :
    ∀ x ∈ (runSplit cmp (v0 :: rest)).1, cmp v0 x = 0 := by
  intro x hx
  simp only [runSplit] at hx
  rcases List.mem_cons.1 hx with rfl | hx
  · exact cmp_self L x
  · have h := List.mem_takeWhile_imp hx
    simpa using h

theorem dropWhile_run_lt {cmp : E → E → Int} (L : LawfulCmp cmp) (v0 : E) :
    ∀ (rest : List E), (∀ y ∈ rest, cmp v0 y ≤ 0) →
      rest.Pairwise (fun a b => cmp a b ≤ 0) →
      ∀ y ∈ rest.dropWhile (fun v => cmp v0 v == 0), cmp v0 y < 0
  | [], _, _ => by simp
  | r :: t, hle, hpw => by
    intro y hy
    by_cases hr : cmp v0 r = 0
    · rw [List.dropWhile_cons, if_pos (by simpa using hr)] at hy
      exact dropWhile_run_lt L v0 t
        (fun z hz => hle z (List.mem_cons_of_mem r hz))
        (List.pairwise_cons.1 hpw).2 y hy
    · rw [List.dropWhile_cons, if_neg (by simpa using hr)] at hy
      have hv0r : cmp v0 r < 0 :=
        lt_of_le_of_ne (hle r (List.mem_cons_self r t)) hr
      rcases List.mem_cons.1 hy with rfl | hy
      · exact hv0r
      · exact cmp_lt_of_lt_of_le L hv0r ((List.pairwise_cons.1 hpw).1 y hy)

theorem runSplit_snd_lt {cmp : E → E → Int} (L : LawfulCmp cmp) (v0 : E)
    (rest : List E)
    (hpw : (v0 :: rest).Pairwise (fun a b => cmp a b ≤ 0)) :
    ∀ y ∈ (runSplit cmp (v0 :: rest)).2, cmp v0 y < 0 := by
  intro y hy
  simp only [runSplit] at hy
  exact dropWhile_run_lt L v0 rest (List.pairwise_cons.1 hpw).1
    (List.pairwise_cons.1 hpw).2 y hy

theorem runSplit_fst_sublist (cmp : E → E → Int) (l : List E) :
    (runSplit cmp l).1.Sublist l := by
  cases l with
  | nil => simp [runSplit]
  | cons v0 rest =>
    simp only [runSplit]
    exact List.Sublist.cons₂ v0 (rest.takeWhile_sublist _)

theorem runSplit_snd_sublist (cmp : E → E → Int) (l : List E) :
    (runSplit cmp l).2.Sublist l := by
  cases l with
  | nil => simp [runSplit]
  | cons v0 rest =>
    simp only [runSplit]
    exact (rest.dropWhile_sublist _).trans (List.sublist_cons_self v0 rest)

/-!
## Semantics of the run reconciliation
-/

theorem reconcileAux_subset (eq : E → E → Bool) :
    ∀ (br : List E) (s : List E × List E) (v : E),
      (v ∈ (br.foldl (fun s b =>
          match overwriteFirst eq b s.1 with
          | some ar2 => (ar2, s.2)
          | none => (s.1, s.2 ++ [b])) s).1 ∨
       v ∈ (br.foldl (fun s b =>
          match overwriteFirst eq b s.1 with
          | some ar2 => (ar2, s.2)
          | none => (s.1, s.2 ++ [b])) s).2) →
      v ∈ s.1 ∨ v ∈ s.2 ∨ v ∈ br
  | [], s, v => by
    intro h
    exact h.imp id Or.inl
  | b :: br', s, v => by
    intro h
    rw [List.foldl_cons] at h
    cases hof : overwriteFirst eq b s.1 with
    | some ar2 =>
      rw [hof] at h
      have := reconcileAux_subset eq br' (ar2, s.2) v h
      rcases overwriteFirst_some eq b s.1 ar2 hof with ⟨l1, y, l2, hl, hl', _, _⟩
      rcases this with hv | hv | hv
      · subst hl'
        rcases List.mem_append.1 hv with hv | hv
        · exact Or.inl (hl ▸ List.mem_append_left _ hv)
        · rcases List.mem_cons.1 hv with rfl | hv
          · exact Or.inr (Or.inr (by simp))
          · exact Or.inl (hl ▸ List.mem_append_right _ (List.mem_cons_of_mem y hv))
      · exact Or.inr (Or.inl hv)
      · exact Or.inr (Or.inr (by simp [hv]))
    | none =>
      rw [hof] at h
      have := reconcileAux_subset eq br' (s.1, s.2 ++ [b]) v h
      rcases this with hv | hv | hv
      · exact Or.inl hv
      · rcases List.mem_append.1 hv with hv | hv
        · exact Or.inr (Or.inl hv)
        · exact Or.inr (Or.inr (by simpa using Or.inl (List.mem_singleton.1 hv)))
      · exact Or.inr (Or.inr (by simp [hv]))

theorem reconcile_subset (eq : E → E → Bool) (ar br : List E) (v : E)
    (h : v ∈ (reconcile eq ar br).1 ∨ v ∈ (reconcile eq ar br).2) :
    v ∈ ar ∨ v ∈ br := by
  have := reconcileAux_subset eq br (ar, []) v (by
    unfold reconcile at h
    exact h)
  rcases this with hv | hv | hv
  · exact Or.inl hv
  · simp at hv
  · exact Or.inr hv

theorem reconcileAux_spec {cmp : E → E → Int} {eq : E → E → Bool}
    (Q : LawfulEq cmp eq) :
    ∀ (br : List E) (s : List E × List E),
      s.1.Pairwise (fun a b => eq a b = false) →
      s.2.Pairwise (fun a b => eq a b = false) →
      (∀ x ∈ s.1, ∀ y ∈ s.2, eq x y = false) →
      br.Pairwise (fun a b => eq a b = false) →
      (∀ b ∈ br, ∀ y ∈ s.2, eq b y = false) →
      ((br.foldl (fun s b =>
          match overwriteFirst eq b s.1 with
          | some ar2 => (ar2, s.2)
          | none => (s.1, s.2 ++ [b])) s).1.Pairwise (fun a b => eq a b = false) ∧
       (br.foldl (fun s b =>
          match overwriteFirst eq b s.1 with
          | some ar2 => (ar2, s.2)
          | none => (s.1, s.2 ++ [b])) s).2.Pairwise (fun a b => eq a b = false) ∧
       (∀ x ∈ (br.foldl (fun s b =>
          match overwriteFirst eq b s.1 with
          | some ar2 => (ar2, s.2)
          | none => (s.1, s.2 ++ [b])) s).1,
        ∀ y ∈ (br.foldl (fun s b =>
          match overwriteFirst eq b s.1 with
          | some ar2 => (ar2, s.2)
          | none => (s.1, s.2 ++ [b])) s).2, eq x y = false) ∧
       (∀ v, (v ∈ (br.foldl (fun s b =>
          match overwriteFirst eq b s.1 with
          | some ar2 => (ar2, s.2)
          | none => (s.1, s.2 ++ [b])) s).1 ∨
              v ∈ (br.foldl (fun s b =>
          match overwriteFirst eq b s.1 with
          | some ar2 => (ar2, s.2)
          | none => (s.1, s.2 ++ [b])) s).2) ↔
         (v ∈ br ∨ ((v ∈ s.1 ∨ v ∈ s.2) ∧ ∀ b ∈ br, eq b v = false))))
  | [], s, h1, h2, h3, _, _ => by
    refine ⟨h1, h2, h3, ?_⟩
    intro v
    simp
  | b :: br', s, h1, h2, h3, h4, h5 => by
    rw [List.foldl_cons]
    cases hof : overwriteFirst eq b s.1 with
    | some ar2 =>
      rcases overwriteFirst_some eq b s.1 ar2 hof with ⟨l1, y, l2, hl, hl', hby, hl1⟩
      rw [hl] at h1
      have hl1pw := (List.pairwise_append.1 h1).1
      have hyl2pw := (List.pairwise_append.1 h1).2.1
      have hcross1 := (List.pairwise_append.1 h1).2.2
      have hl2pw := (List.pairwise_cons.1 hyl2pw).2
      have hyvsl2 := (List.pairwise_cons.1 hyl2pw).1
      have har2 : ar2.Pairwise (fun a b => eq a b = false) := by
        rw [hl']
        rw [List.pairwise_append]
        refine ⟨hl1pw, ?_, ?_⟩
        · rw [List.pairwise_cons]
          refine ⟨?_, hl2pw⟩
          intro z hz
          cases hbz : eq b z with
          | false => rfl
          | true =>
            have h6 : eq y b = true := Q.symm b y hby
            have h7 : eq y z = true := Q.trans y b z h6 hbz
            rw [hyvsl2 z hz] at h7
            exact absurd h7 (by simp)
        · intro x hx z hz
          rcases List.mem_cons.1 hz with hze | hzm
          · cases hxz : eq x z with
            | false => rfl
            | true =>
              have h6 := Q.symm x z hxz
              rw [hze] at h6
              rw [hl1 x hx] at h6
              exact absurd h6 (by simp)
          · exact hcross1 x hx z (List.mem_cons_of_mem y hzm)
      have hcross2 : ∀ x ∈ ar2, ∀ z ∈ s.2, eq x z = false := by
        intro x hx z hz
        rw [hl'] at hx
        rcases List.mem_append.1 hx with hx1 | hx1
        · exact h3 x (hl ▸ List.mem_append_left _ hx1) z hz
        · rcases List.mem_cons.1 hx1 with hx2 | hx2
          · rw [hx2]
            exact h5 b (List.mem_cons_self b br') z hz
          · exact h3 x (hl ▸ List.mem_append_right _ (List.mem_cons_of_mem y hx2)) z hz
      have hih := reconcileAux_spec Q br' (ar2, s.2) har2 h2 hcross2
        (List.pairwise_cons.1 h4).2
        (fun b2 hb2 z hz => h5 b2 (List.mem_cons_of_mem b hb2) z hz)
      refine ⟨hih.1, hih.2.1, hih.2.2.1, ?_⟩
      intro v
      rw [hih.2.2.2 v]
      constructor
      · rintro (hv1 | ⟨hv1, hnom⟩)
        · exact Or.inl (List.mem_cons_of_mem b hv1)
        · rcases hv1 with hv2 | hv2
          · rw [hl'] at hv2
            rcases List.mem_append.1 hv2 with hv3 | hv3
            · refine Or.inr ⟨Or.inl (hl ▸ List.mem_append_left _ hv3), ?_⟩
              intro b2 hb2
              rcases List.mem_cons.1 hb2 with hb2e | hb2m
              · rw [hb2e]
                exact hl1 v hv3
              · exact hnom b2 hb2m
            · rcases List.mem_cons.1 hv3 with hv4 | hv4
              · rw [hv4]
                exact Or.inl (List.mem_cons_self b br')
              · refine Or.inr ⟨Or.inl (hl ▸ List.mem_append_right _
                  (List.mem_cons_of_mem y hv4)), ?_⟩
                intro b2 hb2
                rcases List.mem_cons.1 hb2 with hb2e | hb2m
                · rw [hb2e]
                  cases hbv : eq b v with
                  | false => rfl
                  | true =>
                    have h6 : eq y b = true := Q.symm b y hby
                    have h7 : eq y v = true := Q.trans y b v h6 hbv
                    rw [hyvsl2 v hv4] at h7
                    exact absurd h7 (by simp)
                · exact hnom b2 hb2m
          · refine Or.inr ⟨Or.inr hv2, ?_⟩
            intro b2 hb2
            rcases List.mem_cons.1 hb2 with hb2e | hb2m
            · rw [hb2e]
              exact h5 b (List.mem_cons_self b br') v hv2
            · exact hnom b2 hb2m
      · rintro (hv1 | ⟨hv1, hnom⟩)
        · rcases List.mem_cons.1 hv1 with hv2 | hv2
          · refine Or.inr ⟨Or.inl ?_, ?_⟩
            · rw [hl', hv2]
              exact List.mem_append_right _ (List.mem_cons_self b l2)
            · intro b2 hb2m
              cases hb2v : eq b2 v with
              | false => rfl
              | true =>
                have h6 := Q.symm b2 v hb2v
                rw [hv2] at h6
                rw [(List.pairwise_cons.1 h4).1 b2 hb2m] at h6
                exact absurd h6 (by simp)
          · exact Or.inl hv2
        · rcases hv1 with hv2 | hv2
          · rw [hl] at hv2
            rcases List.mem_append.1 hv2 with hv3 | hv3
            · refine Or.inr ⟨Or.inl ?_, fun b2 hb2 => hnom b2 (List.mem_cons_of_mem b hb2)⟩
              rw [hl']
              exact List.mem_append_left _ hv3
            · rcases List.mem_cons.1 hv3 with hv4 | hv4
              · have h6 := hnom b (List.mem_cons_self b br')
                rw [hv4, hby] at h6
                exact absurd h6 (by simp)
              · refine Or.inr ⟨Or.inl ?_, fun b2 hb2 => hnom b2 (List.mem_cons_of_mem b hb2)⟩
                rw [hl']
                exact List.mem_append_right _ (List.mem_cons_of_mem b hv4)
          · exact Or.inr ⟨Or.inr hv2, fun b2 hb2 => hnom b2 (List.mem_cons_of_mem b hb2)⟩
    | none =>
      have hnone := (overwriteFirst_none eq b s.1).1 hof
      have h2' : (s.2 ++ [b]).Pairwise (fun a b => eq a b = false) := by
        rw [List.pairwise_append]
        refine ⟨h2, by simp, ?_⟩
        intro x hx z hz
        rw [List.mem_singleton.1 hz]
        cases hxb : eq x b with
        | false => rfl
        | true =>
          have h6 := Q.symm x b hxb
          rw [h5 b (List.mem_cons_self b br') x hx] at h6
          exact absurd h6 (by simp)
      have h3' : ∀ x ∈ s.1, ∀ z ∈ s.2 ++ [b], eq x z = false := by
        intro x hx z hz
        rcases List.mem_append.1 hz with hz1 | hz1
        · exact h3 x hx z hz1
        · rw [List.mem_singleton.1 hz1]
          cases hxb : eq x b with
          | false => rfl
          | true =>
            have h6 := Q.symm x b hxb
            rw [hnone x hx] at h6
            exact absurd h6 (by simp)
      have h5' : ∀ b2 ∈ br', ∀ z ∈ s.2 ++ [b], eq b2 z = false := by
        intro b2 hb2 z hz
        rcases List.mem_append.1 hz with hz1 | hz1
        · exact h5 b2 (List.mem_cons_of_mem b hb2) z hz1
        · rw [List.mem_singleton.1 hz1]
          cases hb2b : eq b2 b with
          | false => rfl
          | true =>
            have h6 := Q.symm b2 b hb2b
            rw [(List.pairwise_cons.1 h4).1 b2 hb2] at h6
            exact absurd h6 (by simp)
      have hih := reconcileAux_spec Q br' (s.1, s.2 ++ [b]) h1 h2' h3'
        (List.pairwise_cons.1 h4).2 h5'
      refine ⟨hih.1, hih.2.1, hih.2.2.1, ?_⟩
      intro v
      rw [hih.2.2.2 v]
      constructor
      · rintro (hv1 | ⟨hv1, hnom⟩)
        · exact Or.inl (List.mem_cons_of_mem b hv1)
        · rcases hv1 with hv2 | hv2
          · refine Or.inr ⟨Or.inl hv2, ?_⟩
            intro b2 hb2
            rcases List.mem_cons.1 hb2 with hb2e | hb2m
            · rw [hb2e]
              exact hnone v hv2
            · exact hnom b2 hb2m
          · rcases List.mem_append.1 hv2 with hv3 | hv3
            · refine Or.inr ⟨Or.inr hv3, ?_⟩
              intro b2 hb2
              rcases List.mem_cons.1 hb2 with hb2e | hb2m
              · rw [hb2e]
                exact h5 b (List.mem_cons_self b br') v hv3
              · exact hnom b2 hb2m
            · rw [List.mem_singleton.1 hv3]
              exact Or.inl (List.mem_cons_self b br')
      · rintro (hv1 | ⟨hv1, hnom⟩)
        · rcases List.mem_cons.1 hv1 with hv2 | hv2
          · refine Or.inr ⟨Or.inr ?_, ?_⟩
            · rw [hv2]
              exact List.mem_append_right _ (List.mem_singleton_self b)
            · intro b2 hb2m
              cases hb2v : eq b2 v with
              | false => rfl
              | true =>
                have h6 := Q.symm b2 v hb2v
                rw [hv2] at h6
                rw [(List.pairwise_cons.1 h4).1 b2 hb2m] at h6
                exact absurd h6 (by simp)
          · exact Or.inl hv2
        · rcases hv1 with hv2 | hv2
          · exact Or.inr ⟨Or.inl hv2, fun b2 hb2 => hnom b2 (List.mem_cons_of_mem b hb2)⟩
          · exact Or.inr ⟨Or.inr (List.mem_append_left _ hv2),
              fun b2 hb2 => hnom b2 (List.mem_cons_of_mem b hb2)⟩

/-- Semantics of the run reconciliation: the surviving A-run plus the
pending list is identity-unique and holds exactly the B-run values plus the
unmatched A-run values. -/
theorem reconcile_spec {cmp : E → E → Int} {eq : E → E → Bool}
    (Q : LawfulEq cmp eq) (ar br : List E)
    (har : ar.Pairwise (fun a b => eq a b = false))
    (hbr : br.Pairwise (fun a b => eq a b = false)) :
    ((reconcile eq ar br).1 ++ (reconcile eq ar br).2).Pairwise
      (fun a b => eq a b = false) ∧
    (∀ v, v ∈ (reconcile eq ar br).1 ++ (reconcile eq ar br).2 ↔
      (v ∈ br ∨ (v ∈ ar ∧ ∀ b ∈ br, eq b v = false))) := by
  have h := reconcileAux_spec Q br (ar, []) har (by simp) (by simp) hbr (by simp)
  unfold reconcile
  constructor
  · rw [List.pairwise_append]
    exact ⟨h.1, h.2.1, h.2.2.1⟩
  · intro v
    rw [List.mem_append]
    rw [h.2.2.2 v]
    simp

/-!
## Semantics of the merge
-/

theorem mergeFun_nil_left (cmp : E → E → Int) (eq : E → E → Bool) (b : List E) :
    mergeFun cmp eq [] b = b := by
  rw [mergeFun]

theorem mergeFun_nil_right (cmp : E → E → Int) (eq : E → E → Bool) (a0 : E)
    (a' : List E) : mergeFun cmp eq (a0 :: a') [] = a0 :: a' := by
  rw [mergeFun]

theorem mergeFun_lt {cmp : E → E → Int} {eq : E → E → Bool} {a0 b0 : E}
    {a' b' : List E} (hc : cmp a0 b0 < 0) :
    mergeFun cmp eq (a0 :: a') (b0 :: b') =
      a0 :: mergeFun cmp eq a' (b0 :: b') := by
  rw [mergeFun]
  simp [hc]

theorem mergeFun_gt {cmp : E → E → Int} {eq : E → E → Bool} {a0 b0 : E}
    {a' b' : List E} (hc : 0 < cmp a0 b0) :
    mergeFun cmp eq (a0 :: a') (b0 :: b') =
      b0 :: mergeFun cmp eq (a0 :: a') b' := by
  rw [mergeFun]
  have h1 : ¬ cmp a0 b0 < 0 := by omega
  simp [h1, hc]

theorem mergeFun_run {cmp : E → E → Int} {eq : E → E → Bool} {a0 b0 : E}
    {a' b' : List E} (hc : cmp a0 b0 = 0) :
    mergeFun cmp eq (a0 :: a') (b0 :: b') =
      (reconcile eq (runSplit cmp (a0 :: a')).1 (runSplit cmp (b0 :: b')).1).1 ++
      (reconcile eq (runSplit cmp (a0 :: a')).1 (runSplit cmp (b0 :: b')).1).2 ++
      mergeFun cmp eq (runSplit cmp (a0 :: a')).2 (runSplit cmp (b0 :: b')).2 := by
  rw [mergeFun]
  simp [hc]

theorem mergeFun_subset (cmp : E → E → Int) (eq : E → E → Bool) :
    ∀ (a b : List E) (v : E), v ∈ mergeFun cmp eq a b → v ∈ a ∨ v ∈ b
  | [], b, v => by
    rw [mergeFun_nil_left]
    exact Or.inr
  | a0 :: a', [], v => by
    rw [mergeFun_nil_right]
    exact Or.inl
  | a0 :: a', b0 :: b', v => by
    intro h
    rcases lt_trichotomy (cmp a0 b0) 0 with hc | hc | hc
    · rw [mergeFun_lt hc] at h
      rcases List.mem_cons.1 h with hv | hv
      · exact Or.inl (hv ▸ List.mem_cons_self a0 a')
      · rcases mergeFun_subset cmp eq a' (b0 :: b') v hv with hv1 | hv1
        · exact Or.inl (List.mem_cons_of_mem a0 hv1)
        · exact Or.inr hv1
    · rw [mergeFun_run hc] at h
      rcases List.mem_append.1 h with hv | hv
      · rcases reconcile_subset eq _ _ v (List.mem_append.1 hv) with hv1 | hv1
        · exact Or.inl ((runSplit_fst_sublist cmp (a0 :: a')).subset hv1)
        · exact Or.inr ((runSplit_fst_sublist cmp (b0 :: b')).subset hv1)
      · rcases mergeFun_subset cmp eq (runSplit cmp (a0 :: a')).2
          (runSplit cmp (b0 :: b')).2 v hv with hv1 | hv1
        · exact Or.inl ((runSplit_snd_sublist cmp (a0 :: a')).subset hv1)
        · exact Or.inr ((runSplit_snd_sublist cmp (b0 :: b')).subset hv1)
    · rw [mergeFun_gt hc] at h
      rcases List.mem_cons.1 h with hv | hv
      · exact Or.inr (hv ▸ List.mem_cons_self b0 b')
      · rcases mergeFun_subset cmp eq (a0 :: a') b' v hv with hv1 | hv1
        · exact Or.inl hv1
        · exact Or.inr (List.mem_cons_of_mem b0 hv1)
  termination_by a b => a.length + b.length
  decreasing_by
  all_goals
    first
    | (simp only [List.length_cons]; omega)
    | (simp only [runSplit, List.length_cons]
       exact Nat.lt_of_le_of_lt
         (Nat.add_le_add (List.Sublist.length_le (List.dropWhile_sublist _))
           (List.Sublist.length_le (List.dropWhile_sublist _)))
         (by omega))

theorem mergeFun_spec {cmp : E → E → Int} {eq : E → E → Bool}
    (L : LawfulCmp cmp) (Q : LawfulEq cmp eq) :
    ∀ (a b : List E), SortedUniq cmp eq a → SortedUniq cmp eq b →
      SortedUniq cmp eq (mergeFun cmp eq a b) ∧
      (∀ v, v ∈ mergeFun cmp eq a b ↔
        (v ∈ b ∨ (v ∈ a ∧ ∀ y ∈ b, eq y v = false)))
  | [], b, _, hb => by
    rw [mergeFun_nil_left]
    exact ⟨hb, fun v => by simp⟩
  | a0 :: a', [], ha, _ => by
    rw [mergeFun_nil_right]
    exact ⟨ha, fun v => by simp⟩
  | a0 :: a', b0 :: b', ha, hb => by
    rcases lt_trichotomy (cmp a0 b0) 0 with hc | hc | hc
    · rw [mergeFun_lt hc]
      have ha' : SortedUniq cmp eq a' :=
        ⟨(List.pairwise_cons.1 ha.1).2, (List.pairwise_cons.1 ha.2).2⟩
      have hih := mergeFun_spec L Q a' (b0 :: b') ha' hb
      have hstrict : ∀ y ∈ b0 :: b', cmp a0 y < 0 := by
        intro y hy
        rcases List.mem_cons.1 hy with hye | hym
        · rw [hye]
          exact hc
        · exact cmp_lt_of_lt_of_le L hc ((List.pairwise_cons.1 hb.1).1 y hym)
      refine ⟨⟨?_, ?_⟩, ?_⟩
      · rw [List.pairwise_cons]
        refine ⟨?_, hih.1.1⟩
        intro x hx
        rcases mergeFun_subset cmp eq a' (b0 :: b') x hx with hx1 | hx1
        · exact (List.pairwise_cons.1 ha.1).1 x hx1
        · exact le_of_lt (hstrict x hx1)
      · rw [List.pairwise_cons]
        refine ⟨?_, hih.1.2⟩
        intro x hx
        rcases mergeFun_subset cmp eq a' (b0 :: b') x hx with hx1 | hx1
        · exact (List.pairwise_cons.1 ha.2).1 x hx1
        · exact eq_false_of_cmp_ne Q (by have := hstrict x hx1; omega)
      · intro v
        rw [List.mem_cons, hih.2 v]
        constructor
        · rintro (hv | hv | ⟨hv1, hv2⟩)
          · rw [hv]
            refine Or.inr ⟨List.mem_cons_self a0 a', ?_⟩
            intro y hy
            have h1 := hstrict y hy
            have h2 := L.flip_lt a0 y
            exact eq_false_of_cmp_ne Q (by omega)
          · exact Or.inl hv
          · exact Or.inr ⟨List.mem_cons_of_mem a0 hv1, hv2⟩
        · rintro (hv | ⟨hv1, hv2⟩)
          · exact Or.inr (Or.inl hv)
          · rcases List.mem_cons.1 hv1 with hv3 | hv3
            · exact Or.inl hv3
            · exact Or.inr (Or.inr ⟨hv3, hv2⟩)
    · rw [mergeFun_run hc]
      have hKa := runSplit_fst_key L a0 a'
      have hKb := runSplit_fst_key L b0 b'
      have hTa := runSplit_snd_lt L a0 a' ha.1
      have hTb := runSplit_snd_lt L b0 b' hb.1
      have hbr0 : ∀ y ∈ (runSplit cmp (b0 :: b')).1, cmp a0 y = 0 :=
        fun y hy => cmp_eq_trans L hc (hKb y hy)
      have hbt0 : ∀ y ∈ (runSplit cmp (b0 :: b')).2, cmp a0 y < 0 :=
        fun y hy => L.lt_of_eq_of_lt a0 b0 y hc (hTb y hy)
      have harpw : (runSplit cmp (a0 :: a')).1.Pairwise (fun a b => eq a b = false) :=
        ha.2.sublist (runSplit_fst_sublist cmp (a0 :: a'))
      have hbrpw : (runSplit cmp (b0 :: b')).1.Pairwise (fun a b => eq a b = false) :=
        hb.2.sublist (runSplit_fst_sublist cmp (b0 :: b'))
      have hat : SortedUniq cmp eq (runSplit cmp (a0 :: a')).2 :=
        ⟨ha.1.sublist (runSplit_snd_sublist cmp (a0 :: a')),
         ha.2.sublist (runSplit_snd_sublist cmp (a0 :: a'))⟩
      have hbt : SortedUniq cmp eq (runSplit cmp (b0 :: b')).2 :=
        ⟨hb.1.sublist (runSplit_snd_sublist cmp (b0 :: b')),
         hb.2.sublist (runSplit_snd_sublist cmp (b0 :: b'))⟩
      have hrec := reconcile_spec Q (runSplit cmp (a0 :: a')).1
        (runSplit cmp (b0 :: b')).1 harpw hbrpw
      have hih := mergeFun_spec L Q (runSplit cmp (a0 :: a')).2
        (runSplit cmp (b0 :: b')).2 hat hbt
      have hXkey : ∀ x ∈ (reconcile eq (runSplit cmp (a0 :: a')).1
          (runSplit cmp (b0 :: b')).1).1 ++
          (reconcile eq (runSplit cmp (a0 :: a')).1
          (runSplit cmp (b0 :: b')).1).2, cmp a0 x = 0 := by
        intro x hx
        rcases reconcile_subset eq _ _ x (List.mem_append.1 hx) with hx1 | hx1
        · exact hKa x hx1
        · exact hbr0 x hx1
      have hReclt : ∀ y ∈ mergeFun cmp eq (runSplit cmp (a0 :: a')).2
          (runSplit cmp (b0 :: b')).2, cmp a0 y < 0 := by
        intro y hy
        rcases mergeFun_subset cmp eq _ _ y hy with hy1 | hy1
        · exact hTa y hy1
        · exact hbt0 y hy1
      have hcrossXR : ∀ x ∈ (reconcile eq (runSplit cmp (a0 :: a')).1
          (runSplit cmp (b0 :: b')).1).1 ++
          (reconcile eq (runSplit cmp (a0 :: a')).1
          (runSplit cmp (b0 :: b')).1).2,
          ∀ y ∈ mergeFun cmp eq (runSplit cmp (a0 :: a')).2
          (runSplit cmp (b0 :: b')).2, cmp x y < 0 := by
        intro x hx y hy
        exact L.lt_of_eq_of_lt x a0 y ((cmp_zero_comm L).1 (hXkey x hx)) (hReclt y hy)
      have hcrossBT : ∀ x ∈ (runSplit cmp (a0 :: a')).1,
          ∀ y ∈ (runSplit cmp (b0 :: b')).2, eq y x = false := by
        intro x hx y hy
        cases hyx : eq y x with
        | false => rfl
        | true =>
          have h7 := L.lt_of_lt_of_eq a0 y x (hbt0 y hy) (Q.compat y x hyx)
          have h8 := hKa x hx
          omega
      have hcrossBR : ∀ x ∈ (runSplit cmp (a0 :: a')).2,
          ∀ y ∈ (runSplit cmp (b0 :: b')).1, eq y x = false := by
        intro x hx y hy
        cases hyx : eq y x with
        | false => rfl
        | true =>
          have h7 := cmp_eq_trans L (hbr0 y hy) (Q.compat y x hyx)
          have h8 := hTa x hx
          omega
      refine ⟨⟨?_, ?_⟩, ?_⟩
      · rw [List.pairwise_append]
        refine ⟨?_, hih.1.1, ?_⟩
        · refine List.pairwise_of_forall_mem_list ?_
          intro x hx y hy
          exact le_of_eq (cmp_eq_trans L ((cmp_zero_comm L).1 (hXkey x hx))
            (hXkey y hy))
        · intro x hx y hy
          exact le_of_lt (hcrossXR x hx y hy)
      · rw [List.pairwise_append]
        refine ⟨hrec.1, hih.1.2, ?_⟩
        intro x hx y hy
        exact eq_false_of_cmp_ne Q (by have := hcrossXR x hx y hy; omega)
      · intro v
        have hamem : (v ∈ a0 :: a') ↔
            v ∈ (runSplit cmp (a0 :: a')).1 ∨ v ∈ (runSplit cmp (a0 :: a')).2 := by
          conv_lhs => rw [← runSplit_append cmp (a0 :: a')]
          exact List.mem_append
        have hbmem : (v ∈ b0 :: b') ↔
            v ∈ (runSplit cmp (b0 :: b')).1 ∨ v ∈ (runSplit cmp (b0 :: b')).2 := by
          conv_lhs => rw [← runSplit_append cmp (b0 :: b')]
          exact List.mem_append
        have hbforall : (∀ y ∈ b0 :: b', eq y v = false) ↔
            ((∀ y ∈ (runSplit cmp (b0 :: b')).1, eq y v = false) ∧
             (∀ y ∈ (runSplit cmp (b0 :: b')).2, eq y v = false)) := by
          constructor
          · intro h
            exact ⟨fun y hy => h y ((runSplit_fst_sublist cmp _).subset hy),
                   fun y hy => h y ((runSplit_snd_sublist cmp _).subset hy)⟩
          · intro h y hy
            have hy2 : y ∈ (runSplit cmp (b0 :: b')).1 ++
                (runSplit cmp (b0 :: b')).2 := by
              rw [runSplit_append]
              exact hy
            rcases List.mem_append.1 hy2 with h1 | h1
            · exact h.1 y h1
            · exact h.2 y h1
        rw [List.mem_append, hrec.2 v, hih.2 v, hamem, hbmem, hbforall]
        constructor
        · rintro ((hv | ⟨hv1, hv2⟩) | (hv | ⟨hv1, hv2⟩))
          · exact Or.inl (Or.inl hv)
          · exact Or.inr ⟨Or.inl hv1, hv2, fun y hy => hcrossBT v hv1 y hy⟩
          · exact Or.inl (Or.inr hv)
          · exact Or.inr ⟨Or.inr hv1, fun y hy => hcrossBR v hv1 y hy, hv2⟩
        · rintro ((hv | hv) | ⟨(hv1 | hv1), hv2, hv3⟩)
          · exact Or.inl (Or.inl hv)
          · exact Or.inr (Or.inl hv)
          · exact Or.inl (Or.inr ⟨hv1, hv2⟩)
          · exact Or.inr (Or.inr ⟨hv1, hv3⟩)
    · rw [mergeFun_gt hc]
      have hb' : SortedUniq cmp eq b' :=
        ⟨(List.pairwise_cons.1 hb.1).2, (List.pairwise_cons.1 hb.2).2⟩
      have hih := mergeFun_spec L Q (a0 :: a') b' ha hb'
      have hb0a : cmp b0 a0 < 0 := (cmp_pos_iff L).1 hc
      have hstrict : ∀ y ∈ a0 :: a', cmp b0 y < 0 := by
        intro y hy
        rcases List.mem_cons.1 hy with hye | hym
        · rw [hye]
          exact hb0a
        · exact cmp_lt_of_lt_of_le L hb0a ((List.pairwise_cons.1 ha.1).1 y hym)
      refine ⟨⟨?_, ?_⟩, ?_⟩
      · rw [List.pairwise_cons]
        refine ⟨?_, hih.1.1⟩
        intro x hx
        rcases mergeFun_subset cmp eq (a0 :: a') b' x hx with hx1 | hx1
        · exact le_of_lt (hstrict x hx1)
        · exact (List.pairwise_cons.1 hb.1).1 x hx1
      · rw [List.pairwise_cons]
        refine ⟨?_, hih.1.2⟩
        intro x hx
        rcases mergeFun_subset cmp eq (a0 :: a') b' x hx with hx1 | hx1
        · exact eq_false_of_cmp_ne Q (by have := hstrict x hx1; omega)
        · exact (List.pairwise_cons.1 hb.2).1 x hx1
      · intro v
        rw [List.mem_cons, hih.2 v]
        constructor
        · rintro (hv | hv | ⟨hv1, hv2⟩)
          · rw [hv]
            exact Or.inl (List.mem_cons_self b0 b')
          · exact Or.inl (List.mem_cons_of_mem b0 hv)
          · refine Or.inr ⟨hv1, ?_⟩
            intro y hy
            rcases List.mem_cons.1 hy with hye | hym
            · rw [hye]
              exact eq_false_of_cmp_ne Q (by have := hstrict v hv1; omega)
            · exact hv2 y hym
        · rintro (hv | ⟨hv1, hv2⟩)
          · rcases List.mem_cons.1 hv with hv3 | hv3
            · exact Or.inl hv3
            · exact Or.inr (Or.inl hv3)
          · exact Or.inr (Or.inr ⟨hv1,
              fun y hy => hv2 y (List.mem_cons_of_mem b0 hy)⟩)
  termination_by a b => a.length + b.length
  decreasing_by
  all_goals
    first
    | (simp only [List.length_cons]; omega)
    | (simp only [runSplit, List.length_cons]
       exact Nat.lt_of_le_of_lt
         (Nat.add_le_add (List.Sublist.length_le (List.dropWhile_sublist _))
           (List.Sublist.length_le (List.dropWhile_sublist _)))
         (by omega))

/-!
## Semantics of the batched delete
-/

theorem deleteFun_nil_left (cmp : E → E → Int) (eq : E → E → Bool) (b : List E) :
    deleteFun cmp eq [] b = [] := by
  rw [deleteFun]

theorem deleteFun_nil_right (cmp : E → E → Int) (eq : E → E → Bool) (a0 : E)
    (a' : List E) : deleteFun cmp eq (a0 :: a') [] = a0 :: a' := by
  rw [deleteFun]

theorem deleteFun_lt {cmp : E → E → Int} {eq : E → E → Bool} {a0 b0 : E}
    {a' b' : List E} (hc : cmp a0 b0 < 0) :
    deleteFun cmp eq (a0 :: a') (b0 :: b') =
      a0 :: deleteFun cmp eq a' (b0 :: b') := by
  rw [deleteFun]
  simp [hc]

theorem deleteFun_gt {cmp : E → E → Int} {eq : E → E → Bool} {a0 b0 : E}
    {a' b' : List E} (hc : 0 < cmp a0 b0) :
    deleteFun cmp eq (a0 :: a') (b0 :: b') =
      deleteFun cmp eq (a0 :: a') b' := by
  rw [deleteFun]
  have h1 : ¬ cmp a0 b0 < 0 := by omega
  simp [h1, hc]

theorem deleteFun_run {cmp : E → E → Int} {eq : E → E → Bool} {a0 b0 : E}
    {a' b' : List E} (hc : cmp a0 b0 = 0) :
    deleteFun cmp eq (a0 :: a') (b0 :: b') =
      (runSplit cmp (a0 :: a')).1.filter
        (fun ae => !(runSplit cmp (b0 :: b')).1.any (fun be => eq ae be)) ++
      deleteFun cmp eq (runSplit cmp (a0 :: a')).2 (runSplit cmp (b0 :: b')).2 := by
  rw [deleteFun]
  simp [hc]

theorem deleteFun_spec {cmp : E → E → Int} {eq : E → E → Bool}
    (L : LawfulCmp cmp) (Q : LawfulEq cmp eq) :
    ∀ (a b : List E), a.Pairwise (fun x y => cmp x y ≤ 0) →
      b.Pairwise (fun x y => cmp x y ≤ 0) →
      deleteFun cmp eq a b =
        a.filter (fun x => !(b.any (fun y => eq x y)))
  | [], b, _, _ => by
    rw [deleteFun_nil_left]
    simp
  | a0 :: a', [], _, _ => by
    rw [deleteFun_nil_right]
    simp
  | a0 :: a', b0 :: b', ha, hb => by
    rcases lt_trichotomy (cmp a0 b0) 0 with hc | hc | hc
    · have ha' : a'.Pairwise (fun x y => cmp x y ≤ 0) :=
        (List.pairwise_cons.1 ha).2
      rw [deleteFun_lt hc, deleteFun_spec L Q a' (b0 :: b') ha' hb]
      have hstrict : ∀ y ∈ b0 :: b', cmp a0 y < 0 := by
        intro y hy
        rcases List.mem_cons.1 hy with hye | hym
        · rw [hye]
          exact hc
        · exact cmp_lt_of_lt_of_le L hc ((List.pairwise_cons.1 hb).1 y hym)
      have hnomatch : (b0 :: b').any (fun y => eq a0 y) = false := by
        rw [List.any_eq_false]
        intro y hy
        have h1 := hstrict y hy
        simp [eq_false_of_cmp_ne Q (show cmp a0 y ≠ 0 by omega)]
      rw [List.filter_cons]
      simp [hnomatch]
    · have hKa := runSplit_fst_key L a0 a'
      have hKb := runSplit_fst_key L b0 b'
      have hTa := runSplit_snd_lt L a0 a' ha
      have hTb := runSplit_snd_lt L b0 b' hb
      have hbr0 : ∀ y ∈ (runSplit cmp (b0 :: b')).1, cmp a0 y = 0 :=
        fun y hy => cmp_eq_trans L hc (hKb y hy)
      have hbt0 : ∀ y ∈ (runSplit cmp (b0 :: b')).2, cmp a0 y < 0 :=
        fun y hy => L.lt_of_eq_of_lt a0 b0 y hc (hTb y hy)
      have hat1 : (runSplit cmp (a0 :: a')).2.Pairwise (fun x y => cmp x y ≤ 0) :=
        ha.sublist (runSplit_snd_sublist cmp (a0 :: a'))
      have hbt1 : (runSplit cmp (b0 :: b')).2.Pairwise (fun x y => cmp x y ≤ 0) :=
        hb.sublist (runSplit_snd_sublist cmp (b0 :: b'))
      rw [deleteFun_run hc, deleteFun_spec L Q (runSplit cmp (a0 :: a')).2
        (runSplit cmp (b0 :: b')).2 hat1 hbt1]
      conv_rhs => rw [← runSplit_append cmp (a0 :: a')]
      rw [List.filter_append]
      congr 1
      · apply List.filter_congr
        intro x hx
        have hsplit : (b0 :: b').any (fun y => eq x y) =
            (runSplit cmp (b0 :: b')).1.any (fun y => eq x y) := by
          conv_lhs => rw [← runSplit_append cmp (b0 :: b')]
          rw [List.any_append]
          have hbtfalse : (runSplit cmp (b0 :: b')).2.any (fun y => eq x y) =
              false := by
            rw [List.any_eq_false]
            intro y hy
            have h1 : cmp x y < 0 :=
              L.lt_of_eq_of_lt x a0 y ((cmp_zero_comm L).1 (hKa x hx))
                (hbt0 y hy)
            simp [eq_false_of_cmp_ne Q (show cmp x y ≠ 0 by omega)]
          rw [hbtfalse, Bool.or_false]
        rw [hsplit]
      · apply List.filter_congr
        intro x hx
        have hsplit : (b0 :: b').any (fun y => eq x y) =
            (runSplit cmp (b0 :: b')).2.any (fun y => eq x y) := by
          conv_lhs => rw [← runSplit_append cmp (b0 :: b')]
          rw [List.any_append]
          have hbrfalse : (runSplit cmp (b0 :: b')).1.any (fun y => eq x y) =
              false := by
            rw [List.any_eq_false]
            intro y hy
            cases hxy : eq x y with
            | false => simp
            | true =>
              have h1 := L.lt_of_lt_of_eq a0 x y (hTa x hx) (Q.compat x y hxy)
              have h2 := hbr0 y hy
              omega
          rw [hbrfalse, Bool.false_or]
        rw [hsplit]
    · have hb' : b'.Pairwise (fun x y => cmp x y ≤ 0) :=
        (List.pairwise_cons.1 hb).2
      rw [deleteFun_gt hc, deleteFun_spec L Q (a0 :: a') b' ha hb']
      apply List.filter_congr
      intro x hx
      have hb0x : cmp b0 x < 0 := by
        rcases List.mem_cons.1 hx with hxe | hxm
        · rw [hxe]
          exact (cmp_pos_iff L).1 hc
        · exact cmp_lt_of_lt_of_le L ((cmp_pos_iff L).1 hc)
            ((List.pairwise_cons.1 ha).1 x hxm)
      have hxb0 : eq x b0 = false := by
        cases hxy : eq x b0 with
        | false => rfl
        | true =>
          have h1 := Q.compat x b0 hxy
          have h2 := L.flip_lt b0 x
          omega
      rw [List.any_cons, hxb0, Bool.false_or]
  termination_by a b => a.length + b.length
  decreasing_by
  all_goals
    first
    | (simp only [List.length_cons]; omega)
    | (simp only [runSplit, List.length_cons]
       exact Nat.lt_of_le_of_lt
         (Nat.add_le_add (List.Sublist.length_le (List.dropWhile_sublist _))
           (List.Sublist.length_le (List.dropWhile_sublist _)))
         (by omega))

/-!
## Semantics of the in-run deduplication
-/

/-- Modelled from the spec: within a run, keep one element per distinct
identity, in first-seen relative order, each holding the value of its
identity's last occurrence. -/
def specDedupRun (eq : E → E → Bool) : List E → List E
  | [] => []
  | x :: t =>
    (t.filter (fun y => eq x y)).getLastD x ::
      specDedupRun eq (t.filter (fun y => !(eq x y)))
  termination_by l => l.length
  decreasing_by
  · simp only [List.length_cons]
    exact Nat.lt_succ_of_le (List.length_filter_le _ _)

theorem overwriteFirst_pairwise {cmp : E → E → Int} {eq : E → E → Bool}
    (Q : LawfulEq cmp eq) {x : E} {l l' : List E}
    (hpw : l.Pairwise (fun a b => eq a b = false))
    (hof : overwriteFirst eq x l = some l') :
    l'.Pairwise (fun a b => eq a b = false) := by
  rcases overwriteFirst_some eq x l l' hof with ⟨l1, y, l2, hl, hl', hxy, hno⟩
  rw [hl] at hpw
  have h1 := (List.pairwise_append.1 hpw).1
  have h2 := (List.pairwise_append.1 hpw).2.1
  have h3 := (List.pairwise_append.1 hpw).2.2
  have h4 := (List.pairwise_cons.1 h2).2
  have h5 := (List.pairwise_cons.1 h2).1
  rw [hl', List.pairwise_append, List.pairwise_cons]
  refine ⟨h1, ⟨?_, h4⟩, ?_⟩
  · intro z hz
    cases hxz : eq x z with
    | false => rfl
    | true =>
      have h6 := Q.trans y x z (Q.symm x y hxy) hxz
      rw [h5 z hz] at h6
      exact absurd h6 (by simp)
  · intro a ha b hb
    rcases List.mem_cons.1 hb with hbe | hbm
    · cases hab : eq a b with
      | false => rfl
      | true =>
        have h6 := Q.symm a b hab
        rw [hbe] at h6
        rw [hno a ha] at h6
        exact absurd h6 (by simp)
    · exact h3 a ha b (List.mem_cons_of_mem y hbm)

theorem uniqFold_spec {cmp : E → E → Int} {eq : E → E → Bool}
    (Q : LawfulEq cmp eq) :
    ∀ (rest kept : List E), kept.Pairwise (fun a b => eq a b = false) →
      rest.foldl (fun kept x =>
          match overwriteFirst eq x kept with
          | some kept2 => kept2
          | none => kept ++ [x]) kept =
        kept.map (fun k => (rest.filter (fun y => eq k y)).getLastD k) ++
        specDedupRun eq (rest.filter (fun y => kept.all (fun k => !(eq k y))))
  | [], kept, _ => by
    simp [specDedupRun]
  | y :: rest', kept, hpw => by
    rw [List.foldl_cons]
    cases hof : overwriteFirst eq y kept with
    | some kept2 =>
      rcases overwriteFirst_some eq y kept kept2 hof with ⟨l1, r, l2, hl, hl', hyr, hno⟩
      have hpw2 := overwriteFirst_pairwise Q hpw hof
      have hclass : ∀ z, eq r z = eq y z := by
        intro z
        cases hrz : eq r z with
        | true => exact (Q.trans y r z hyr hrz).symm
        | false =>
          cases hyz : eq y z with
          | false => rfl
          | true =>
            have h6 := Q.trans r y z (Q.symm y r hyr) hyz
            exact absurd h6 (by simp [hrz])
      have hkyl1 : ∀ k ∈ l1, eq k y = false := by
        intro k hk
        cases h : eq k y with
        | false => rfl
        | true =>
          have h6 := Q.symm k y h
          rw [hno k hk] at h6
          exact absurd h6 (by simp)
      have hkyl2 : ∀ k ∈ l2, eq k y = false := by
        intro k hk
        cases h : eq k y with
        | false => rfl
        | true =>
          have h6 := Q.trans k y r h hyr
          have h7 : eq r k = false := by
            rw [hl] at hpw
            have h8 := (List.pairwise_append.1 hpw).2.1
            exact (List.pairwise_cons.1 h8).1 k hk
          have h9 := Q.symm k r h6
          rw [h7] at h9
          exact absurd h9 (by simp)
      have hmapeq : kept.map (fun k =>
            (((y :: rest').filter (fun y2 => eq k y2))).getLastD k) =
          kept2.map (fun k => ((rest'.filter (fun y2 => eq k y2))).getLastD k) := by
        rw [hl, hl', List.map_append, List.map_append, List.map_cons, List.map_cons]
        congr 1
        · apply List.map_congr_left
          intro k hk
          simp [List.filter_cons, hkyl1 k hk]
        · congr 1
          · have hry : eq r y = true := Q.symm y r hyr
            rw [List.filter_cons, if_pos hry, List.getLastD_cons]
            rw [List.filter_congr (fun z _ => hclass z)]
          · apply List.map_congr_left
            intro k hk
            simp [List.filter_cons, hkyl2 k hk]
      have hrestfilter : (y :: rest').filter
            (fun y2 => kept.all (fun k => !(eq k y2))) =
          rest'.filter (fun y2 => kept2.all (fun k => !(eq k y2))) := by
        have hyfalse : kept.all (fun k => !(eq k y)) = false := by
          cases hall : kept.all (fun k => !(eq k y)) with
          | false => rfl
          | true =>
            have h6 := (List.all_eq_true.1 hall) r
              (by rw [hl]; exact List.mem_append_right _ (List.mem_cons_self r l2))
            simp [Q.symm y r hyr] at h6
        rw [List.filter_cons, if_neg (by simp [hyfalse])]
        apply List.filter_congr
        intro z hz
        rw [hl, hl', List.all_append, List.all_append, List.all_cons, List.all_cons]
        rw [hclass z]
      rw [uniqFold_spec Q rest' kept2 hpw2, ← hmapeq, ← hrestfilter]
    | none =>
      have hno := (overwriteFirst_none eq y kept).1 hof
      have hky : ∀ k ∈ kept, eq k y = false := by
        intro k hk
        cases h : eq k y with
        | false => rfl
        | true =>
          have h6 := Q.symm k y h
          rw [hno k hk] at h6
          exact absurd h6 (by simp)
      have hpw2 : (kept ++ [y]).Pairwise (fun a b => eq a b = false) := by
        rw [List.pairwise_append]
        refine ⟨hpw, by simp, ?_⟩
        intro a ha b hb
        rw [List.mem_singleton.1 hb]
        exact hky a ha
      rw [uniqFold_spec Q rest' (kept ++ [y]) hpw2]
      have hmapeq : kept.map (fun k =>
            (((y :: rest').filter (fun y2 => eq k y2))).getLastD k) =
          kept.map (fun k => ((rest'.filter (fun y2 => eq k y2))).getLastD k) := by
        apply List.map_congr_left
        intro k hk
        simp [List.filter_cons, hky k hk]
      have hyallno : kept.all (fun k => !(eq k y)) = true := by
        rw [List.all_eq_true]
        intro k hk
        simp [hky k hk]
      have hfiltery : (y :: rest').filter
            (fun y2 => kept.all (fun k => !(eq k y2))) =
          y :: rest'.filter (fun y2 => kept.all (fun k => !(eq k y2))) := by
        rw [List.filter_cons, if_pos hyallno]
      rw [hfiltery, hmapeq, specDedupRun]
      have hZ1 : (rest'.filter
            (fun y2 => kept.all (fun k => !(eq k y2)))).filter
            (fun y2 => eq y y2) =
          rest'.filter (fun y2 => eq y y2) := by
        rw [List.filter_filter]
        apply List.filter_congr
        intro z hz
        cases hyz : eq y z with
        | false => rfl
        | true =>
          simp only [Bool.true_and]
          rw [List.all_eq_true]
          intro k hk
          cases hkz : eq k z with
          | false => simp
          | true =>
            have h6 := Q.trans k z y hkz (Q.symm y z hyz)
            rw [hky k hk] at h6
            exact absurd h6 (by simp)
      have hZ2 : (rest'.filter
            (fun y2 => kept.all (fun k => !(eq k y2)))).filter
            (fun y2 => !(eq y y2)) =
          rest'.filter (fun y2 => (kept ++ [y]).all (fun k => !(eq k y2))) := by
        rw [List.filter_filter]
        apply List.filter_congr
        intro z hz
        rw [List.all_append, List.all_cons, List.all_nil]
        cases hyz : eq y z <;> cases hall : kept.all (fun k => !(eq k z)) <;> simp
      rw [hZ1, hZ2, List.map_append]
      simp

/-- `uniqEqSlow` computes exactly the spec-side per-run deduplication:
last occurrence's value per identity, first-seen order of identities. -/
theorem uniqEqSlow_eq_specDedupRun {cmp : E → E → Int} {eq : E → E → Bool}
    (Q : LawfulEq cmp eq) (l : List E) :
    uniqEqSlow eq l = specDedupRun eq l := by
  unfold uniqEqSlow
  cases l with
  | nil => simp [specDedupRun]
  | cons x t =>
    cases t with
    | nil => simp [specDedupRun]
    | cons x2 t2 =>
      have h2 : ¬ (x :: x2 :: t2).length < 2 := by simp
      rw [if_neg h2]
      have ht : (x :: x2 :: t2).take 1 = [x] := rfl
      have hd : (x :: x2 :: t2).drop 1 = x2 :: t2 := rfl
      rw [ht, hd]
      rw [uniqFold_spec Q (x2 :: t2) [x] (by simp)]
      rw [specDedupRun]
      simp only [List.map_cons, List.map_nil, List.singleton_append,
        List.all_cons, List.all_nil, Bool.and_true]

theorem specDedupRun_subset (eq : E → E → Bool) :
    ∀ (l : List E), ∀ v ∈ specDedupRun eq l, v ∈ l
  | [] => by
    rw [specDedupRun]
    simp
  | x :: t => by
    rw [specDedupRun]
    intro v hv
    rcases List.mem_cons.1 hv with hve | hvm
    · rw [hve]
      have h1 := List.getLastD_mem_cons (t.filter (fun y => eq x y)) x
      rcases List.mem_cons.1 h1 with h2 | h2
      · rw [h2]
        exact List.mem_cons_self x t
      · exact List.mem_cons_of_mem x (List.mem_of_mem_filter h2)
    · have h1 := specDedupRun_subset eq (t.filter (fun y => !(eq x y))) v hvm
      exact List.mem_cons_of_mem x (List.mem_of_mem_filter h1)
  termination_by l => l.length
  decreasing_by
  · simp only [List.length_cons]
    exact Nat.lt_succ_of_le (List.length_filter_le _ _)

theorem specDedupRun_head_class {cmp : E → E → Int} {eq : E → E → Bool}
    (Q : LawfulEq cmp eq) (x : E) (t : List E) :
    eq x ((t.filter (fun y => eq x y)).getLastD x) = true := by
  have h1 := List.getLastD_mem_cons (t.filter (fun y => eq x y)) x
  rcases List.mem_cons.1 h1 with h2 | h2
  · rw [h2]
    exact Q.refl x
  · exact List.of_mem_filter h2

theorem specDedupRun_pairwise {cmp : E → E → Int} {eq : E → E → Bool}
    (Q : LawfulEq cmp eq) :
    ∀ (l : List E), (specDedupRun eq l).Pairwise (fun a b => eq a b = false)
  | [] => by
    rw [specDedupRun]
    exact List.Pairwise.nil
  | x :: t => by
    rw [specDedupRun]
    rw [List.pairwise_cons]
    refine ⟨?_, specDedupRun_pairwise Q (t.filter (fun y => !(eq x y)))⟩
    intro w hw
    have hwmem := specDedupRun_subset eq (t.filter (fun y => !(eq x y))) w hw
    have hxw : eq x w = false := by
      have := List.of_mem_filter hwmem
      cases h : eq x w with
      | false => rfl
      | true =>
        rw [h] at this
        exact absurd this (by simp)
    have hhx := specDedupRun_head_class Q x t
    cases h : eq ((t.filter (fun y => eq x y)).getLastD x) w with
    | false => rfl
    | true =>
      have h6 := Q.trans x ((t.filter (fun y => eq x y)).getLastD x) w hhx h
      rw [hxw] at h6
      exact absurd h6 (by simp)
  termination_by l => l.length
  decreasing_by
  · simp only [List.length_cons]
    exact Nat.lt_succ_of_le (List.length_filter_le _ _)

theorem specDedupRun_classes {cmp : E → E → Int} {eq : E → E → Bool}
    (Q : LawfulEq cmp eq) :
    ∀ (l : List E) (e : E),
      (∃ w ∈ specDedupRun eq l, eq w e = true) ↔ (∃ w ∈ l, eq w e = true)
  | [], e => by
    rw [specDedupRun]
  | x :: t, e => by
    rw [specDedupRun]
    constructor
    · rintro ⟨w, hw, hwe⟩
      rcases List.mem_cons.1 hw with hwe2 | hwm
      · have hhx := specDedupRun_head_class Q x t
        rw [← hwe2] at hhx
        exact ⟨x, List.mem_cons_self x t, Q.trans x w e hhx hwe⟩
      · rcases (specDedupRun_classes Q (t.filter (fun y => !(eq x y))) e).1
          ⟨w, hwm, hwe⟩ with ⟨w2, hw2, hw2e⟩
        exact ⟨w2, List.mem_cons_of_mem x (List.mem_of_mem_filter hw2), hw2e⟩
    · rintro ⟨w, hw, hwe⟩
      rcases List.mem_cons.1 hw with hwe2 | hwm
      · refine ⟨(t.filter (fun y => eq x y)).getLastD x, List.mem_cons_self _ _, ?_⟩
        have hhx := specDedupRun_head_class Q x t
        have hxe : eq x e = true := by
          rw [← hwe2]
          exact hwe
        exact Q.trans _ x e (Q.symm x _ hhx) hxe
      · cases hxw : eq x w with
        | true =>
          refine ⟨(t.filter (fun y => eq x y)).getLastD x, List.mem_cons_self _ _, ?_⟩
          have hhx := specDedupRun_head_class Q x t
          exact Q.trans _ w e (Q.trans _ x w (Q.symm x _ hhx) hxw) hwe
        | false =>
          rcases (specDedupRun_classes Q (t.filter (fun y => !(eq x y))) e).2
            ⟨w, List.mem_filter.2 ⟨hwm, by simp [hxw]⟩, hwe⟩ with ⟨w2, hw2, hw2e⟩
          exact ⟨w2, List.mem_cons_of_mem _ hw2, hw2e⟩
  termination_by l => l.length
  decreasing_by
  all_goals
  · simp only [List.length_cons]
    exact Nat.lt_succ_of_le (List.length_filter_le _ _)

/-!
## Run lemmas for the dedup pass and the sorted-uniq invariant
-/

theorem uniqRunSplit_fst_key {cmp : E → E → Int} (L : LawfulCmp cmp) (v0 : E)
    (rest : List E) :
    ∀ x ∈ (uniqRunSplit cmp (v0 :: rest)).1, cmp v0 x = 0 := by
  intro x hx
  simp only [uniqRunSplit] at hx
  rcases List.mem_cons.1 hx with hxe | hxm
  · rw [hxe]
    exact cmp_self L v0
  · have h := List.mem_takeWhile_imp hxm
    have h2 : cmp x v0 = 0 := by simpa using h
    exact (cmp_zero_comm L).1 h2

theorem uniqDropWhile_run_lt {cmp : E → E → Int} (L : LawfulCmp cmp) (v0 : E) :
    ∀ (rest : List E), (∀ y ∈ rest, cmp v0 y ≤ 0) →
      rest.Pairwise (fun a b => cmp a b ≤ 0) →
      ∀ y ∈ rest.dropWhile (fun v => cmp v v0 == 0), cmp v0 y < 0
  | [], _, _ => by simp
  | r :: t, hle, hpw => by
    intro y hy
    by_cases hr : cmp r v0 = 0
    · rw [List.dropWhile_cons, if_pos (by simpa using hr)] at hy
      exact uniqDropWhile_run_lt L v0 t
        (fun z hz => hle z (List.mem_cons_of_mem r hz))
        (List.pairwise_cons.1 hpw).2 y hy
    · rw [List.dropWhile_cons, if_neg (by simpa using hr)] at hy
      have hv0r : cmp v0 r < 0 := by
        have h1 := hle r (List.mem_cons_self r t)
        have h2 : cmp v0 r ≠ 0 := fun h => hr ((cmp_zero_comm L).1 h)
        omega
      rcases List.mem_cons.1 hy with hye | hym
      · rw [hye]
        exact hv0r
      · exact cmp_lt_of_lt_of_le L hv0r ((List.pairwise_cons.1 hpw).1 y hym)

theorem uniqRunSplit_snd_lt {cmp : E → E → Int} (L : LawfulCmp cmp) (v0 : E)
    (rest : List E)
    (hpw : (v0 :: rest).Pairwise (fun a b => cmp a b ≤ 0)) :
    ∀ y ∈ (uniqRunSplit cmp (v0 :: rest)).2, cmp v0 y < 0 := by
  intro y hy
  simp only [uniqRunSplit] at hy
  exact uniqDropWhile_run_lt L v0 rest (List.pairwise_cons.1 hpw).1
    (List.pairwise_cons.1 hpw).2 y hy

theorem uniqRunSplit_fst_sublist (cmp : E → E → Int) (l : List E) :
    (uniqRunSplit cmp l).1.Sublist l := by
  cases l with
  | nil => simp [uniqRunSplit]
  | cons v0 rest =>
    simp only [uniqRunSplit]
    exact List.Sublist.cons₂ v0 (rest.takeWhile_sublist _)

theorem uniqRunSplit_snd_sublist (cmp : E → E → Int) (l : List E) :
    (uniqRunSplit cmp l).2.Sublist l := by
  cases l with
  | nil => simp [uniqRunSplit]
  | cons v0 rest =>
    simp only [uniqRunSplit]
    exact (rest.dropWhile_sublist _).trans (List.sublist_cons_self v0 rest)

theorem uniqCmpEq_spec {cmp : E → E → Int} {eq : E → E → Bool}
    (L : LawfulCmp cmp) (Q : LawfulEq cmp eq) :
    ∀ (l : List E), l.Pairwise (fun a b => cmp a b ≤ 0) →
      SortedUniq cmp eq (uniqCmpEq cmp eq l) ∧
      (∀ v ∈ uniqCmpEq cmp eq l, v ∈ l) ∧
      (∀ e, (∃ w ∈ uniqCmpEq cmp eq l, eq w e = true) ↔
        (∃ w ∈ l, eq w e = true))
  | [], _ => by
    rw [uniqCmpEq]
    refine ⟨⟨List.Pairwise.nil, List.Pairwise.nil⟩, by simp, by simp⟩
  | v0 :: rest, hpw => by
    rw [uniqCmpEq]
    have hkey := uniqRunSplit_fst_key L v0 rest
    have htail := uniqRunSplit_snd_lt L v0 rest hpw
    have htpw : (uniqRunSplit cmp (v0 :: rest)).2.Pairwise
        (fun a b => cmp a b ≤ 0) :=
      hpw.sublist (uniqRunSplit_snd_sublist cmp (v0 :: rest))
    have hih := uniqCmpEq_spec L Q (uniqRunSplit cmp (v0 :: rest)).2 htpw
    rw [uniqEqSlow_eq_specDedupRun Q]
    have hrunsub := specDedupRun_subset eq (uniqRunSplit cmp (v0 :: rest)).1
    have hrunkey : ∀ x ∈ specDedupRun eq (uniqRunSplit cmp (v0 :: rest)).1,
        cmp v0 x = 0 := fun x hx => hkey x (hrunsub x hx)
    have hreckey : ∀ y ∈ uniqCmpEq cmp eq (uniqRunSplit cmp (v0 :: rest)).2,
        cmp v0 y < 0 := fun y hy => htail y (hih.2.1 y hy)
    refine ⟨⟨?_, ?_⟩, ?_, ?_⟩
    · rw [List.pairwise_append]
      refine ⟨?_, hih.1.1, ?_⟩
      · refine List.pairwise_of_forall_mem_list ?_
        intro x hx y hy
        exact le_of_eq (cmp_eq_trans L ((cmp_zero_comm L).1 (hrunkey x hx))
          (hrunkey y hy))
      · intro x hx y hy
        exact le_of_lt (L.lt_of_eq_of_lt x v0 y
          ((cmp_zero_comm L).1 (hrunkey x hx)) (hreckey y hy))
    · rw [List.pairwise_append]
      refine ⟨specDedupRun_pairwise Q _, hih.1.2, ?_⟩
      intro x hx y hy
      have h1 := L.lt_of_eq_of_lt x v0 y
        ((cmp_zero_comm L).1 (hrunkey x hx)) (hreckey y hy)
      exact eq_false_of_cmp_ne Q (by omega)
    · intro v hv
      rcases List.mem_append.1 hv with hv1 | hv1
      · exact (uniqRunSplit_fst_sublist cmp (v0 :: rest)).subset
          (hrunsub v hv1)
      · exact (uniqRunSplit_snd_sublist cmp (v0 :: rest)).subset
          (hih.2.1 v hv1)
    · intro e
      constructor
      · rintro ⟨w, hw, hwe⟩
        rcases List.mem_append.1 hw with hw1 | hw1
        · exact ⟨w, (uniqRunSplit_fst_sublist cmp (v0 :: rest)).subset
            (hrunsub w hw1), hwe⟩
        · rcases (hih.2.2 e).1 ⟨w, hw1, hwe⟩ with ⟨w2, hw2, hw2e⟩
          exact ⟨w2, (uniqRunSplit_snd_sublist cmp (v0 :: rest)).subset hw2,
            hw2e⟩
      · rintro ⟨w, hw, hwe⟩
        have hw2 : w ∈ (uniqRunSplit cmp (v0 :: rest)).1 ++
            (uniqRunSplit cmp (v0 :: rest)).2 := by
          rw [uniqRunSplit_append]
          exact hw
        rcases List.mem_append.1 hw2 with hw3 | hw3
        · rcases (specDedupRun_classes Q (uniqRunSplit cmp (v0 :: rest)).1 e).2
            ⟨w, hw3, hwe⟩ with ⟨w2, hw4, hw4e⟩
          exact ⟨w2, List.mem_append_left _ hw4, hw4e⟩
        · rcases (hih.2.2 e).2 ⟨w, hw3, hwe⟩ with ⟨w2, hw4, hw4e⟩
          exact ⟨w2, List.mem_append_right _ hw4, hw4e⟩
  termination_by l => l.length
  decreasing_by
  · simp only [List.length_cons]
    have := uniqRunSplit_snd_length cmp v0 rest
    omega

/-!
## The modelled stable sort
-/

theorem orderedInsertCmp_perm (cmp : E → E → Int) (x : E) :
    ∀ (l : List E), (orderedInsertCmp cmp x l).Perm (x :: l)
  | [] => by
    rw [orderedInsertCmp]
  | y :: t => by
    rw [orderedInsertCmp]
    by_cases h : cmp x y ≤ 0
    · rw [if_pos h]
    · rw [if_neg h]
      have h1 := (orderedInsertCmp_perm cmp x t).cons y
      exact h1.trans (List.Perm.swap x y t)

theorem orderedInsertCmp_mem (cmp : E → E → Int) (x : E) (l : List E) (v : E) :
    v ∈ orderedInsertCmp cmp x l ↔ v = x ∨ v ∈ l := by
  rw [(orderedInsertCmp_perm cmp x l).mem_iff, List.mem_cons]

theorem orderedInsertCmp_sorted {cmp : E → E → Int} (L : LawfulCmp cmp) (x : E) :
    ∀ (l : List E), l.Pairwise (fun a b => cmp a b ≤ 0) →
      (orderedInsertCmp cmp x l).Pairwise (fun a b => cmp a b ≤ 0)
  | [], _ => by
    rw [orderedInsertCmp]
    simp
  | y :: t, hpw => by
    rw [orderedInsertCmp]
    by_cases h : cmp x y ≤ 0
    · rw [if_pos h]
      rw [List.pairwise_cons]
      refine ⟨?_, hpw⟩
      intro z hz
      rcases List.mem_cons.1 hz with hze | hzm
      · rw [hze]
        exact h
      · exact cmp_le_trans L h ((List.pairwise_cons.1 hpw).1 z hzm)
    · rw [if_neg h]
      rw [List.pairwise_cons]
      refine ⟨?_, orderedInsertCmp_sorted L x t (List.pairwise_cons.1 hpw).2⟩
      intro z hz
      rcases (orderedInsertCmp_mem cmp x t z).1 hz with hze | hzm
      · rw [hze]
        have h1 := L.flip_lt y x
        omega
      · exact (List.pairwise_cons.1 hpw).1 z hzm

theorem stableSortCmp_perm (cmp : E → E → Int) :
    ∀ (l : List E), (stableSortCmp cmp l).Perm l
  | [] => by
    rw [stableSortCmp]
  | x :: t => by
    rw [stableSortCmp]
    exact (orderedInsertCmp_perm cmp x (stableSortCmp cmp t)).trans
      ((stableSortCmp_perm cmp t).cons x)

theorem stableSortCmp_sorted {cmp : E → E → Int} (L : LawfulCmp cmp) :
    ∀ (l : List E), (stableSortCmp cmp l).Pairwise (fun a b => cmp a b ≤ 0)
  | [] => by
    rw [stableSortCmp]
    exact List.Pairwise.nil
  | x :: t => by
    rw [stableSortCmp]
    exact orderedInsertCmp_sorted L x (stableSortCmp cmp t)
      (stableSortCmp_sorted L t)

/-- The full sort-dedup pipeline produces a sorted-unique sequence whose
identity classes are exactly those of the input. -/
theorem stableSortUniqCmpEq_spec {cmp : E → E → Int} {eq : E → E → Bool}
    (L : LawfulCmp cmp) (Q : LawfulEq cmp eq) (l : List E) :
    SortedUniq cmp eq (stableSortUniqCmpEq cmp eq l) ∧
    (∀ v ∈ stableSortUniqCmpEq cmp eq l, v ∈ l) ∧
    (∀ e, (∃ w ∈ stableSortUniqCmpEq cmp eq l, eq w e = true) ↔
      (∃ w ∈ l, eq w e = true)) := by
  unfold stableSortUniqCmpEq
  have h1 := uniqCmpEq_spec L Q (stableSortCmp cmp l) (stableSortCmp_sorted L l)
  refine ⟨h1.1, ?_, ?_⟩
  · intro v hv
    exact (stableSortCmp_perm cmp l).mem_iff.1 (h1.2.1 v hv)
  · intro e
    rw [h1.2.2 e]
    constructor
    · rintro ⟨w, hw, hwe⟩
      exact ⟨w, (stableSortCmp_perm cmp l).mem_iff.1 hw, hwe⟩
    · rintro ⟨w, hw, hwe⟩
      exact ⟨w, (stableSortCmp_perm cmp l).mem_iff.2 hw, hwe⟩

/-!
## Semantics of the search
-/

theorem sortSearchLoop_step_true {pred : Nat → Bool} {i j : Nat} (h : i < j)
    (hm : pred ((i + j) / 2) = true) :
    sortSearchLoop pred i j = sortSearchLoop pred i ((i + j) / 2) := by
  rw [sortSearchLoop]
  simp [h, hm]

theorem sortSearchLoop_step_false {pred : Nat → Bool} {i j : Nat} (h : i < j)
    (hm : pred ((i + j) / 2) = false) :
    sortSearchLoop pred i j = sortSearchLoop pred ((i + j) / 2 + 1) j := by
  rw [sortSearchLoop]
  simp [h, hm]

theorem sortSearchLoop_stop {pred : Nat → Bool} {i j : Nat} (h : ¬ i < j) :
    sortSearchLoop pred i j = i := by
  rw [sortSearchLoop]
  simp [h]

theorem sortSearchLoop_spec (pred : Nat → Bool)
    (hmono : ∀ k1 k2, k1 ≤ k2 → pred k1 = true → pred k2 = true) :
    ∀ (i j : Nat), i ≤ j →
      i ≤ sortSearchLoop pred i j ∧ sortSearchLoop pred i j ≤ j ∧
      (∀ k, i ≤ k → k < sortSearchLoop pred i j → pred k = false) ∧
      (sortSearchLoop pred i j < j → pred (sortSearchLoop pred i j) = true)
  | i, j, hij => by
    by_cases h : i < j
    · cases hm : pred ((i + j) / 2) with
      | true =>
        rw [sortSearchLoop_step_true h hm]
        have hrec := sortSearchLoop_spec pred hmono i ((i + j) / 2)
          (by omega)
        refine ⟨hrec.1, by omega, hrec.2.2.1, ?_⟩
        intro _
        rcases Nat.lt_or_ge (sortSearchLoop pred i ((i + j) / 2)) ((i + j) / 2)
          with hlt | hge
        · exact hrec.2.2.2 hlt
        · have heq : sortSearchLoop pred i ((i + j) / 2) = (i + j) / 2 := by
            have := hrec.2.1
            omega
          rw [heq]
          exact hm
      | false =>
        rw [sortSearchLoop_step_false h hm]
        have hrec := sortSearchLoop_spec pred hmono ((i + j) / 2 + 1) j
          (by omega)
        refine ⟨by omega, hrec.2.1, ?_, hrec.2.2.2⟩
        intro k hk1 hk2
        rcases Nat.lt_or_ge k ((i + j) / 2 + 1) with hlt | hge
        · cases hp : pred k with
          | false => rfl
          | true =>
            have := hmono k ((i + j) / 2) (by omega) hp
            rw [hm] at this
            exact absurd this (by simp)
        · exact hrec.2.2.1 k hge hk2
    · rw [sortSearchLoop_stop h]
      exact ⟨le_refl i, hij, by omega, by omega⟩
  termination_by i j => j - i
  decreasing_by
  · omega
  · omega

theorem sortSearch_spec (n : Nat) (pred : Nat → Bool)
    (hmono : ∀ k1 k2, k1 ≤ k2 → pred k1 = true → pred k2 = true) :
    sortSearch n pred ≤ n ∧
    (∀ k, k < sortSearch n pred → pred k = false) ∧
    (sortSearch n pred < n → pred (sortSearch n pred) = true) := by
  have h := sortSearchLoop_spec pred hmono 0 n (Nat.zero_le n)
  exact ⟨h.2.1, fun k hk => h.2.2.1 k (Nat.zero_le k) hk, h.2.2.2⟩

theorem getD_drop (d : E) : ∀ (n : Nat) (l : List E) (m : Nat),
    (l.drop n).getD m d = l.getD (n + m) d
  | 0, l, m => by simp
  | n + 1, [], m => by simp
  | n + 1, x :: t, m => by
    rw [List.drop_succ_cons, getD_drop d n t m]
    have : n + 1 + m = (n + m) + 1 := by omega
    rw [this, List.getD_cons_succ]

theorem scanRun_spec (cmp : E → E → Int) (eq : E → E → Bool) (e : E) :
    ∀ (t : List E) (idx : Nat),
      idx ≤ (scanRun cmp eq e t idx).1 ∧
      (scanRun cmp eq e t idx).1 ≤ idx + t.length ∧
      (∀ m, m < (scanRun cmp eq e t idx).1 - idx →
        cmp e (t.getD m e) = 0 ∧ eq (t.getD m e) e = false) ∧
      ((scanRun cmp eq e t idx).2 = true →
        (scanRun cmp eq e t idx).1 - idx < t.length ∧
        eq (t.getD ((scanRun cmp eq e t idx).1 - idx) e) e = true ∧
        cmp e (t.getD ((scanRun cmp eq e t idx).1 - idx) e) = 0) ∧
      ((scanRun cmp eq e t idx).2 = false →
        (scanRun cmp eq e t idx).1 - idx = t.length ∨
        cmp e (t.getD ((scanRun cmp eq e t idx).1 - idx) e) ≠ 0)
  | [], idx => by
    rw [scanRun]
    refine ⟨le_refl idx, by simp, by omega, by simp, ?_⟩
    intro _
    simp
  | y :: t2, idx => by
    rw [scanRun]
    by_cases hc : cmp e y = 0
    · rw [if_pos (by simpa using hc)]
      by_cases he : eq y e = true
      · rw [if_pos he]
        refine ⟨le_refl idx, by simp, by omega, ?_, by simp⟩
        intro _
        simp only [Nat.sub_self, List.getD_cons_zero, List.length_cons]
        exact ⟨by omega, he, hc⟩
      · rw [if_neg he]
        have hrec := scanRun_spec cmp eq e t2 (idx + 1)
        have hge : idx + 1 ≤ (scanRun cmp eq e t2 (idx + 1)).1 := hrec.1
        refine ⟨by omega, by simp only [List.length_cons]; omega, ?_, ?_, ?_⟩
        · intro m hm
          cases m with
          | zero =>
            rw [List.getD_cons_zero]
            exact ⟨hc, Bool.eq_false_iff.2 he⟩
          | succ m2 =>
            rw [List.getD_cons_succ]
            exact hrec.2.2.1 m2 (by omega)
        · intro hfound
          rcases hrec.2.2.2.1 hfound with ⟨h1, h2, h3⟩
          have harith : (scanRun cmp eq e t2 (idx + 1)).1 - idx =
              ((scanRun cmp eq e t2 (idx + 1)).1 - (idx + 1)) + 1 := by omega
          rw [harith, List.getD_cons_succ]
          exact ⟨by simp only [List.length_cons]; omega, h2, h3⟩
        · intro hnf
          rcases hrec.2.2.2.2 hnf with h1 | h1
          · left
            simp only [List.length_cons]
            omega
          · right
            have harith : (scanRun cmp eq e t2 (idx + 1)).1 - idx =
                ((scanRun cmp eq e t2 (idx + 1)).1 - (idx + 1)) + 1 := by omega
            rw [harith, List.getD_cons_succ]
            exact h1
    · rw [if_neg (by simpa using hc)]
      refine ⟨le_refl idx, by simp, by omega, by simp, ?_⟩
      intro _
      right
      simpa using hc

theorem search_spec {cmp : E → E → Int} {eq : E → E → Bool}
    (L : LawfulCmp cmp) (Q : LawfulEq cmp eq) (l : List E) (e : E)
    (hs : l.Pairwise (fun a b => cmp a b ≤ 0)) :
    (search cmp eq l e).1 ≤ l.length ∧
    (∀ j, j < (search cmp eq l e).1 →
      cmp (l.getD j e) e ≤ 0 ∧ eq (l.getD j e) e = false) ∧
    ((search cmp eq l e).2 = true →
      (search cmp eq l e).1 < l.length ∧
      eq (l.getD (search cmp eq l e).1 e) e = true) ∧
    ((search cmp eq l e).2 = false →
      ∀ j, (search cmp eq l e).1 ≤ j → j < l.length →
        cmp e (l.getD j e) < 0) := by
  have hpairget : ∀ j1 j2, j1 ≤ j2 → j2 < l.length →
      cmp (l.getD j1 e) (l.getD j2 e) ≤ 0 := by
    intro j1 j2 h12 h2
    rcases Nat.lt_or_ge j1 j2 with hlt | hge
    · rw [List.getD_eq_getElem l e (by omega), List.getD_eq_getElem l e h2]
      rw [List.pairwise_iff_getElem] at hs
      exact hs j1 j2 (by omega) h2 hlt
    · have h3 : j1 = j2 := by omega
      rw [h3]
      exact le_of_eq (cmp_self L _)
  have hmono : ∀ k1 k2, k1 ≤ k2 →
      (fun h => decide (cmp e (l.getD h e) ≤ 0)) k1 = true →
      (fun h => decide (cmp e (l.getD h e) ≤ 0)) k2 = true := by
    intro k1 k2 h12 h1
    simp only [decide_eq_true_eq] at h1 ⊢
    rcases Nat.lt_or_ge k2 l.length with hlt | hge
    · exact cmp_le_trans L h1 (hpairget k1 k2 h12 hlt)
    · rw [List.getD_eq_default l e hge]
      exact le_of_eq (cmp_self L e)
  have hss := sortSearch_spec l.length
    (fun h => decide (cmp e (l.getD h e) ≤ 0)) hmono
  rw [show search cmp eq l e = scanRun cmp eq e
      (l.drop (sortSearch l.length (fun h => decide (cmp e (l.getD h e) ≤ 0))))
      (sortSearch l.length (fun h => decide (cmp e (l.getD h e) ≤ 0)))
    from rfl]
  set i0 := sortSearch l.length (fun h => decide (cmp e (l.getD h e) ≤ 0))
    with hi0
  have hscan := scanRun_spec cmp eq e (l.drop i0) i0
  have hdl : (l.drop i0).length = l.length - i0 := List.length_drop i0 l
  have hgd : ∀ m, (l.drop i0).getD m e = l.getD (i0 + m) e :=
    fun m => getD_drop e i0 l m
  have hi0le : i0 ≤ l.length := hss.1
  refine ⟨by omega, ?_, ?_, ?_⟩
  · intro j hj
    rcases Nat.lt_or_ge j i0 with hji | hji
    · have hp := hss.2.1 j hji
      simp only [decide_eq_true_eq] at hp
      have hp2 : ¬ cmp e (l.getD j e) ≤ 0 := by
        intro hle
        rw [decide_eq_true hle] at hp
        exact absurd hp (by simp)
      have h1 : cmp (l.getD j e) e < 0 := (cmp_pos_iff L).1 (by omega)
      exact ⟨le_of_lt h1, eq_false_of_cmp_ne Q (by omega)⟩
    · have hm := hscan.2.2.1 (j - i0) (by omega)
      rw [hgd (j - i0)] at hm
      have harith : i0 + (j - i0) = j := by omega
      rw [harith] at hm
      exact ⟨le_of_eq ((cmp_zero_comm L).1 hm.1), hm.2⟩
  · intro hfound
    rcases hscan.2.2.2.1 hfound with ⟨h1, h2, h3⟩
    have hge := hscan.1
    rw [hdl] at h1
    rw [hgd] at h2
    have harith : i0 + ((scanRun cmp eq e (l.drop i0) i0).1 - i0) =
        (scanRun cmp eq e (l.drop i0) i0).1 := by omega
    rw [harith] at h2
    exact ⟨by omega, h2⟩
  · intro hnf j hj1 hj2
    have hge := hscan.1
    rcases hscan.2.2.2.2 hnf with h1 | h1
    · rw [hdl] at h1
      exact absurd hj2 (by omega)
    · rw [hgd] at h1
      have harith : i0 + ((scanRun cmp eq e (l.drop i0) i0).1 - i0) =
          (scanRun cmp eq e (l.drop i0) i0).1 := by omega
      rw [harith] at h1
      have hr1len : (scanRun cmp eq e (l.drop i0) i0).1 < l.length := by omega
      have hle0 : cmp e (l.getD (scanRun cmp eq e (l.drop i0) i0).1 e) ≤ 0 := by
        rcases Nat.lt_or_ge i0 (scanRun cmp eq e (l.drop i0) i0).1 with hlt | hge2
        · have hm := hscan.2.2.1
            ((scanRun cmp eq e (l.drop i0) i0).1 - i0 - 1) (by omega)
          rw [hgd] at hm
          have harith2 : i0 + ((scanRun cmp eq e (l.drop i0) i0).1 - i0 - 1) =
              (scanRun cmp eq e (l.drop i0) i0).1 - 1 := by omega
          rw [harith2] at hm
          exact (cmp_eq_le_congr L hm.1).2 (hpairget _ _ (by omega) hr1len)
        · have hr1i0 : (scanRun cmp eq e (l.drop i0) i0).1 = i0 := by omega
          have hp := hss.2.2 (by omega)
          simp only [decide_eq_true_eq] at hp
          rw [hr1i0]
          exact hp
      have hlt0 : cmp e (l.getD (scanRun cmp eq e (l.drop i0) i0).1 e) < 0 := by
        omega
      rcases Nat.eq_or_lt_of_le hj1 with hje | hjlt
      · rw [← hje]
        exact hlt0
      · exact cmp_lt_of_lt_of_le L hlt0 (hpairget _ j (by omega) hj2)

theorem pairwise_getD {R : E → E → Prop} {l : List E} (h : l.Pairwise R) (d : E)
    {j1 j2 : Nat} (h12 : j1 < j2) (h2 : j2 < l.length) :
    R (l.getD j1 d) (l.getD j2 d) := by
  rw [List.getD_eq_getElem l d (by omega), List.getD_eq_getElem l d h2]
  exact (List.pairwise_iff_getElem.1 h) j1 j2 (by omega) h2 h12

theorem getD_take (d : E) : ∀ (n : Nat) (l : List E) (m : Nat), m < n →
    (l.take n).getD m d = l.getD m d
  | _ + 1, [], _, _ => by simp
  | _ + 1, _ :: _, 0, _ => by simp
  | n + 1, x :: t, m + 1, h => by
    rw [List.take_succ_cons, List.getD_cons_succ, List.getD_cons_succ,
      getD_take d n t m (by omega)]

theorem getD_mem_take (l : List E) {n j : Nat} (hjn : j < n)
    (hjl : j < l.length) (d : E) : l.getD j d ∈ l.take n := by
  rw [← getD_take d n l j hjn]
  rw [List.getD_eq_getElem (l.take n) d (by rw [List.length_take]; omega)]
  exact List.getElem_mem _

theorem getD_mem_drop (l : List E) {n j : Nat} (hj : n ≤ j)
    (hjl : j < l.length) (d : E) : l.getD j d ∈ l.drop n := by
  have h1 : l.getD j d = (l.drop n).getD (j - n) d := by
    rw [getD_drop d n l (j - n)]
    have h2 : n + (j - n) = j := by omega
    rw [h2]
  rw [h1]
  rw [List.getD_eq_getElem (l.drop n) d (by rw [List.length_drop]; omega)]
  exact List.getElem_mem _

theorem mem_take_pos (l : List E) (n : Nat) (v : E) (hv : v ∈ l.take n) (d : E) :
    ∃ j, j < n ∧ j < l.length ∧ l.getD j d = v := by
  rcases List.mem_iff_getElem.1 hv with ⟨j, hj, hjv⟩
  have hj2 := hj
  rw [List.length_take] at hj2
  refine ⟨j, by omega, by omega, ?_⟩
  rw [← getD_take d n l j (by omega), List.getD_eq_getElem (l.take n) d hj, hjv]

theorem mem_drop_pos (l : List E) (n : Nat) (v : E) (hv : v ∈ l.drop n) (d : E) :
    ∃ j, n ≤ j ∧ j < l.length ∧ l.getD j d = v := by
  rcases List.mem_iff_getElem.1 hv with ⟨m, hm, hmv⟩
  have hm2 := hm
  rw [List.length_drop] at hm2
  refine ⟨n + m, by omega, by omega, ?_⟩
  rw [← getD_drop d n l m, List.getD_eq_getElem (l.drop n) d hm, hmv]

theorem mem_getD_pos (l : List E) (v : E) (hv : v ∈ l) (d : E) :
    ∃ j, j < l.length ∧ l.getD j d = v := by
  rcases List.mem_iff_getElem.1 hv with ⟨j, hj, hjv⟩
  exact ⟨j, hj, by rw [List.getD_eq_getElem l d hj, hjv]⟩

/-- `Contains` is identity-class membership: under lawful functions on a
sorted sequence, the two-phase search finds a match exactly when some
stored element is identified with the query. -/
theorem contains_iff {cmp : E → E → Int} {eq : E → E → Bool}
    (L : LawfulCmp cmp) (Q : LawfulEq cmp eq) (l : List E) (e : E)
    (hs : l.Pairwise (fun a b => cmp a b ≤ 0)) :
    contains cmp eq l e = true ↔ ∃ w ∈ l, eq w e = true := by
  have hsp := search_spec L Q l e hs
  unfold contains
  cases hf : (search cmp eq l e).2 with
  | true =>
    rcases hsp.2.2.1 hf with ⟨h1, h2⟩
    refine ⟨fun _ => ⟨l.getD (search cmp eq l e).1 e, ?_, h2⟩, fun _ => rfl⟩
    rw [List.getD_eq_getElem l e h1]
    exact List.getElem_mem _
  | false =>
    refine ⟨fun h => absurd h (by simp), fun h => ?_⟩
    exfalso
    rcases h with ⟨w, hw, hwe⟩
    rcases mem_getD_pos l w hw e with ⟨j, hj, hjw⟩
    rcases Nat.lt_or_ge j (search cmp eq l e).1 with hji | hji
    · have := (hsp.2.1 j hji).2
      rw [hjw, hwe] at this
      exact absurd this (by simp)
    · have h1 := hsp.2.2.2 hf j hji hj
      have h2 := Q.compat w e hwe
      rw [hjw] at h1
      have h3 := (cmp_zero_comm L).1 h2
      omega

/-- `Insert` on a sorted-unique sequence: the result is sorted-unique,
holds `e` itself, drops exactly the elements identified with `e`, and
grows only when no identity match existed. -/
theorem insert1_spec {cmp : E → E → Int} {eq : E → E → Bool}
    (L : LawfulCmp cmp) (Q : LawfulEq cmp eq) (l : List E) (e : E)
    (hsu : SortedUniq cmp eq l) :
    SortedUniq cmp eq (insert1 cmp eq l e) ∧
    (∀ v, v ∈ insert1 cmp eq l e ↔ (v = e ∨ (v ∈ l ∧ eq v e = false))) ∧
    (insert1 cmp eq l e).length =
      (if contains cmp eq l e = true then l.length else l.length + 1) := by
  have hsp := search_spec L Q l e hsu.1
  have hins : insert1 cmp eq l e =
      (if (search cmp eq l e).2 = true then l.set (search cmp eq l e).1 e
       else l.insertIdx (search cmp eq l e).1 e) := rfl
  have hcon : contains cmp eq l e = (search cmp eq l e).2 := rfl
  cases hf : (search cmp eq l e).2 with
  | true =>
    rw [hins, hcon, hf, if_pos rfl, if_pos rfl]
    rcases hsp.2.2.1 hf with ⟨hilen, heqw⟩
    have hlen : (l.set (search cmp eq l e).1 e).length = l.length := by simp
    have hcmpw : cmp (l.getD (search cmp eq l e).1 e) e = 0 := by
      apply Q.compat
      exact heqw
    have hgdset : ∀ j, j < l.length →
        (l.set (search cmp eq l e).1 e).getD j e =
          (if (search cmp eq l e).1 = j then e else l.getD j e) := by
      intro j hj
      rw [List.getD_eq_getElem _ e (by rw [hlen]; exact hj),
        List.getElem_set]
      by_cases hij : (search cmp eq l e).1 = j
      · rw [if_pos hij, if_pos hij]
      · rw [if_neg hij, if_neg hij, List.getD_eq_getElem l e hj]
    refine ⟨⟨?_, ?_⟩, ?_, hlen⟩
    · rw [List.pairwise_iff_getElem]
      intro j1 j2 h1 h2 h12
      rw [hlen] at h1 h2
      rw [← List.getD_eq_getElem _ e (by rw [hlen]; exact h1),
        ← List.getD_eq_getElem _ e (by rw [hlen]; exact h2),
        hgdset j1 h1, hgdset j2 h2]
      by_cases he1 : (search cmp eq l e).1 = j1
      · rw [if_pos he1]
        have he2 : ¬ (search cmp eq l e).1 = j2 := by omega
        rw [if_neg he2]
        refine (cmp_eq_le_congr L ((cmp_zero_comm L).1 hcmpw)).2 ?_
        exact pairwise_getD hsu.1 e (by omega) h2
      · rw [if_neg he1]
        by_cases he2 : (search cmp eq l e).1 = j2
        · rw [if_pos he2]
          exact cmp_le_trans L (pairwise_getD hsu.1 e (by omega) hilen)
            (le_of_eq hcmpw)
        · rw [if_neg he2]
          exact pairwise_getD hsu.1 e h12 h2
    · rw [List.pairwise_iff_getElem]
      intro j1 j2 h1 h2 h12
      rw [hlen] at h1 h2
      rw [← List.getD_eq_getElem _ e (by rw [hlen]; exact h1),
        ← List.getD_eq_getElem _ e (by rw [hlen]; exact h2),
        hgdset j1 h1, hgdset j2 h2]
      by_cases he1 : (search cmp eq l e).1 = j1
      · rw [if_pos he1]
        have he2 : ¬ (search cmp eq l e).1 = j2 := by omega
        rw [if_neg he2]
        cases hev : eq e (l.getD j2 e) with
        | false => rfl
        | true =>
          have h3 := Q.trans _ e _ heqw hev
          rw [pairwise_getD hsu.2 e (by omega) h2] at h3
          exact absurd h3 (by simp)
      · rw [if_neg he1]
        by_cases he2 : (search cmp eq l e).1 = j2
        · rw [if_pos he2]
          cases hev : eq (l.getD j1 e) e with
          | false => rfl
          | true =>
            have h3 := Q.trans _ e _ hev (Q.symm _ e heqw)
            rw [pairwise_getD hsu.2 e (by omega) hilen] at h3
            exact absurd h3 (by simp)
        · rw [if_neg he2]
          exact pairwise_getD hsu.2 e h12 h2
    · intro v
      constructor
      · intro hv
        rcases mem_getD_pos _ v hv e with ⟨j, hj, hjv⟩
        rw [hlen] at hj
        rw [hgdset j hj] at hjv
        by_cases hej : (search cmp eq l e).1 = j
        · rw [if_pos hej] at hjv
          exact Or.inl hjv.symm
        · rw [if_neg hej] at hjv
          refine Or.inr ⟨?_, ?_⟩
          · rw [← hjv, List.getD_eq_getElem l e hj]
            exact List.getElem_mem _
          · cases hev : eq v e with
            | false => rfl
            | true =>
              rcases Nat.lt_or_ge j (search cmp eq l e).1 with hji | hji
              · have h3 := (hsp.2.1 j hji).2
                rw [hjv, hev] at h3
                exact absurd h3 (by simp)
              · have hji2 : (search cmp eq l e).1 < j := by omega
                have h3 := Q.trans _ e _ heqw (Q.symm v e (hjv ▸ hev))
                rw [← hjv] at h3
                rw [pairwise_getD hsu.2 e hji2 hj] at h3
                exact absurd h3 (by simp)
      · intro hv
        rcases hv with hve | ⟨hvl, hvne⟩
        · rw [hve]
          rw [List.mem_iff_getElem]
          refine ⟨(search cmp eq l e).1, by rw [hlen]; exact hilen, ?_⟩
          rw [List.getElem_set]
          rw [if_pos rfl]
        · rcases mem_getD_pos l v hvl e with ⟨j, hj, hjv⟩
          have hji : (search cmp eq l e).1 ≠ j := by
            intro h
            rw [← h] at hjv
            rw [hjv] at heqw
            rw [hvne] at heqw
            exact absurd heqw (by simp)
          have h1 : (l.set (search cmp eq l e).1 e).getD j e = v := by
            rw [hgdset j hj, if_neg hji]
            exact hjv
          rw [← h1]
          rw [List.getD_eq_getElem _ e (by rw [hlen]; exact hj)]
          exact List.getElem_mem _
  | false =>
    rw [hins, hcon, hf, if_neg (by simp), if_neg (by simp)]
    have hilen := hsp.1
    have hdec := insertIdx_eq_take_cons_drop (search cmp eq l e).1 l e hilen
    have hpreF : ∀ v ∈ l.take (search cmp eq l e).1,
        cmp v e ≤ 0 ∧ eq v e = false := by
      intro v hv
      rcases mem_take_pos l _ v hv e with ⟨j, hjn, hjl, hjv⟩
      have := hsp.2.1 j hjn
      rw [hjv] at this
      exact this
    have hsufF : ∀ v ∈ l.drop (search cmp eq l e).1, cmp e v < 0 := by
      intro v hv
      rcases mem_drop_pos l _ v hv e with ⟨j, hjn, hjl, hjv⟩
      have := hsp.2.2.2 hf j hjn hjl
      rw [hjv] at this
      exact this
    have hsplit1 : (l.take (search cmp eq l e).1 ++
        l.drop (search cmp eq l e).1).Pairwise (fun a b => cmp a b ≤ 0) := by
      rw [List.take_append_drop]
      exact hsu.1
    have hsplit2 : (l.take (search cmp eq l e).1 ++
        l.drop (search cmp eq l e).1).Pairwise (fun a b => eq a b = false) := by
      rw [List.take_append_drop]
      exact hsu.2
    refine ⟨⟨?_, ?_⟩, ?_, ?_⟩
    · rw [hdec, List.pairwise_append]
      refine ⟨(List.pairwise_append.1 hsplit1).1, ?_, ?_⟩
      · rw [List.pairwise_cons]
        refine ⟨fun y hy => le_of_lt (hsufF y hy),
          (List.pairwise_append.1 hsplit1).2.1⟩
      · intro x hx z hz
        rcases List.mem_cons.1 hz with hze | hzm
        · rw [hze]
          exact (hpreF x hx).1
        · exact (List.pairwise_append.1 hsplit1).2.2 x hx z hzm
    · rw [hdec, List.pairwise_append]
      refine ⟨(List.pairwise_append.1 hsplit2).1, ?_, ?_⟩
      · rw [List.pairwise_cons]
        refine ⟨?_, (List.pairwise_append.1 hsplit2).2.1⟩
        intro y hy
        have h1 := hsufF y hy
        exact eq_false_of_cmp_ne Q (by omega)
      · intro x hx z hz
        rcases List.mem_cons.1 hz with hze | hzm
        · rw [hze]
          exact (hpreF x hx).2
        · exact (List.pairwise_append.1 hsplit2).2.2 x hx z hzm
    · intro v
      rw [hdec, List.mem_append, List.mem_cons]
      constructor
      · rintro (hv | hv | hv)
        · exact Or.inr ⟨(l.take_sublist _).subset hv, (hpreF v hv).2⟩
        · exact Or.inl hv
        · refine Or.inr ⟨(l.drop_sublist _).subset hv, ?_⟩
          have h1 := hsufF v hv
          have h2 := L.flip_lt e v
          exact eq_false_of_cmp_ne Q (by omega)
      · rintro (hve | ⟨hvl, _⟩)
        · exact Or.inr (Or.inl hve)
        · have h1 : v ∈ l.take (search cmp eq l e).1 ++
              l.drop (search cmp eq l e).1 := by
            rw [List.take_append_drop]
            exact hvl
          rcases List.mem_append.1 h1 with h2 | h2
          · exact Or.inl h2
          · exact Or.inr (Or.inr h2)
    · exact List.length_insertIdx _ _ hilen

/-- `Remove` on a sorted-unique sequence: the result is sorted-unique and
holds exactly the elements not identified with `e`. -/
theorem remove1_spec {cmp : E → E → Int} {eq : E → E → Bool}
    (L : LawfulCmp cmp) (Q : LawfulEq cmp eq) (l : List E) (e : E)
    (hsu : SortedUniq cmp eq l) :
    SortedUniq cmp eq (remove1 cmp eq l e) ∧
    (∀ v, v ∈ remove1 cmp eq l e ↔ (v ∈ l ∧ eq v e = false)) ∧
    (remove1 cmp eq l e).length =
      (if contains cmp eq l e = true then l.length - 1 else l.length) := by
  have hsp := search_spec L Q l e hsu.1
  have hrem : remove1 cmp eq l e =
      (if (search cmp eq l e).2 = true then l.eraseIdx (search cmp eq l e).1
       else l) := rfl
  have hcon : contains cmp eq l e = (search cmp eq l e).2 := rfl
  cases hf : (search cmp eq l e).2 with
  | true =>
    rw [hrem, hcon, hf, if_pos rfl, if_pos rfl]
    rcases hsp.2.2.1 hf with ⟨hilen, heqw⟩
    have hdec := List.eraseIdx_eq_take_drop_succ l (search cmp eq l e).1
    refine ⟨⟨hsu.1.sublist (List.eraseIdx_sublist l _),
      hsu.2.sublist (List.eraseIdx_sublist l _)⟩, ?_,
      List.length_eraseIdx_of_lt hilen⟩
    intro v
    constructor
    · intro hv
      refine ⟨(List.eraseIdx_sublist l _).subset hv, ?_⟩
      rw [hdec] at hv
      rcases List.mem_append.1 hv with hv1 | hv1
      · rcases mem_take_pos l _ v hv1 e with ⟨j, hjn, hjl, hjv⟩
        have h1 := (hsp.2.1 j hjn).2
        rw [hjv] at h1
        exact h1
      · rcases mem_drop_pos l _ v hv1 e with ⟨j, hjn, hjl, hjv⟩
        cases hev : eq v e with
        | false => rfl
        | true =>
          have h3 := Q.trans _ e _ heqw (Q.symm v e hev)
          rw [← hjv] at h3
          rw [pairwise_getD hsu.2 e (by omega) hjl] at h3
          exact absurd h3 (by simp)
    · rintro ⟨hvl, hvne⟩
      rcases mem_getD_pos l v hvl e with ⟨j, hj, hjv⟩
      have hji : (search cmp eq l e).1 ≠ j := by
        intro h
        rw [← h] at hjv
        rw [hjv] at heqw
        rw [hvne] at heqw
        exact absurd heqw (by simp)
      rw [hdec]
      rcases Nat.lt_or_ge j (search cmp eq l e).1 with hjlt | hjge
      · exact List.mem_append_left _ (hjv ▸ getD_mem_take l hjlt hj e)
      · have hjgt : (search cmp eq l e).1 + 1 ≤ j := by omega
        exact List.mem_append_right _ (hjv ▸ getD_mem_drop l hjgt hj e)
  | false =>
    rw [hrem, hcon, hf, if_neg (by simp), if_neg (by simp)]
    refine ⟨hsu, ?_, rfl⟩
    intro v
    constructor
    · intro hv
      refine ⟨hv, ?_⟩
      rcases mem_getD_pos l v hv e with ⟨j, hj, hjv⟩
      rcases Nat.lt_or_ge j (search cmp eq l e).1 with hjlt | hjge
      · have h1 := (hsp.2.1 j hjlt).2
        rw [hjv] at h1
        exact h1
      · have h1 := hsp.2.2.2 hf j hjge hj
        rw [hjv] at h1
        have h2 := L.flip_lt e v
        exact eq_false_of_cmp_ne Q (by omega)
    · exact fun h => h.1

/-!
## The batched operations and iterated insertion
-/

theorem insertAll_eq [Inhabited E] (cmp : E → E → Int) (eq : E → E → Bool)
    (l m : List E) :
    insertAll cmp eq l m =
      some (mergeFun cmp eq l (stableSortUniqCmpEq cmp eq m)) :=
  mergeSortedLists_eq_mergeFun cmp eq l (stableSortUniqCmpEq cmp eq m)

theorem removeAll_eq (cmp : E → E → Int) (eq : E → E → Bool) (l m : List E) :
    removeAll cmp eq l m =
      some (deleteFun cmp eq l (stableSortCmp cmp m)) :=
  diffSortedLists_eq_deleteFun cmp eq l (stableSortCmp cmp m)

/-- The batched insertion keeps the sequence sorted-unique and its
identity classes become the union of the old classes and the batch's. -/
theorem insertAll_spec [Inhabited E] {cmp : E → E → Int} {eq : E → E → Bool}
    (L : LawfulCmp cmp) (Q : LawfulEq cmp eq) (l m : List E)
    (hsu : SortedUniq cmp eq l) :
    SortedUniq cmp eq (mergeFun cmp eq l (stableSortUniqCmpEq cmp eq m)) ∧
    (∀ e, (∃ w ∈ mergeFun cmp eq l (stableSortUniqCmpEq cmp eq m),
        eq w e = true) ↔
      ((∃ w ∈ l, eq w e = true) ∨ (∃ w ∈ m, eq w e = true))) := by
  have hsd := stableSortUniqCmpEq_spec L Q m
  have hmf := mergeFun_spec L Q l (stableSortUniqCmpEq cmp eq m) hsu hsd.1
  refine ⟨hmf.1, ?_⟩
  intro e
  have hstep : (∃ w ∈ mergeFun cmp eq l (stableSortUniqCmpEq cmp eq m),
      eq w e = true) ↔
      ((∃ w ∈ l, eq w e = true) ∨
       (∃ w ∈ stableSortUniqCmpEq cmp eq m, eq w e = true)) := by
    constructor
    · rintro ⟨w, hw, hwe⟩
      rcases (hmf.2 w).1 hw with hw1 | ⟨hw1, _⟩
      · exact Or.inr ⟨w, hw1, hwe⟩
      · exact Or.inl ⟨w, hw1, hwe⟩
    · rintro (⟨w, hw, hwe⟩ | ⟨w, hw, hwe⟩)
      · by_cases hm : ∃ y ∈ stableSortUniqCmpEq cmp eq m, eq y w = true
        · rcases hm with ⟨y, hy, hyw⟩
          refine ⟨y, (hmf.2 y).2 (Or.inl hy), Q.trans y w e hyw hwe⟩
        · push_neg at hm
          refine ⟨w, (hmf.2 w).2 (Or.inr ⟨hw, ?_⟩), hwe⟩
          intro y hy
          cases h : eq y w with
          | false => rfl
          | true => exact absurd h (by simp [hm y hy])
      · exact ⟨w, (hmf.2 w).2 (Or.inl hw), hwe⟩
  rw [hstep, hsd.2.2 e]

/-- Iterated single insertion: sorted-unique is preserved and the identity
classes become the union of the old classes and the batch's. -/
theorem insertFold_spec {cmp : E → E → Int} {eq : E → E → Bool}
    (L : LawfulCmp cmp) (Q : LawfulEq cmp eq) :
    ∀ (m l : List E), SortedUniq cmp eq l →
      SortedUniq cmp eq (m.foldl (insert1 cmp eq) l) ∧
      (∀ e, (∃ w ∈ m.foldl (insert1 cmp eq) l, eq w e = true) ↔
        ((∃ w ∈ l, eq w e = true) ∨ (∃ w ∈ m, eq w e = true)))
  | [], l, hsu => by
    rw [List.foldl_nil]
    refine ⟨hsu, fun e => ?_⟩
    simp
  | x :: m', l, hsu => by
    rw [List.foldl_cons]
    have hx := insert1_spec L Q l x hsu
    have hih := insertFold_spec L Q m' (insert1 cmp eq l x) hx.1
    refine ⟨hih.1, ?_⟩
    intro e
    rw [hih.2 e]
    have hclass : (∃ w ∈ insert1 cmp eq l x, eq w e = true) ↔
        (eq x e = true ∨ ∃ w ∈ l, eq w e = true) := by
      constructor
      · rintro ⟨w, hw, hwe⟩
        rcases (hx.2.1 w).1 hw with hw1 | ⟨hw1, _⟩
        · rw [hw1] at hwe
          exact Or.inl hwe
        · exact Or.inr ⟨w, hw1, hwe⟩
      · rintro (hxe | ⟨w, hw, hwe⟩)
        · exact ⟨x, (hx.2.1 x).2 (Or.inl rfl), hxe⟩
        · cases hwx : eq w x with
          | false => exact ⟨w, (hx.2.1 w).2 (Or.inr ⟨hw, hwx⟩), hwe⟩
          | true =>
            refine ⟨x, (hx.2.1 x).2 (Or.inl rfl), ?_⟩
            exact Q.trans x w e (Q.symm w x hwx) hwe
    rw [hclass]
    constructor
    · rintro ((hxe | hl) | hm)
      · exact Or.inr ⟨x, List.mem_cons_self x m', hxe⟩
      · exact Or.inl hl
      · rcases hm with ⟨w, hw, hwe⟩
        exact Or.inr ⟨w, List.mem_cons_of_mem x hw, hwe⟩
    · rintro (hl | ⟨w, hw, hwe⟩)
      · exact Or.inl (Or.inr hl)
      · rcases List.mem_cons.1 hw with hwx | hwm
        · rw [hwx] at hwe
          exact Or.inl (Or.inl hwe)
        · exact Or.inr ⟨w, hwm, hwe⟩

theorem length_eq_of_same_classes {cmp : E → E → Int} {eq : E → E → Bool}
    (Q : LawfulEq cmp eq) :
    ∀ (l1 l2 : List E),
      l1.Pairwise (fun a b => eq a b = false) →
      l2.Pairwise (fun a b => eq a b = false) →
      (∀ e, (∃ w ∈ l1, eq w e = true) ↔ (∃ w ∈ l2, eq w e = true)) →
      l1.length = l2.length
  | [], l2, _, _, hcl => by
    cases l2 with
    | nil => rfl
    | cons y t =>
      have h1 := (hcl y).2 ⟨y, List.mem_cons_self y t, Q.refl y⟩
      rcases h1 with ⟨w, hw, _⟩
      exact absurd hw (by simp)
  | x :: t1, l2, hp1, hp2, hcl => by
    have hx2 : ∃ w ∈ l2, eq w x = true :=
      (hcl x).1 ⟨x, List.mem_cons_self x t1, Q.refl x⟩
    rcases hx2 with ⟨w, hw, hwx⟩
    rcases List.append_of_mem hw with ⟨u, v, huv⟩
    rw [huv] at hp2
    have hp2' : (u ++ v).Pairwise (fun a b => eq a b = false) := by
      rw [List.pairwise_append] at hp2 ⊢
      refine ⟨hp2.1, (List.pairwise_cons.1 hp2.2.1).2, ?_⟩
      intro a ha b hb
      exact hp2.2.2 a ha b (List.mem_cons_of_mem w hb)
    have hwu : ∀ z ∈ u, eq z w = false := by
      intro z hz
      exact (List.pairwise_append.1 hp2).2.2 z hz w (List.mem_cons_self w v)
    have hwv : ∀ z ∈ v, eq w z = false := (List.pairwise_cons.1
      (List.pairwise_append.1 hp2).2.1).1
    have hcl' : ∀ e, (∃ z ∈ t1, eq z e = true) ↔ (∃ z ∈ u ++ v, eq z e = true) := by
      intro e
      constructor
      · rintro ⟨z, hz, hze⟩
        have h1 := (hcl e).1 ⟨z, List.mem_cons_of_mem x hz, hze⟩
        rcases h1 with ⟨w2, hw2, hw2e⟩
        rw [huv] at hw2
        rcases List.mem_append.1 hw2 with h2 | h2
        · exact ⟨w2, List.mem_append_left _ h2, hw2e⟩
        · rcases List.mem_cons.1 h2 with h3 | h3
          · exfalso
            rw [h3] at hw2e
            have h5 : eq z x = true :=
              Q.trans z e x hze (Q.trans e w x (Q.symm w e hw2e) hwx)
            have h6 := (List.pairwise_cons.1 hp1).1 z hz
            have h7 := Q.symm z x h5
            rw [h6] at h7
            exact absurd h7 (by simp)
          · exact ⟨w2, List.mem_append_right _ h3, hw2e⟩
      · rintro ⟨z, hz, hze⟩
        have hz2 : z ∈ l2 := by
          rw [huv]
          rcases List.mem_append.1 hz with h2 | h2
          · exact List.mem_append_left _ h2
          · exact List.mem_append_right _ (List.mem_cons_of_mem w h2)
        have h1 := (hcl e).2 ⟨z, hz2, hze⟩
        rcases h1 with ⟨w2, hw2, hw2e⟩
        rcases List.mem_cons.1 hw2 with h3 | h3
        · exfalso
          rw [h3] at hw2e
          have hzw : eq z w = false := by
            rcases List.mem_append.1 hz with h4 | h4
            · exact hwu z h4
            · cases h5 : eq z w with
              | false => rfl
              | true =>
                have h6 := Q.symm z w h5
                rw [hwv z h4] at h6
                exact absurd h6 (by simp)
          have h7 : eq z w = true :=
            Q.trans z e w hze (Q.trans e x w (Q.symm x e hw2e)
              (Q.symm w x hwx))
          rw [hzw] at h7
          exact absurd h7 (by simp)
        · exact ⟨w2, h3, hw2e⟩
    have hih := length_eq_of_same_classes Q t1 (u ++ v)
      (List.pairwise_cons.1 hp1).2 hp2' hcl'
    rw [huv]
    simp only [List.length_cons, List.length_append] at hih ⊢
    omega

/-- The batched removal keeps the sequence sorted-unique and keeps exactly
the elements with no identity match in the batch. -/
theorem removeAll_spec {cmp : E → E → Int} {eq : E → E → Bool}
    (L : LawfulCmp cmp) (Q : LawfulEq cmp eq) (l m : List E)
    (hsu : SortedUniq cmp eq l) :
    SortedUniq cmp eq (deleteFun cmp eq l (stableSortCmp cmp m)) ∧
    (∀ v, v ∈ deleteFun cmp eq l (stableSortCmp cmp m) ↔
      (v ∈ l ∧ ∀ y ∈ m, eq v y = false)) := by
  rw [deleteFun_spec L Q l (stableSortCmp cmp m) hsu.1 (stableSortCmp_sorted L m)]
  constructor
  · exact ⟨hsu.1.sublist (List.filter_sublist l),
      hsu.2.sublist (List.filter_sublist l)⟩
  · intro v
    rw [List.mem_filter]
    constructor
    · rintro ⟨hv, hp⟩
      refine ⟨hv, ?_⟩
      intro y hy
      have h1 : ((stableSortCmp cmp m).any (fun y => eq v y)) = false := by
        cases h : ((stableSortCmp cmp m).any (fun y => eq v y)) with
        | false => rfl
        | true =>
          rw [h] at hp
          exact absurd hp (by simp)
      rw [List.any_eq_false] at h1
      have h2 := h1 y ((stableSortCmp_perm cmp m).mem_iff.2 hy)
      simpa using h2
    · rintro ⟨hv, hp⟩
      refine ⟨hv, ?_⟩
      have h1 : ((stableSortCmp cmp m).any (fun y => eq v y)) = false := by
        rw [List.any_eq_false]
        intro y hy
        simp [hp y ((stableSortCmp_perm cmp m).mem_iff.1 hy)]
      rw [h1]
      rfl

/-- The mutating public operations of the sorted set, as data: single and
batched insertion and removal (`InsertSet`/`RemoveSet` delegate to the
batched forms on the other set's element list). -/
inductive SetOp (E : Type) where
  | insertOp (e : E)
  | insertAllOp (es : List E)
  | removeOp (e : E)
  | removeAllOp (es : List E)

/-- One public mutating operation on the element sequence; `none` models a
runtime panic inside the batched passes. -/
def applyOp [Inhabited E] (cmp : E → E → Int) (eq : E → E → Bool)
    (l : List E) : SetOp E → Option (List E)
  | SetOp.insertOp e => some (insert1 cmp eq l e)
  | SetOp.insertAllOp es => insertAll cmp eq l es
  | SetOp.removeOp e => some (remove1 cmp eq l e)
  | SetOp.removeAllOp es => removeAll cmp eq l es

/-- A sequence of public mutating operations. -/
def applyOps [Inhabited E] (cmp : E → E → Int) (eq : E → E → Bool)
    (l : List E) : List (SetOp E) → Option (List E)
  | [] => some l
  | op :: ops =>
    match applyOp cmp eq l op with
    | some l2 => applyOps cmp eq l2 ops
    | none => none

/-- Every public mutating operation returns (no panic) and preserves the
sorted-unique invariant. -/
theorem applyOps_spec [Inhabited E] {cmp : E → E → Int} {eq : E → E → Bool}
    (L : LawfulCmp cmp) (Q : LawfulEq cmp eq) :
    ∀ (ops : List (SetOp E)) (l : List E), SortedUniq cmp eq l →
      ∃ r, applyOps cmp eq l ops = some r ∧ SortedUniq cmp eq r
  | [], l, hsu => ⟨l, rfl, hsu⟩
  | op :: ops, l, hsu => by
    rw [applyOps]
    cases op with
    | insertOp e =>
      rw [applyOp]
      exact applyOps_spec L Q ops (insert1 cmp eq l e)
        (insert1_spec L Q l e hsu).1
    | insertAllOp es =>
      rw [applyOp, insertAll_eq]
      exact applyOps_spec L Q ops _ (insertAll_spec L Q l es hsu).1
    | removeOp e =>
      rw [applyOp]
      exact applyOps_spec L Q ops (remove1 cmp eq l e)
        (remove1_spec L Q l e hsu).1
    | removeAllOp es =>
      rw [applyOp, removeAll_eq]
      exact applyOps_spec L Q ops _ (removeAll_spec L Q l es hsu).1

/-- Without any assumption on the comparison or equality functions, no
operation sequence can produce a panic (`none`). -/
theorem applyOps_isSome [Inhabited E] (cmp : E → E → Int) (eq : E → E → Bool) :
    ∀ (ops : List (SetOp E)) (l : List E),
      (applyOps cmp eq l ops).isSome = true
  | [], l => rfl
  | op :: ops, l => by
    rw [applyOps]
    cases op with
    | insertOp e =>
      rw [applyOp]
      exact applyOps_isSome cmp eq ops _
    | insertAllOp es =>
      rw [applyOp, insertAll_eq]
      exact applyOps_isSome cmp eq ops _
    | removeOp e =>
      rw [applyOp]
      exact applyOps_isSome cmp eq ops _
    | removeAllOp es =>
      rw [applyOp, removeAll_eq]
      exact applyOps_isSome cmp eq ops _

/-- Modelled from the spec: the sorted-then-per-run-deduplicated sequence,
runs taken maximal by order key. -/
def specDedupRuns (cmp : E → E → Int) (eq : E → E → Bool) : List E → List E
  | [] => []
  | v0 :: rest =>
    specDedupRun eq (uniqRunSplit cmp (v0 :: rest)).1 ++
      specDedupRuns cmp eq (uniqRunSplit cmp (v0 :: rest)).2
  termination_by l => l.length
  decreasing_by
  · have := uniqRunSplit_snd_length cmp v0 rest
    simp only [List.length_cons]
    omega

theorem uniqCmpEq_eq_specDedupRuns {cmp : E → E → Int} {eq : E → E → Bool}
    (Q : LawfulEq cmp eq) :
    ∀ (l : List E), uniqCmpEq cmp eq l = specDedupRuns cmp eq l
  | [] => by
    rw [uniqCmpEq, specDedupRuns]
  | v0 :: rest => by
    rw [uniqCmpEq, specDedupRuns]
    rw [uniqEqSlow_eq_specDedupRun Q,
      uniqCmpEq_eq_specDedupRuns Q (uniqRunSplit cmp (v0 :: rest)).2]
  termination_by l => l.length
  decreasing_by
  · simp only [uniqRunSplit, List.length_cons]
    exact Nat.lt_succ_of_le (List.Sublist.length_le (List.dropWhile_sublist _))

theorem set_self_of_getD (x d : E) :
    ∀ (l : List E) (i : Nat), i < l.length → l.getD i d = x → l.set i x = l
  | y :: t, 0, _, h => by
    rw [List.getD_cons_zero] at h
    rw [List.set_cons_zero, h]
  | y :: t, i + 1, hl, h => by
    rw [List.getD_cons_succ] at h
    rw [List.set_cons_succ,
      set_self_of_getD x d t i (by simpa using hl) h]

/-- Inserting a value already stored verbatim changes nothing. -/
theorem insert1_of_mem {cmp : E → E → Int} {eq : E → E → Bool}
    (L : LawfulCmp cmp) (Q : LawfulEq cmp eq) (l : List E) (e : E)
    (hsu : SortedUniq cmp eq l) (he : e ∈ l) :
    insert1 cmp eq l e = l := by
  have hsp := search_spec L Q l e hsu.1
  have hcon : contains cmp eq l e = true :=
    (contains_iff L Q l e hsu.1).2 ⟨e, he, Q.refl e⟩
  have hf : (search cmp eq l e).2 = true := hcon
  have hins : insert1 cmp eq l e =
      (if (search cmp eq l e).2 = true then l.set (search cmp eq l e).1 e
       else l.insertIdx (search cmp eq l e).1 e) := rfl
  rw [hins, hf, if_pos rfl]
  rcases hsp.2.2.1 hf with ⟨hilen, heqw⟩
  rcases mem_getD_pos l e he e with ⟨p, hp, hpv⟩
  have hip : (search cmp eq l e).1 = p := by
    by_contra hne
    rcases Nat.lt_or_ge (search cmp eq l e).1 p with hlt | hge
    · have h1 := pairwise_getD hsu.2 e hlt hp
      rw [hpv] at h1
      rw [h1] at heqw
      exact absurd heqw (by simp)
    · have hlt2 : p < (search cmp eq l e).1 := by omega
      have h1 := pairwise_getD hsu.2 e hlt2 hilen
      rw [hpv] at h1
      have h2 := Q.symm _ e heqw
      rw [h1] at h2
      exact absurd h2 (by simp)
  apply set_self_of_getD e e l (search cmp eq l e).1 hilen
  rw [hip]
  exact hpv

/-!
## Concrete instances for the documented scenarios
-/

/-- The natural order comparison on `Int` (`cmp.Compare`). -/
def intCmp (a b : Int) : Int := a - b

/-- Natural equality on `Int`. -/
def intEq (a b : Int) : Bool := a == b

/-- Order a tagged value by its first component only. -/
def pairCmp (a b : Int × Int) : Int := a.1 - b.1

/-- Identity of a tagged value by its first component only. -/
def pairEqKey (a b : Int × Int) : Bool := a.1 == b.1

/-- Full identity of a tagged value. -/
def pairEqFull (a b : Int × Int) : Bool := a.1 == b.1 && a.2 == b.2

/-- Order strings by length. -/
def strCmpLen (a b : String) : Int := (a.length : Int) - (b.length : Int)

/-- Identity of strings by exact value. -/
def strEq (a b : String) : Bool := a == b

theorem intCmp_lawful : LawfulCmp intCmp := by
  refine ⟨?_, ?_, ?_, ?_⟩ <;> (intros; simp only [intCmp] at *; omega)

theorem intEq_lawful : LawfulEq intCmp intEq := by
  refine ⟨?_, ?_, ?_, ?_⟩
  · intro a
    simp [intEq]
  · intro a b h
    simp only [intEq, beq_iff_eq] at h ⊢
    omega
  · intro a b c h1 h2
    simp only [intEq, beq_iff_eq] at h1 h2 ⊢
    omega
  · intro a b h
    simp only [intEq, beq_iff_eq] at h
    simp only [intCmp]
    omega

theorem pairCmp_lawful : LawfulCmp pairCmp := by
  refine ⟨?_, ?_, ?_, ?_⟩ <;> (intros; simp only [pairCmp] at *; omega)

theorem pairEqKey_lawful : LawfulEq pairCmp pairEqKey := by
  refine ⟨?_, ?_, ?_, ?_⟩
  · intro a
    simp [pairEqKey]
  · intro a b h
    simp only [pairEqKey, beq_iff_eq] at h ⊢
    omega
  · intro a b c h1 h2
    simp only [pairEqKey, beq_iff_eq] at h1 h2 ⊢
    omega
  · intro a b h
    simp only [pairEqKey, beq_iff_eq] at h
    simp only [pairCmp]
    omega

theorem pairEqFull_lawful : LawfulEq pairCmp pairEqFull := by
  refine ⟨?_, ?_, ?_, ?_⟩
  · intro a
    simp [pairEqFull]
  · intro a b h
    simp only [pairEqFull, Bool.and_eq_true, beq_iff_eq] at h ⊢
    omega
  · intro a b c h1 h2
    simp only [pairEqFull, Bool.and_eq_true, beq_iff_eq] at h1 h2 ⊢
    omega
  · intro a b h
    simp only [pairEqFull, Bool.and_eq_true, beq_iff_eq] at h
    simp only [pairCmp]
    omega

theorem strCmpLen_lawful : LawfulCmp strCmpLen := by
  refine ⟨?_, ?_, ?_, ?_⟩ <;> (intros; simp only [strCmpLen] at *; omega)

theorem strEq_lawful : LawfulEq strCmpLen strEq := by
  refine ⟨?_, ?_, ?_, ?_⟩
  · intro a
    simp [strEq]
  · intro a b h
    simp only [strEq, beq_iff_eq] at h ⊢
    exact h.symm
  · intro a b c h1 h2
    simp only [strEq, beq_iff_eq] at h1 h2 ⊢
    exact h1.trans h2
  · intro a b h
    simp only [strEq, beq_iff_eq] at h
    simp [strCmpLen, h]

theorem scenario_merge_test :
    mergeSortedLists pairCmp pairEqKey
      [((1:Int), (0:Int)), (2, 0), (3, 0), (4, 0), (5, 0)]
      [(2, 1), (6, 1), (8, 1)] =
    some [(1, 0), (2, 1), (3, 0), (4, 0), (5, 0), (6, 1), (8, 1)] := by
  rw [mergeSortedLists_eq_mergeFun]
  simp [mergeFun, runSplit, reconcile, overwriteFirst, pairCmp, pairEqKey]

theorem scenario_insert_step1 :
    insert1 strCmpLen strEq [] "ab" = ["ab"] := by
  simp [insert1, search, sortSearch, sortSearchLoop, scanRun]

theorem scenario_insert_step2 :
    insert1 strCmpLen strEq ["ab"] "cd" = ["ab", "cd"] := by
  have h3 : strCmpLen "cd" "ab" = 0 := by decide
  have h4 : strEq "ab" "cd" = false := by decide
  simp [insert1, search, sortSearch, sortSearchLoop, scanRun, h3, h4]

theorem scenario_contains_ab :
    contains strCmpLen strEq ["ab", "cd"] "ab" = true := by
  have h1 : strCmpLen "ab" "cd" = 0 := by decide
  have h2 : strCmpLen "ab" "ab" = 0 := by decide
  have h3 : strEq "ab" "ab" = true := by decide
  simp [contains, search, sortSearch, sortSearchLoop, scanRun, h1, h2, h3]

theorem scenario_contains_cd :
    contains strCmpLen strEq ["ab", "cd"] "cd" = true := by
  have h1 : strCmpLen "cd" "cd" = 0 := by decide
  have h2 : strCmpLen "cd" "ab" = 0 := by decide
  have h3 : strEq "ab" "cd" = false := by decide
  have h4 : strEq "cd" "cd" = true := by decide
  simp [contains, search, sortSearch, sortSearchLoop, scanRun, h1, h2, h3, h4]

theorem scenario_delete_test :
    diffSortedLists intCmp intEq [1, 2, 3, 4, 5] [2, 4] = some [1, 3, 5] := by
  rw [diffSortedLists_eq_deleteFun]
  simp [deleteFun, runSplit, intCmp, intEq]

/-!
## The claims
-/

/-- C1: merging a sorted-unique batch B into a sorted-unique sequence A
with `MergeInto`/`mergeUniqSortedLists` returns, without a panic, the
sorted-unique union in which B's value wins on an identity collision; in
particular merging B = {2,6,8} into A = {1,2,3,4,5} (values tagged with
their origin, identity by order key) yields [1,2,3,4,5,6,8] with the
element 2 carrying B's tag. -/
theorem C1_mergeInto_sorted_unique_union :
    (∀ (F : Type) [Inhabited F] (cmp : F → F → Int) (eq : F → F → Bool),
      LawfulCmp cmp → LawfulEq cmp eq →
      ∀ (a b : List F), SortedUniq cmp eq a → SortedUniq cmp eq b →
        ∃ r, mergeSortedLists cmp eq a b = some r ∧ SortedUniq cmp eq r ∧
          (∀ v, v ∈ r ↔ (v ∈ b ∨ (v ∈ a ∧ ∀ y ∈ b, eq y v = false)))) ∧
    mergeSortedLists pairCmp pairEqKey
      [((1:Int), (0:Int)), (2, 0), (3, 0), (4, 0), (5, 0)]
      [(2, 1), (6, 1), (8, 1)] =
      some [(1, 0), (2, 1), (3, 0), (4, 0), (5, 0), (6, 1), (8, 1)] := by
  constructor
  · intro F instF cmp eq L Q a b ha hb
    have h := mergeFun_spec L Q a b ha hb
    exact ⟨mergeFun cmp eq a b, mergeSortedLists_eq_mergeFun cmp eq a b,
      h.1, h.2⟩
  · exact scenario_merge_test

/-- C2 counterexample: in a comparator set whose identity function
distinguishes elements of equal order key, a legal operation sequence
leaves the element sequence NOT strictly ascending by order key — two
stored elements compare equal — refuting the invariant as stated. -/
theorem C2_counterexample :
    ∃ r, applyOps pairCmp pairEqFull
        (newSortedCmpEqFunc pairCmp pairEqFull [((0:Int), (0:Int))])
        [SetOp.insertOp ((0:Int), (1:Int))] = some r ∧
      ¬ r.Pairwise (fun a b => pairCmp a b < 0) := by
  have h1 : newSortedCmpEqFunc pairCmp pairEqFull [((0:Int), (0:Int))] =
      [(0, 0)] := by
    simp [newSortedCmpEqFunc, stableSortUniqCmpEq, stableSortCmp,
      orderedInsertCmp, uniqCmpEq, uniqRunSplit, uniqEqSlow]
  have h2 : insert1 pairCmp pairEqFull [((0:Int), (0:Int))]
      ((0:Int), (1:Int)) = [(0, 0), (0, 1)] := by
    simp [insert1, search, sortSearch, sortSearchLoop, scanRun, pairCmp,
      pairEqFull]
  refine ⟨[(0, 0), (0, 1)], ?_, ?_⟩
  · simp only [h1, applyOps, applyOp, h2]
  · decide

/-- C2 (amended): for every sorted set built with lawful comparison and
identity functions and every sequence of mutating public operations, no
operation panics and `Elems()` stays NON-DECREASING by order key with no
two elements of equal identity.  (Strict ascent by order key fails for
comparator sets, which store identity-distinct elements of equal order
key side by side.) -/
theorem C2_invariant_nondecreasing_unique [Inhabited E] {cmp : E → E → Int}
    {eq : E → E → Bool} (L : LawfulCmp cmp) (Q : LawfulEq cmp eq)
    (elems : List E) (ops : List (SetOp E)) :
    ∃ r, applyOps cmp eq (newSortedCmpEqFunc cmp eq elems) ops = some r ∧
      SortedUniq cmp eq r :=
  applyOps_spec L Q ops (newSortedCmpEqFunc cmp eq elems)
    (stableSortUniqCmpEq_spec L Q elems).1

theorem C2_witness :
    ∃ r, applyOps intCmp intEq (newSortedCmpEqFunc intCmp intEq [3, 1, 2])
        [SetOp.insertOp 5, SetOp.removeOp 1] = some r ∧
      SortedUniq intCmp intEq r :=
  C2_invariant_nondecreasing_unique intCmp_lawful intEq_lawful [3, 1, 2]
    [SetOp.insertOp 5, SetOp.removeOp 1]

/-- C3: `StableSortDedup` stable-sorts by `cmp` (the result is a
permutation of the input, non-decreasing by order key) and then collapses
each run of equal-order-key elements to one element per distinct identity,
keeping the last occurrence's value for each identity in first-seen
identity order (`specDedupRun`, applied run by run). -/
theorem C3_stableSortDedup_semantics {cmp : E → E → Int} {eq : E → E → Bool}
    (L : LawfulCmp cmp) (Q : LawfulEq cmp eq) (l : List E) :
    (stableSortCmp cmp l).Perm l ∧
    (stableSortCmp cmp l).Pairwise (fun a b => cmp a b ≤ 0) ∧
    stableSortUniqCmpEq cmp eq l =
      specDedupRuns cmp eq (stableSortCmp cmp l) :=
  ⟨stableSortCmp_perm cmp l, stableSortCmp_sorted L l, by
    unfold stableSortUniqCmpEq
    exact uniqCmpEq_eq_specDedupRuns Q (stableSortCmp cmp l)⟩

theorem C3_witness :
    (stableSortCmp intCmp [2, 1, 2]).Perm [2, 1, 2] ∧
    (stableSortCmp intCmp [2, 1, 2]).Pairwise (fun a b => intCmp a b ≤ 0) ∧
    stableSortUniqCmpEq intCmp intEq [2, 1, 2] =
      specDedupRuns intCmp intEq (stableSortCmp intCmp [2, 1, 2]) :=
  C3_stableSortDedup_semantics intCmp_lawful intEq_lawful [2, 1, 2]

/-- C4: `DeleteFrom` removes from sorted A exactly the elements whose
identity matches some element of sorted B — it computes a filter — and
never panics; in particular deleting {2,4} from {1,2,3,4,5} yields
[1,3,5]. -/
theorem C4_deleteFrom_filter :
    (∀ (F : Type) (cmp : F → F → Int) (eq : F → F → Bool),
      LawfulCmp cmp → LawfulEq cmp eq →
      ∀ (a b : List F), a.Pairwise (fun x y => cmp x y ≤ 0) →
        b.Pairwise (fun x y => cmp x y ≤ 0) →
        diffSortedLists cmp eq a b =
          some (a.filter (fun x => !(b.any (fun y => eq x y))))) ∧
    diffSortedLists intCmp intEq [1, 2, 3, 4, 5] [2, 4] = some [1, 3, 5] := by
  constructor
  · intro F cmp eq L Q a b ha hb
    rw [diffSortedLists_eq_deleteFun, deleteFun_spec L Q a b ha hb]
  · exact scenario_delete_test

/-- C5: `InsertSet` (sort-dedup the batch, then batched merge) leaves the
set with exactly the membership of inserting the batch's elements one at a
time with `Insert`: the same `Contains` answer for every query and the
same `Len`. -/
theorem C5_insertSet_substitutable [Inhabited E] {cmp : E → E → Int}
    {eq : E → E → Bool} (L : LawfulCmp cmp) (Q : LawfulEq cmp eq)
    (l m : List E) (hsu : SortedUniq cmp eq l) :
    ∃ r, insertAll cmp eq l m = some r ∧
      (∀ e, contains cmp eq r e =
        contains cmp eq (m.foldl (insert1 cmp eq) l) e) ∧
      r.length = (m.foldl (insert1 cmp eq) l).length := by
  have hA := insertAll_spec L Q l m hsu
  have hB := insertFold_spec L Q m l hsu
  refine ⟨_, insertAll_eq cmp eq l m, ?_, ?_⟩
  · intro e
    apply Bool.eq_iff_iff.2
    rw [contains_iff L Q _ e hA.1.1, contains_iff L Q _ e hB.1.1]
    rw [hA.2 e, hB.2 e]
  · exact length_eq_of_same_classes Q _ _ hA.1.2 hB.1.2
      (fun e => by rw [hA.2 e, hB.2 e])

theorem C5_witness :
    ∃ r, insertAll intCmp intEq [1, 3] [2, 3] = some r ∧
      (∀ e, contains intCmp intEq r e =
        contains intCmp intEq ([2, 3].foldl (insert1 intCmp intEq) [1, 3]) e) ∧
      r.length = ([2, 3].foldl (insert1 intCmp intEq) [1, 3]).length :=
  C5_insertSet_substitutable intCmp_lawful intEq_lawful [1, 3] [2, 3]
    ⟨by decide, by decide⟩

/-- C6: `Contains` (binary search on the order key, then a linear identity
scan of the matched run) answers identity-class membership, so a
comparator set stores equal-order-key, distinct-identity elements as
distinct members: after inserting "ab" and "cd" into a set ordered by
string length with identity by exact value, both are contained and the
length is 2. -/
theorem C6_contains_by_identity :
    (∀ (F : Type) (cmp : F → F → Int) (eq : F → F → Bool),
      LawfulCmp cmp → LawfulEq cmp eq →
      ∀ (l : List F) (e : F), l.Pairwise (fun a b => cmp a b ≤ 0) →
        (contains cmp eq l e = true ↔ ∃ w ∈ l, eq w e = true)) ∧
    contains strCmpLen strEq
      (insert1 strCmpLen strEq (insert1 strCmpLen strEq [] "ab") "cd")
      "ab" = true ∧
    contains strCmpLen strEq
      (insert1 strCmpLen strEq (insert1 strCmpLen strEq [] "ab") "cd")
      "cd" = true ∧
    (insert1 strCmpLen strEq
      (insert1 strCmpLen strEq [] "ab") "cd").length = 2 := by
  refine ⟨?_, ?_, ?_, ?_⟩
  · intro F cmp eq L Q l e hs
    exact contains_iff L Q l e hs
  · rw [scenario_insert_step1, scenario_insert_step2]
    exact scenario_contains_ab
  · rw [scenario_insert_step1, scenario_insert_step2]
    exact scenario_contains_cd
  · rw [scenario_insert_step1, scenario_insert_step2]
    rfl

/-- C7: no public operation panics for any comparison and equality
functions, lawful or not: the batched merge and delete realizations keep
every computed index in bounds (`some`), and every operation sequence runs
to completion. -/
theorem C7_no_panic :
    ∀ (F : Type) [Inhabited F] (cmp : F → F → Int) (eq : F → F → Bool)
      (l m : List F) (ops : List (SetOp F)),
      (mergeSortedLists cmp eq l m).isSome = true ∧
      (diffSortedLists cmp eq l m).isSome = true ∧
      (applyOps cmp eq l ops).isSome = true := by
  intro F instF cmp eq l m ops
  refine ⟨?_, ?_, applyOps_isSome cmp eq ops l⟩
  · rw [mergeSortedLists_eq_mergeFun]
    rfl
  · rw [diffSortedLists_eq_deleteFun]
    rfl

/-- C8: `Insert(e)` twice leaves `Len()` and `Elems()` exactly as after
the first `Insert(e)`: the second insertion finds `e` and overwrites it
with itself. -/
theorem C8_insert_idempotent {cmp : E → E → Int} {eq : E → E → Bool}
    (L : LawfulCmp cmp) (Q : LawfulEq cmp eq) (l : List E) (e : E)
    (hsu : SortedUniq cmp eq l) :
    (insert1 cmp eq (insert1 cmp eq l e) e).length =
      (insert1 cmp eq l e).length ∧
    insert1 cmp eq (insert1 cmp eq l e) e = insert1 cmp eq l e := by
  have h1 := insert1_spec L Q l e hsu
  have h2 : e ∈ insert1 cmp eq l e := (h1.2.1 e).2 (Or.inl rfl)
  have h3 := insert1_of_mem L Q (insert1 cmp eq l e) e h1.1 h2
  exact ⟨by rw [h3], h3⟩

theorem C8_witness :
    (insert1 intCmp intEq (insert1 intCmp intEq [1, 3] 2) 2).length =
      (insert1 intCmp intEq [1, 3] 2).length ∧
    insert1 intCmp intEq (insert1 intCmp intEq [1, 3] 2) 2 =
      insert1 intCmp intEq [1, 3] 2 :=
  C8_insert_idempotent intCmp_lawful intEq_lawful [1, 3] 2
    ⟨by decide, by decide⟩

/-- C10: when the identity of `e` already occurs in the set, `Insert(e)`
replaces the matched element with `e`: the length is unchanged, `e` itself
is stored afterwards, and the old identity-matched element (when it
differs from `e`) is gone. -/
theorem C10_insert_overwrites_match {cmp : E → E → Int} {eq : E → E → Bool}
    (L : LawfulCmp cmp) (Q : LawfulEq cmp eq) (l : List E) (e : E)
    (hsu : SortedUniq cmp eq l) (hmatch : ∃ w ∈ l, eq w e = true) :
    (insert1 cmp eq l e).length = l.length ∧
    e ∈ insert1 cmp eq l e ∧
    (∀ w ∈ l, eq w e = true → w ≠ e → w ∉ insert1 cmp eq l e) := by
  have h1 := insert1_spec L Q l e hsu
  have hc : contains cmp eq l e = true := (contains_iff L Q l e hsu.1).2 hmatch
  refine ⟨by rw [h1.2.2, if_pos hc], (h1.2.1 e).2 (Or.inl rfl), ?_⟩
  intro w hw hwe hne hmem
  rcases (h1.2.1 w).1 hmem with h | ⟨_, h⟩
  · exact hne h
  · rw [hwe] at h
    exact absurd h (by simp)

theorem C10_witness :
    (insert1 pairCmp pairEqKey [((0:Int), (0:Int))]
      ((0:Int), (1:Int))).length = 1 ∧
    ((0:Int), (1:Int)) ∈ insert1 pairCmp pairEqKey [((0:Int), (0:Int))]
      ((0:Int), (1:Int)) ∧
    (∀ w ∈ [((0:Int), (0:Int))], pairEqKey w ((0:Int), (1:Int)) = true →
      w ≠ ((0:Int), (1:Int)) →
      w ∉ insert1 pairCmp pairEqKey [((0:Int), (0:Int))] ((0:Int), (1:Int))) :=
  C10_insert_overwrites_match pairCmp_lawful pairEqKey_lawful
    [((0:Int), (0:Int))] ((0:Int), (1:Int)) ⟨by decide, by decide⟩
    ⟨((0:Int), (0:Int)), by decide, by decide⟩

end SetsLib